import Mathlib

/-!
# bluemonday-css: the style allowlist engine (`policy.go`, `policy_builder.go`)

A shallow embedding of the Go package `css` and a verification of its
natural-language specification.

Modelling conventions.

* A Go `string` is modelled as the list of its characters (`GoString`), that
  is, as well-formed UTF-8 text; slicing by byte offsets becomes `take`/`drop`
  by character offsets.
* `strings.ToLower` and `strings.EqualFold` work character by character
  through the case tables of Go's `unicode` package.  The tables are outside
  the package and are a parameter (`Unicode`): every general theorem holds for
  all tables that lowercase ASCII the way `unicode.ToLower` does.  The
  scenarios of the tests, all ASCII text, are evaluated with `asciiUnicode`.
* A Go `map` is modelled as an association list with the usual lookup and
  update; the order of the list is the order in which `range` visits the
  entries.  `Policy.WF` states that keys are unique, as they are in a Go map.
* `*regexp.Regexp` is a pointer: `Regexp.ptr` is its identity (the map key),
  `Regexp.MatchString` its matching function.
* `func(string) bool` handlers are pure functions; a nil func, pointer or map
  is `none` (or the empty list for slices and maps, whose `len` is 0).
* The external declaration parser (`parser.ParseDeclarations`) and the table
  of default handlers (`GetDefaultHandler`) are parameters.
-/

namespace Css

/-! ## Strings -/

/-- Go strings: sequences of characters. -/
abbrev GoString := List Char

/-- The backslash character. -/
def backslash : Char := Char.ofNat 92

/-- The case tables of Go's `unicode` package that `strings.ToLower` and
`strings.EqualFold` consult. `ToLower` is `unicode.ToLower`; `foldsTo sr tr`
is the outcome of the loop of `strings.EqualFold` over `unicode.SimpleFold`
(`r := SimpleFold(sr); for r != sr && r < tr { r = SimpleFold(r) }; r == tr`),
that is, whether `tr` is in the case-folding orbit of `sr`. On ASCII
`unicode.ToLower` maps `A`-`Z` to `a`-`z` and nothing else. -/
class Unicode where
  ToLower : Char → Char
  foldsTo : Char → Char → Bool
  ToLower_ascii : ∀ c : Char, c.toNat < 128 → ToLower c = c.toLower

/-- The Go function `strings.ToLower`: `unicode.ToLower` on every character. -/
def ToLower [Unicode] (s : GoString) : GoString := s.map Unicode.ToLower

/-- One step of the loop of `strings.EqualFold`: the two characters are equal,
or, once ordered, both ASCII with the smaller an upper-case letter and the
larger its lower-case form, or not both ASCII and in one case-folding orbit. -/
def equalFoldRune [Unicode] (sr tr : Char) : Bool :=
  if tr = sr then true
  else
    let lo := if tr.toNat < sr.toNat then tr else sr
    let hi := if tr.toNat < sr.toNat then sr else tr
    if hi.toNat < 128 then
      decide (65 ≤ lo.toNat ∧ lo.toNat ≤ 90 ∧ hi.toNat = lo.toNat + 32)
    else Unicode.foldsTo lo hi

/-- The Go function `strings.EqualFold`: the texts have the same number of
characters and agree character by character under case folding. -/
def EqualFold [Unicode] : GoString → GoString → Bool
  | [], [] => true
  | sr :: s, tr :: t => equalFoldRune sr tr && EqualFold s t
  | _, _ => false

/-- The Go function `strings.HasPrefix`. -/
def HasPrefix (s pre : GoString) : Bool := pre.isPrefixOf s

/-- The Go function `strings.TrimPrefix`. -/
def TrimPrefix (s pre : GoString) : GoString :=
  if HasPrefix s pre then s.drop pre.length else s

/-- The Go function `strings.TrimRight(s, cutset)`. -/
def TrimRight (s cutset : GoString) : GoString :=
  (s.reverse.dropWhile (fun c => cutset.contains c)).reverse

/-- The Go predicate `unicode.IsSpace`. -/
def isSpace (c : Char) : Bool :=
  let n := c.toNat
  (9 ≤ n && n ≤ 13) || n == 32 || n == 0x85 || n == 0xA0 || n == 0x1680 ||
    (0x2000 ≤ n && n ≤ 0x200a) || n == 0x2028 || n == 0x2029 || n == 0x202f ||
    n == 0x205f || n == 0x3000

/-- The Go function `strings.TrimSpace`. -/
def TrimSpace (s : GoString) : GoString :=
  (((s.dropWhile isSpace).reverse).dropWhile isSpace).reverse

/-- The Go function `strings.Repeat` for a one-character string. -/
def Repeat (c : Char) (count : Nat) : GoString := List.replicate count c

/-- The Go function `strings.Join`. -/
def Join : List GoString → GoString → GoString
  | [], _ => []
  | [a], _ => a
  | a :: b :: rest, sep => a ++ sep ++ Join (b :: rest) sep

/-! ## Escape normalizer (`removeUnicode`) -/

/-- The character class `[0-9a-f]` of `cssUnicodeChar`. -/
def isHexLower (c : Char) : Bool :=
  (48 ≤ c.toNat && c.toNat ≤ 57) || (97 ≤ c.toNat && c.toNat ≤ 102)

/-- Length of the match of `cssUnicodeChar`, the regular expression
`\\[0-9a-f]{1,6} ?`, anchored at the start of `s`: a backslash, the longest run
of one to six hex digits, and a space when one follows. -/
def matchEscape (s : GoString) : Option Nat :=
  match s with
  | [] => none
  | c :: rest =>
    if c = backslash then
      let digits := (rest.takeWhile isHexLower).take 6
      if digits.length = 0 then none
      else if (rest.drop digits.length).head? = some ' ' then some (digits.length + 2)
      else some (digits.length + 1)
    else none

/-- Leftmost match of `cssUnicodeChar` in `s`, the offsets shifted by `i`. -/
def findEscapeFrom (i : Nat) (s : GoString) : Option (Nat × Nat) :=
  match s with
  | [] => none
  | c :: rest =>
    match matchEscape (c :: rest) with
    | some n => some (i, i + n)
    | none => findEscapeFrom (i + 1) rest

/-- The call `cssUnicodeChar.FindStringIndex(s)`: start and end offsets of the
leftmost match, or `none` (nil). -/
def FindStringIndex (s : GoString) : Option (Nat × Nat) := findEscapeFrom 0 s

/-- The inner loop of `removeUnicode`: while the text is longer than four
characters, drop a leading `0`, or give up with the empty text on any other
leading character. -/
def stripToFour (character : GoString) : GoString :=
  match character with
  | [] => []
  | c :: rest =>
    if (c :: rest).length > 4 then
      if c ≠ '0' then [] else stripToFour rest
    else c :: rest

/-- Value of a hex digit (Go `unhex`). -/
def unhex (c : Char) : Nat :=
  if 48 ≤ c.toNat ∧ c.toNat ≤ 57 then c.toNat - 48
  else if 97 ≤ c.toNat ∧ c.toNat ≤ 102 then c.toNat - 87
  else c.toNat - 55

/-- Value of a string of hex digits. -/
def hexValue (s : GoString) : Nat := s.foldl (fun v c => 16 * v + unhex c) 0

/-- The call `strconv.Unquote("\"\\u" + character + "\"")` for a text
`character` made of hex digits, as `removeUnicode` builds it: a syntax error
(`none`) when fewer than four digits follow `\u` or when the four digits denote
a surrogate code point, otherwise the denoted character followed by the
remaining digits. -/
def UnquoteU (character : GoString) : Option GoString :=
  if character.length < 4 then none
  else
    let v := hexValue (character.take 4)
    if 0xD800 ≤ v ∧ v ≤ 0xDFFF then none
    else some (Char.ofNat v :: character.drop 4)

/-- The text `character` of `removeUnicode` once padded or stripped to four
digits (lines 189-202 of `policy.go`). -/
def escapeDigits (substitutedValue : GoString) (currentLoc : Nat × Nat) : GoString :=
  let character := (substitutedValue.take currentLoc.2).drop (currentLoc.1 + 1)
  let character := TrimSpace character
  if character.length < 4 then Repeat '0' (4 - character.length) ++ character
  else stripToFour character

/-- The loop of `removeUnicode`, bounded by a number of iterations; `none`
when the bound is reached. -/
def removeUnicodeLoop (fuel : Nat) (substitutedValue : GoString) : Option GoString :=
  match fuel with
  | 0 => none
  | fuel + 1 =>
    match FindStringIndex substitutedValue with
    | none => some substitutedValue
    | some currentLoc =>
      match UnquoteU (escapeDigits substitutedValue currentLoc) with
      | none => some []
      | some translatedChar =>
        removeUnicodeLoop fuel
          (substitutedValue.take currentLoc.1 ++ TrimSpace translatedChar ++
            substitutedValue.drop currentLoc.2)

/-- The function `removeUnicode`.  Every iteration shortens the value, so one
more iteration than the value has characters is enough (`removeUnicodeLoop_isSome`). -/
def removeUnicode (value : GoString) : GoString :=
  (removeUnicodeLoop (value.length + 1) value).getD []

/-! ## Policy store -/

/-- A compiled regular expression behind a pointer. -/
structure Regexp where
  ptr : Nat
  MatchString : GoString → Bool

/-- The struct `stylePolicy`: one validation rule. -/
structure stylePolicy where
  handler : Option (GoString → Bool)
  regexp : Option Regexp
  enum : List GoString

/-- The type `map[string][]stylePolicy`. -/
abbrev StyleMap := List (GoString × List stylePolicy)

/-- The struct `Policy`. -/
structure Policy where
  elsAndStyles : List (GoString × StyleMap)
  elsMatchingAndStyles : List (Regexp × StyleMap)
  globalStyles : StyleMap

/-- Map update `m[k] = v` for string keys. -/
def mapSet {β : Type} (m : List (GoString × β)) (k : GoString) (v : β) :
    List (GoString × β) :=
  match m with
  | [] => [(k, v)]
  | e :: rest => if e.1 = k then (k, v) :: rest else e :: mapSet rest k v

/-- Map lookup `m[regex]` for the pointer-keyed map. -/
def matchingGet (m : List (Regexp × StyleMap)) (regex : Regexp) : Option StyleMap :=
  match m with
  | [] => none
  | e :: rest => if e.1.ptr = regex.ptr then some e.2 else matchingGet rest regex

/-- Map update `m[regex] = v` for the pointer-keyed map. -/
def matchingSet (m : List (Regexp × StyleMap)) (regex : Regexp) (v : StyleMap) :
    List (Regexp × StyleMap) :=
  match m with
  | [] => [(regex, v)]
  | e :: rest =>
    if e.1.ptr = regex.ptr then (e.1, v) :: rest else e :: matchingSet rest regex v

/-- The function `NewPolicy`. -/
def NewPolicy : Policy :=
  { elsAndStyles := [], elsMatchingAndStyles := [], globalStyles := [] }

/-- Keys are unique in every map of the policy. -/
def Policy.WF (p : Policy) : Prop :=
  (p.elsAndStyles.map Prod.fst).Nodup ∧
  (∀ e ∈ p.elsAndStyles, (e.2.map Prod.fst).Nodup) ∧
  ((p.elsMatchingAndStyles.map (fun e => e.1.ptr)).Nodup) ∧
  (∀ e ∈ p.elsMatchingAndStyles, (e.2.map Prod.fst).Nodup) ∧
  (p.globalStyles.map Prod.fst).Nodup

instance (p : Policy) : Decidable p.WF := by
  unfold Policy.WF
  infer_instance

/-! ## Sanitizer -/

/-- A parsed declaration (`css.Declaration` of the external parser); its
`Important` flag, which `Sanitize` does not read, is left out. -/
structure Declaration where
  Property : GoString
  Value : GoString
deriving DecidableEq

/-- The method `Policy.HasPolicies`. -/
def HasPolicies (self : Policy) (elementName : GoString) : Bool :=
  if self.globalStyles.length > 0 then true
  else if (match self.elsAndStyles.lookup elementName with
      | some policies => decide (policies.length > 0)
      | none => false) then true
  else self.elsMatchingAndStyles.any
    (fun e => e.1.MatchString elementName && decide (e.2.length > 0))

/-- The function `stringInSlice`. -/
def stringInSlice [Unicode] (needle : GoString) (haystack : List GoString) : Bool :=
  haystack.any (fun straw => EqualFold straw needle)

/-- The array `prefixes` of `Sanitize`. -/
def prefixes : List GoString :=
  ["-webkit-", "-moz-", "-ms-", "-o-", "mso-", "-xv-", "-atsc-", "-wap-",
    "-khtml-", "prince-", "-ah-", "-hp-", "-ro-", "-rim-", "-tc-"].map String.toList

/-- The rule set `sps` that `Sanitize` resolves for an element (lines 84-97). -/
def resolveStyles (self : Policy) (elementName : GoString) : StyleMap :=
  let sps := (self.elsAndStyles.lookup elementName).getD []
  if sps.length = 0 then
    self.elsMatchingAndStyles.foldl
      (fun sps e =>
        if e.1.MatchString elementName then
          e.2.foldl (fun sps kv => mapSet sps kv.1 ((sps.lookup kv.1).getD [] ++ kv.2)) sps
        else sps)
      []
  else sps

/-- The style text handed to the parser (lines 99-103). -/
def prepareStyle (style : GoString) : GoString :=
  let style := TrimRight style [' ']
  if style.length > 0 ∧ style.getLast? ≠ some ';' then style ++ [';'] else style

/-- The text `dec.Property + ": " + dec.Value`. -/
def declText (dec : Declaration) : GoString :=
  dec.Property ++ ": ".toList ++ dec.Value

/-- One iteration of the loop over a rule list: the `switch` on the rule, which
appends the declaration text to `clean` when the rule accepts, followed by
`continue`, which moves on to the next rule of the list. -/
def applyRule [Unicode] (dec : Declaration) (tempValue : GoString) (clean : List GoString)
    (sp : stylePolicy) : List GoString :=
  match sp.handler with
  | some handler => if handler tempValue then clean ++ [declText dec] else clean
  | none =>
    if sp.enum.length > 0 then
      if stringInSlice tempValue sp.enum then clean ++ [declText dec] else clean
    else
      match sp.regexp with
      | some regexp => if regexp.MatchString tempValue then clean ++ [declText dec] else clean
      | none => clean

/-- The block `if spl, ok := m[tempProperty]; ok { for _, sp := range spl ... }`. -/
def applyRules [Unicode] (dec : Declaration) (tempValue : GoString)
    (spl : Option (List stylePolicy)) (clean : List GoString) : List GoString :=
  match spl with
  | some spl => spl.foldl (applyRule dec tempValue) clean
  | none => clean

/-- The name used for rule lookup: lowercased, each listed vendor marker
trimmed once, in the order of the array. -/
def lookupName [Unicode] (property : GoString) : GoString :=
  prefixes.foldl TrimPrefix (ToLower property)

/-- The value given to the rules: lowercased, then escape-decoded. -/
def normalizedValue [Unicode] (value : GoString) : GoString :=
  removeUnicode (ToLower value)

/-- The body of the loop over the declarations (lines 116-166). -/
def sanitizeDeclaration [Unicode] (self : Policy) (sps : StyleMap) (clean : List GoString)
    (dec : Declaration) : List GoString :=
  let tempProperty := lookupName dec.Property
  let tempValue := normalizedValue dec.Value
  let clean := applyRules dec tempValue (sps.lookup tempProperty) clean
  applyRules dec tempValue (self.globalStyles.lookup tempProperty) clean

/-- What a call of `Sanitize` does: the slice `clean` when it returns, the
texts it handed to the declaration parser, and the returned string. -/
structure Run where
  clean : List GoString
  parserInputs : List GoString
  result : GoString

/-- The method `Policy.Sanitize`, with the calls to the external parser
`ParseDeclarations` recorded. -/
def SanitizeRun [Unicode] (ParseDeclarations : GoString → Option (List Declaration))
    (self : Policy) (elementName style : GoString) : Run :=
  if !HasPolicies self elementName then
    { clean := [], parserInputs := [], result := [] }
  else
    let sps := resolveStyles self elementName
    let style := prepareStyle style
    match ParseDeclarations style with
    | none => { clean := [], parserInputs := [style], result := [] }
    | some decs =>
      let clean := decs.foldl (sanitizeDeclaration self sps) []
      { clean := clean, parserInputs := [style],
        result := if clean.length > 0 then Join clean "; ".toList else [] }

/-- The method `Policy.Sanitize`. -/
def Sanitize [Unicode] (ParseDeclarations : GoString → Option (List Declaration))
    (self : Policy) (elementName style : GoString) : GoString :=
  (SanitizeRun ParseDeclarations self elementName style).result

/-! ## Policy builder -/

/-- The struct `PolicyBuilder`; the policy it points to is passed to the commit
operations. -/
structure PolicyBuilder where
  propertyNames : List GoString
  regexp : Option Regexp
  enum : List GoString
  handler : Option (GoString → Bool)

/-- The function `NewPolicyBuilder`. -/
def NewPolicyBuilder [Unicode] (propertyNames : List GoString) : PolicyBuilder :=
  { propertyNames := propertyNames.map ToLower, regexp := none, enum := [], handler := none }

/-- The method `Policy.AllowStyles`. -/
def AllowStyles [Unicode] (propertyNames : List GoString) : PolicyBuilder :=
  NewPolicyBuilder propertyNames

/-- The method `PolicyBuilder.Matching`. -/
def PolicyBuilder.Matching (self : PolicyBuilder) (regex : Option Regexp) : PolicyBuilder :=
  { self with regexp := regex }

/-- The method `PolicyBuilder.MatchingEnum`. -/
def PolicyBuilder.MatchingEnum (self : PolicyBuilder) (enum : List GoString) : PolicyBuilder :=
  { self with enum := enum }

/-- The method `PolicyBuilder.MatchingHandler`. -/
def PolicyBuilder.MatchingHandler (self : PolicyBuilder)
    (handler : Option (GoString → Bool)) : PolicyBuilder :=
  { self with handler := handler }

/-- The method `PolicyBuilder.stylePolicy`; `GetDefaultHandler` is the external
table of default handlers. -/
def PolicyBuilder.stylePolicy (GetDefaultHandler : GoString → Option (GoString → Bool))
    (self : PolicyBuilder) (attr : GoString) : stylePolicy :=
  match self.handler with
  | some handler => { handler := some handler, regexp := none, enum := [] }
  | none =>
    if self.enum.length > 0 then { handler := none, regexp := none, enum := self.enum }
    else
      match self.regexp with
      | some regexp => { handler := none, regexp := some regexp, enum := [] }
      | none => { handler := GetDefaultHandler attr, regexp := none, enum := [] }

/-- The method `PolicyBuilder.OnElements`. -/
def PolicyBuilder.OnElements [Unicode] (GetDefaultHandler : GoString → Option (GoString → Bool))
    (self : PolicyBuilder) (p : Policy) (elements : List GoString) : Policy :=
  elements.foldl
    (fun p element =>
      let element := ToLower element
      self.propertyNames.foldl
        (fun p attr =>
          let styles := (p.elsAndStyles.lookup element).getD []
          let sp := self.stylePolicy GetDefaultHandler attr
          let styles := mapSet styles attr ((styles.lookup attr).getD [] ++ [sp])
          { p with elsAndStyles := mapSet p.elsAndStyles element styles })
        p)
    p

/-- The method `PolicyBuilder.OnElementsMatching`. -/
def PolicyBuilder.OnElementsMatching (GetDefaultHandler : GoString → Option (GoString → Bool))
    (self : PolicyBuilder) (p : Policy) (regex : Regexp) : Policy :=
  let p : Policy :=
    match matchingGet p.elsMatchingAndStyles regex with
    | some _ => p
    | none => { p with elsMatchingAndStyles := matchingSet p.elsMatchingAndStyles regex [] }
  self.propertyNames.foldl
    (fun p attr =>
      let styles := (matchingGet p.elsMatchingAndStyles regex).getD []
      let sp := self.stylePolicy GetDefaultHandler attr
      let styles := mapSet styles attr ((styles.lookup attr).getD [] ++ [sp])
      { p with elsMatchingAndStyles := matchingSet p.elsMatchingAndStyles regex styles })
    p

/-- The method `PolicyBuilder.Globally`. -/
def PolicyBuilder.Globally (GetDefaultHandler : GoString → Option (GoString → Bool))
    (self : PolicyBuilder) (p : Policy) : Policy :=
  self.propertyNames.foldl
    (fun p attr =>
      let sp := self.stylePolicy GetDefaultHandler attr
      let styles := (p.globalStyles.lookup attr).getD [] ++ [sp]
      { p with globalStyles := mapSet p.globalStyles attr styles })
    p

/-! ## Notions used in the statements -/

/-- Whether a rule accepts a normalized value: the guards of the `switch` of
`Sanitize` (handler first, then a non-empty enumeration, then the pattern). -/
def ruleAccepts [Unicode] (sp : stylePolicy) (tempValue : GoString) : Bool :=
  match sp.handler with
  | some handler => handler tempValue
  | none =>
    if sp.enum.length > 0 then stringInSlice tempValue sp.enum
    else
      match sp.regexp with
      | some regexp => regexp.MatchString tempValue
      | none => false

/-- Number of rules of a looked-up rule list that accept a value. -/
def acceptCount [Unicode] (spl : Option (List stylePolicy)) (tempValue : GoString) : Nat :=
  (spl.getD []).countP (fun sp => ruleAccepts sp tempValue)

/-- Number of texts the loop body appends for a declaration. -/
def emitCount [Unicode] (self : Policy) (sps : StyleMap) (dec : Declaration) : Nat :=
  acceptCount (sps.lookup (lookupName dec.Property)) (normalizedValue dec.Value) +
    acceptCount (self.globalStyles.lookup (lookupName dec.Property)) (normalizedValue dec.Value)

/-- The rules of the resolved scope for a lookup name, in the words of the
specification: the exact-element rules of the element when they have at least
one property, otherwise the rules of every pattern matching the element. -/
def resolvedScopeRules (self : Policy) (elementName name : GoString) : List stylePolicy :=
  let exact := (self.elsAndStyles.lookup elementName).getD []
  if exact.length > 0 then (exact.lookup name).getD []
  else
    (self.elsMatchingAndStyles.filter (fun e => e.1.MatchString elementName)).flatMap
      (fun e => (e.2.lookup name).getD [])

/-- The rules considered for a lookup name: those of the resolved scope
together with the global ones. -/
def rulesConsidered (self : Policy) (elementName name : GoString) : List stylePolicy :=
  resolvedScopeRules self elementName name ++ (self.globalStyles.lookup name).getD []

/-- The digits of an escape that does not fit in four hex digits: five or six
hex digits with a non-zero digit before the last four. -/
def badEscape (h : GoString) : Bool :=
  h.all isHexLower && (h.length == 5 || h.length == 6) &&
    (h.take (h.length - 4)).any (fun c => c != '0')

/-- A parser that returns the same declarations for every text. -/
def constParser (decs : List Declaration) : GoString → Option (List Declaration) :=
  fun _ => some decs

/-! ## Policies and parsers of the tests -/

/-- The case tables restricted to ASCII: `A`-`Z` are lowercased, no character
beyond ASCII is changed or folded. They agree with Go's tables on ASCII text
and are used to evaluate the scenarios of the tests, which are ASCII text. -/
instance asciiUnicode : Unicode where
  ToLower := Char.toLower
  foldsTo := fun _ _ => false
  ToLower_ascii := fun _ _ => rfl

/-- The handler `trueHandler` of `policy_test.go`. -/
def trueHandler : GoString → Bool := fun _ => true

/-- A table of default handlers without any entry: every property gets the
handler that denies everything. -/
def noDefaultHandlers : GoString → Option (GoString → Bool) :=
  fun _ => some (fun _ => false)

/-- The compiled pattern `^my-element-` of `TestStyleOnElementMatching`. -/
def myElementPattern : Regexp :=
  { ptr := 1, MatchString := fun s => HasPrefix s "my-element-".toList }

/-- Pieces of a text between occurrences of a separator character. -/
def splitOn (sep : Char) : GoString → List GoString
  | [] => [[]]
  | c :: rest =>
    if c = sep then [] :: splitOn sep rest
    else
      match splitOn sep rest with
      | [] => [[c]]
      | piece :: pieces => (c :: piece) :: pieces

/-- One `property: value` text read as a declaration. -/
def parseDeclaration (piece : GoString) : Option Declaration :=
  match piece.dropWhile (fun c => c != ':') with
  | [] => none
  | _ :: value =>
    some { Property := TrimSpace (piece.takeWhile (fun c => c != ':')),
           Value := TrimSpace value }

/-- A small declaration parser for the scenarios of the tests. It is not the
external parser: it reads plain lists `property: value; ...` the way the
external one does (the declarations between semicolons, property and value
trimmed, an error when a piece has no colon), and is used on such lists only;
it skips blank pieces and splits a piece at its first colon only, where the
external parser may differ. General theorems take the parser as a parameter. -/
def simpleParser (style : GoString) : Option (List Declaration) :=
  (((splitOn ';' style).filter (fun piece => !(TrimSpace piece).isEmpty)).map
    parseDeclaration).allSome

/-- The first policy of `TestStyleOnElementMatching`: `color` and `mystyle`
with `trueHandler` on the elements matching `^my-element-`. -/
def matchingPolicy [Unicode] : Policy :=
  ((AllowStyles ["color".toList, "mystyle".toList]).MatchingHandler
    (some trueHandler)).OnElementsMatching noDefaultHandlers NewPolicy myElementPattern

/-- The second policy of `TestStyleOnElementMatching`: `color` and `mystyle` on
the element `my-element-demo-one`, then `color` and `customstyle` on the
elements matching `^my-element-`, all with `trueHandler`. -/
def overridePolicy [Unicode] : Policy :=
  ((AllowStyles ["color".toList, "customstyle".toList]).MatchingHandler
    (some trueHandler)).OnElementsMatching noDefaultHandlers
    (((AllowStyles ["color".toList, "mystyle".toList]).MatchingHandler
      (some trueHandler)).OnElements noDefaultHandlers NewPolicy
      ["my-element-demo-one".toList])
    myElementPattern

/-- The policy of `TestMatchingHandler`: `color` with `trueHandler`, globally. -/
def globalColorPolicy [Unicode] : Policy :=
  ((AllowStyles ["color".toList]).MatchingHandler (some trueHandler)).Globally
    noDefaultHandlers NewPolicy

/-- Two overlapping additive rules on one element, in the manner of
`TestAdditivePolicies`: `color` with the enumeration red, green on `span`, then
`color` with the enumeration red, blue on `span`. -/
def overlappingEnumPolicy [Unicode] : Policy :=
  ((AllowStyles ["color".toList]).MatchingEnum ["red".toList, "blue".toList]).OnElements
    noDefaultHandlers
    (((AllowStyles ["color".toList]).MatchingEnum ["red".toList, "green".toList]).OnElements
      noDefaultHandlers NewPolicy ["span".toList])
    ["span".toList]

/-- An element rule and a global rule for the same property: `color` with the
enumeration red, green on `span`, and `color` with the enumeration red, blue
globally. -/
def elementAndGlobalPolicy [Unicode] : Policy :=
  ((AllowStyles ["color".toList]).MatchingEnum ["red".toList, "blue".toList]).Globally
    noDefaultHandlers
    (((AllowStyles ["color".toList]).MatchingEnum ["red".toList, "green".toList]).OnElements
      noDefaultHandlers NewPolicy ["span".toList])

/-- One enumeration rule: `color` with the enumeration red, green on `span`. -/
def enumPolicy [Unicode] : Policy :=
  ((AllowStyles ["color".toList]).MatchingEnum ["red".toList, "green".toList]).OnElements
    noDefaultHandlers NewPolicy ["span".toList]

/-- One rule on one element: `color` with `trueHandler` on `span`. -/
def spanColorPolicy [Unicode] : Policy :=
  ((AllowStyles ["color".toList]).MatchingHandler (some trueHandler)).OnElements
    noDefaultHandlers NewPolicy ["span".toList]

/-- Hex digit in either case: the class `[0-9a-f]` under the flag `(?i)`. -/
def isHexAnyCase (c : Char) : Bool :=
  isHexLower c || (65 ≤ c.toNat && c.toNat ≤ 70)

/-- The compiled pattern `(?i)^#([0-9a-f]{3,4}|[0-9a-f]{6}|[0-9a-f]{8})$` of
`Example`: the whole text is a `#` followed by three, four, six or eight hex
digits in either case. -/
def hexColorPattern : Regexp :=
  { ptr := 2,
    MatchString := fun s =>
      match s with
      | [] => false
      | c :: digits =>
        c == '#' && digits.all isHexAnyCase &&
          (digits.length == 3 || digits.length == 4 || digits.length == 6 ||
            digits.length == 8) }

/-- The policy of the scenario of `Example`: `text-decoration` with the
enumeration underline, line-through, none on `span`, and `color` with the hex
colour pattern globally. -/
def examplePolicy [Unicode] : Policy :=
  ((AllowStyles ["color".toList]).Matching (some hexColorPattern)).Globally noDefaultHandlers
    (((AllowStyles ["text-decoration".toList]).MatchingEnum
      ["underline".toList, "line-through".toList, "none".toList]).OnElements
      noDefaultHandlers NewPolicy ["span".toList])

/-- The style text of the scenario of `Example`. -/
def exampleStyle : GoString :=
  ("text-decoration: underline; background-image: url(javascript:alert('XSS')); " ++
    "color: #f00ba; background-origin: invalidValue").toList

/-- The four declarations of the style of `Example`. -/
def exampleDeclarations : List Declaration :=
  [⟨"text-decoration".toList, "underline".toList⟩,
    ⟨"background-image".toList, "url(javascript:alert('XSS'))".toList⟩,
    ⟨"color".toList, "#f00ba".toList⟩,
    ⟨"background-origin".toList, "invalidValue".toList⟩]

/-- Number of strategies set in a rule, among handler, non-empty enumeration
and pattern. -/
def strategyCount (sp : stylePolicy) : Nat :=
  (if sp.handler.isSome then 1 else 0) + (if sp.enum.length > 0 then 1 else 0) +
    (if sp.regexp.isSome then 1 else 0)

/-- Every rule of a rule map satisfies `P`. -/
def StyleMap.Forall (P : stylePolicy → Prop) (m : StyleMap) : Prop :=
  ∀ kv ∈ m, ∀ sp ∈ kv.2, P sp

/-- Every rule stored in one of the three indices of the policy satisfies `P`. -/
def Policy.Forall (P : stylePolicy → Prop) (p : Policy) : Prop :=
  (∀ e ∈ p.elsAndStyles, StyleMap.Forall P e.2) ∧
  (∀ e ∈ p.elsMatchingAndStyles, StyleMap.Forall P e.2) ∧
  StyleMap.Forall P p.globalStyles

/-- The policies obtained from a new policy by a sequence of commits of
builders. -/
inductive Built [Unicode] (GetDefaultHandler : GoString → Option (GoString → Bool)) : Policy → Prop
  | newPolicy : Built GetDefaultHandler NewPolicy
  | onElements (b : PolicyBuilder) (p : Policy) (elements : List GoString) :
      Built GetDefaultHandler p → Built GetDefaultHandler (b.OnElements GetDefaultHandler p elements)
  | onElementsMatching (b : PolicyBuilder) (p : Policy) (regex : Regexp) :
      Built GetDefaultHandler p →
      Built GetDefaultHandler (b.OnElementsMatching GetDefaultHandler p regex)
  | globally (b : PolicyBuilder) (p : Policy) :
      Built GetDefaultHandler p → Built GetDefaultHandler (b.Globally GetDefaultHandler p)

/-- The rule list `m[k]` of a rule map, empty when the key is absent. -/
def ruleList (m : StyleMap) (k : GoString) : List stylePolicy :=
  (m.lookup k).getD []

/-- The rule list `elsAndStyles[element][property]`. -/
def Policy.elementRules (p : Policy) (element property : GoString) : List stylePolicy :=
  ruleList ((p.elsAndStyles.lookup element).getD []) property

/-- The rule list `elsMatchingAndStyles[regex][property]`. -/
def Policy.patternRules (p : Policy) (regex : Regexp) (property : GoString) :
    List stylePolicy :=
  ruleList ((matchingGet p.elsMatchingAndStyles regex).getD []) property

/-- The rule list `globalStyles[property]`. -/
def Policy.globalRules (p : Policy) (property : GoString) : List stylePolicy :=
  ruleList p.globalStyles property

/-- The update `m[attr] = append(m[attr], sp)` of a rule map, for the rule
`f attr`. -/
def appendRule (f : GoString → stylePolicy) (m : StyleMap) (attr : GoString) : StyleMap :=
  mapSet m attr ((m.lookup attr).getD [] ++ [f attr])

/-- The compiled pattern `^my-`. -/
def myPattern : Regexp :=
  { ptr := 3, MatchString := fun s => HasPrefix s "my-".toList }

/-- Two patterns that both match `my-element-...` and register different rules
for `color`: the enumeration red on the elements matching `^my-element-`, the
enumeration blue on the elements matching `^my-`. -/
def twoPatternPolicy [Unicode] : Policy :=
  ((AllowStyles ["color".toList]).MatchingEnum ["blue".toList]).OnElementsMatching
    noDefaultHandlers
    (((AllowStyles ["color".toList]).MatchingEnum ["red".toList]).OnElementsMatching
      noDefaultHandlers NewPolicy myElementPattern)
    myPattern

/-- The text `character` after the padding or stripping of lines 191-202 of
`policy.go`, as a function of the trimmed digits. -/
def padOrStrip (character : GoString) : GoString :=
  if character.length < 4 then Repeat '0' (4 - character.length) ++ character
  else stripToFour character

/-- Number of bytes of the UTF-8 encoding of a character. -/
def utf8Len (c : Char) : Nat :=
  if c.toNat < 0x80 then 1 else if c.toNat < 0x800 then 2 else if c.toNat < 0x10000 then 3 else 4

/-- Length in bytes of a Go string (`len`). -/
def byteLen (s : GoString) : Nat := (s.map utf8Len).sum

/-- The policy of the shadowing scenario: `customstyle` with `trueHandler` on
the elements matching `^my-element-`. -/
def customstylePolicy [Unicode] : Policy :=
  ((AllowStyles ["customstyle".toList]).MatchingHandler
    (some trueHandler)).OnElementsMatching noDefaultHandlers NewPolicy myElementPattern

/-- The builder of the shadowing scenario: `color` with `trueHandler`, not yet
committed. -/
def colorBuilder [Unicode] : PolicyBuilder :=
  (AllowStyles ["color".toList]).MatchingHandler (some trueHandler)

/-- The entries of a pattern map listed in another iteration order: the
patterns permuted, and the properties of each pattern's rule set permuted. -/
def Reordered (m m2 : List (Regexp × StyleMap)) : Prop :=
  ∃ mid, List.Perm m mid ∧
    List.Forall₂ (fun e e2 => e.1 = e2.1 ∧ List.Perm e.2 e2.2) mid m2

/-- The patterns of `twoPatternPolicy` listed in the opposite order. -/
def twoPatternsReversed [Unicode] : List (Regexp × StyleMap) :=
  twoPatternPolicy.elsMatchingAndStyles.reverse

/-! # Verification -/

/-! ## Lowercasing -/

/-- On ASCII text `strings.ToLower` lowercases the letters `A`-`Z` and leaves
the rest. -/
theorem ToLower_ascii_text [Unicode] (s : GoString) (h : ∀ c ∈ s, c.toNat < 128) :
    ToLower s = s.map Char.toLower := by
  unfold ToLower
  exact List.map_congr_left (fun c hc => Unicode.ToLower_ascii c (h c hc))

theorem ToLower_append [Unicode] (s t : GoString) :
    ToLower (s ++ t) = ToLower s ++ ToLower t := by
  unfold ToLower
  exact List.map_append _ _ _

/-! ## Rule evaluation -/

theorem applyRule_eq [Unicode] (dec : Declaration) (tempValue : GoString) (clean : List GoString)
    (sp : stylePolicy) :
    applyRule dec tempValue clean sp =
      if ruleAccepts sp tempValue then clean ++ [declText dec] else clean := by
  unfold applyRule ruleAccepts
  cases sp.handler with
  | some handler => rfl
  | none =>
    by_cases henum : sp.enum.length > 0
    · simp only [henum, if_true]
    · simp only [henum, if_false]
      cases sp.regexp with
      | some regexp => rfl
      | none => simp

theorem foldl_applyRule [Unicode] (dec : Declaration) (tempValue : GoString) (spl : List stylePolicy)
    (clean : List GoString) :
    spl.foldl (applyRule dec tempValue) clean =
      clean ++ List.replicate (spl.countP (fun sp => ruleAccepts sp tempValue)) (declText dec) := by
  induction spl generalizing clean with
  | nil => simp
  | cons sp rest ih =>
    rw [List.foldl_cons, ih, applyRule_eq, List.countP_cons]
    by_cases h : ruleAccepts sp tempValue = true
    · simp only [h, if_true, List.append_assoc]
      rw [Nat.add_comm, List.replicate_add]
      rfl
    · simp [h]

theorem applyRules_eq [Unicode] (dec : Declaration) (tempValue : GoString)
    (spl : Option (List stylePolicy)) (clean : List GoString) :
    applyRules dec tempValue spl clean =
      clean ++ List.replicate (acceptCount spl tempValue) (declText dec) := by
  cases spl with
  | none => simp [applyRules, acceptCount]
  | some l => simp [applyRules, acceptCount, foldl_applyRule]

theorem sanitizeDeclaration_eq [Unicode] (self : Policy) (sps : StyleMap) (clean : List GoString)
    (dec : Declaration) :
    sanitizeDeclaration self sps clean dec =
      clean ++ List.replicate (emitCount self sps dec) (declText dec) := by
  simp only [sanitizeDeclaration, applyRules_eq, emitCount, List.append_assoc,
    List.replicate_add]

theorem foldl_sanitizeDeclaration [Unicode] (self : Policy) (sps : StyleMap) (decs : List Declaration)
    (clean : List GoString) :
    decs.foldl (sanitizeDeclaration self sps) clean =
      clean ++ decs.flatMap
        (fun dec => List.replicate (emitCount self sps dec) (declText dec)) := by
  induction decs generalizing clean with
  | nil => simp
  | cons dec rest ih =>
    rw [List.foldl_cons, ih, sanitizeDeclaration_eq]
    simp [List.flatMap_cons]

/-! ## Maps and scope resolution -/

theorem lookup_cons_ne {β : Type} (m : List (GoString × β)) (k k' : GoString) (v : β)
    (h : ¬ k' = k) : List.lookup k' ((k, v) :: m) = List.lookup k' m := by
  have hb : (k' == k) = false := by simpa using h
  simp [List.lookup, hb]

theorem lookup_cons_self {β : Type} (m : List (GoString × β)) (k : GoString) (v : β) :
    List.lookup k ((k, v) :: m) = some v := by
  simp [List.lookup]

theorem lookup_mapSet {β : Type} (m : List (GoString × β)) (k k' : GoString) (v : β) :
    (mapSet m k v).lookup k' = if k' = k then some v else m.lookup k' := by
  induction m with
  | nil =>
    by_cases h : k' = k
    · subst h
      simp [mapSet, lookup_cons_self]
    · simp [mapSet, lookup_cons_ne _ _ _ _ h, h]
  | cons e rest ih =>
    obtain ⟨ek, ev⟩ := e
    by_cases he : ek = k
    · subst he
      by_cases h : k' = ek
      · subst h
        simp [mapSet, lookup_cons_self]
      · simp [mapSet, lookup_cons_ne _ _ _ _ h, h]
    · by_cases h2 : k' = ek
      · subst h2
        have hne : ¬ k' = k := he
        simp [mapSet, he, lookup_cons_self, hne]
      · simp only [mapSet, he, if_false, lookup_cons_ne _ _ _ _ h2, ih]

theorem lookup_eq_none_of_not_mem {β : Type} (m : List (GoString × β)) (k : GoString)
    (h : k ∉ m.map Prod.fst) : m.lookup k = none := by
  induction m with
  | nil => rfl
  | cons e rest ih =>
    obtain ⟨ek, ev⟩ := e
    simp only [List.map_cons, List.mem_cons, not_or] at h
    have hne : (k == ek) = false := by simpa using h.1
    simp [List.lookup, hne, ih h.2]

/-- The inner loop of scope resolution appends the rule list of every property
of one pattern to the list gathered so far. -/
theorem lookup_foldl_union (m : StyleMap) (sps : StyleMap) (k : GoString)
    (hm : (m.map Prod.fst).Nodup) :
    ((m.foldl (fun sps kv => mapSet sps kv.1 ((sps.lookup kv.1).getD [] ++ kv.2))
        sps).lookup k).getD [] =
      (sps.lookup k).getD [] ++ (m.lookup k).getD [] := by
  induction m generalizing sps with
  | nil => simp [List.lookup]
  | cons e rest ih =>
    obtain ⟨ek, ev⟩ := e
    simp only [List.map_cons, List.nodup_cons] at hm
    rw [List.foldl_cons, ih _ hm.2, lookup_mapSet]
    by_cases h : k = ek
    · subst h
      simp [List.lookup, lookup_eq_none_of_not_mem rest k hm.1]
    · have hne : (k == ek) = false := by simpa using h
      simp [List.lookup, h, hne]

/-- The outer loop of scope resolution gathers the rule lists of every
matching pattern, in iteration order. -/
theorem lookup_foldl_patterns (pats : List (Regexp × StyleMap)) (elementName : GoString)
    (sps : StyleMap) (k : GoString) (hp : ∀ e ∈ pats, (e.2.map Prod.fst).Nodup) :
    ((pats.foldl
        (fun sps e =>
          if e.1.MatchString elementName then
            e.2.foldl (fun sps kv => mapSet sps kv.1 ((sps.lookup kv.1).getD [] ++ kv.2)) sps
          else sps)
        sps).lookup k).getD [] =
      (sps.lookup k).getD [] ++
        (pats.filter (fun e => e.1.MatchString elementName)).flatMap
          (fun e => (e.2.lookup k).getD []) := by
  induction pats generalizing sps with
  | nil => simp
  | cons e rest ih =>
    have hrest : ∀ e' ∈ rest, (e'.2.map Prod.fst).Nodup :=
      fun e' he' => hp e' (List.mem_cons_of_mem _ he')
    rw [List.foldl_cons, ih _ hrest]
    by_cases hmatch : e.1.MatchString elementName = true
    · simp only [hmatch, if_true, List.filter_cons_of_pos, List.flatMap_cons]
      rw [lookup_foldl_union _ _ _ (hp e (List.mem_cons_self _ _)), List.append_assoc]
    · simp [hmatch]

/-- The rule set resolved by `Sanitize` holds, for every lookup name, the rules
the specification describes. -/
theorem resolveStyles_lookup (self : Policy) (elementName name : GoString)
    (hwf : self.WF) :
    ((resolveStyles self elementName).lookup name).getD [] =
      resolvedScopeRules self elementName name := by
  unfold resolveStyles resolvedScopeRules
  by_cases h : ((self.elsAndStyles.lookup elementName).getD []).length = 0
  · have h2 : ¬ ((self.elsAndStyles.lookup elementName).getD []).length > 0 := by omega
    simp only [h, h2, if_true, if_false]
    rw [lookup_foldl_patterns _ _ _ _ hwf.2.2.2.1]
    simp [List.lookup]
  · have h2 : ((self.elsAndStyles.lookup elementName).getD []).length > 0 := by omega
    simp only [h, h2, if_true, if_false]

theorem emitCount_resolve [Unicode] (self : Policy) (elementName : GoString) (dec : Declaration)
    (hwf : self.WF) :
    emitCount self (resolveStyles self elementName) dec =
      (rulesConsidered self elementName (lookupName dec.Property)).countP
        (fun sp => ruleAccepts sp (normalizedValue dec.Value)) := by
  unfold emitCount acceptCount rulesConsidered
  rw [resolveStyles_lookup self elementName _ hwf, List.countP_append]

/-- Without any policy for the element there is no rule to consider. -/
theorem rulesConsidered_of_not_hasPolicies (self : Policy) (elementName name : GoString)
    (h : HasPolicies self elementName = false) :
    rulesConsidered self elementName name = [] := by
  unfold HasPolicies at h
  by_cases hg : self.globalStyles.length > 0
  · simp [hg] at h
  · have hg0 : self.globalStyles = [] := List.length_eq_zero.mp (by omega)
    simp only [hg, if_false] at h
    have hexact : (self.elsAndStyles.lookup elementName).getD [] = [] := by
      cases hl : self.elsAndStyles.lookup elementName with
      | none => rfl
      | some policies =>
        rw [hl] at h
        by_cases hp : policies.length > 0
        · simp [hp] at h
        · simpa using List.length_eq_zero.mp (Nat.eq_zero_of_not_pos hp)
    have hany : self.elsMatchingAndStyles.any
        (fun e => e.1.MatchString elementName && decide (e.2.length > 0)) = false := by
      cases hl : self.elsAndStyles.lookup elementName with
      | none => rw [hl] at h; simpa using h
      | some policies =>
        rw [hl] at h
        by_cases hp : policies.length > 0
        · simp [hp] at h
        · simpa [hp] using h
    unfold rulesConsidered resolvedScopeRules
    simp only [hexact, hg0, List.length_nil, gt_iff_lt, Nat.lt_irrefl, if_false, List.lookup,
      Option.getD_none, List.append_nil]
    rw [List.flatMap_eq_nil_iff]
    intro e he
    rw [List.mem_filter] at he
    have := (List.any_eq_false.mp hany) e he.1
    simp only [he.2, Bool.true_and, decide_eq_true_eq] at this
    have he2 : e.2 = [] := List.length_eq_zero.mp (by omega)
    simp [he2, List.lookup]

/-! ## The sanitizer -/

theorem sanitizeRun_of_not_hasPolicies [Unicode] (ParseDeclarations : GoString → Option (List Declaration))
    (self : Policy) (elementName style : GoString)
    (h : HasPolicies self elementName = false) :
    SanitizeRun ParseDeclarations self elementName style =
      { clean := [], parserInputs := [], result := [] } := by
  simp [SanitizeRun, h]

theorem sanitizeRun_clean [Unicode] (ParseDeclarations : GoString → Option (List Declaration))
    (self : Policy) (elementName style : GoString) (decs : List Declaration)
    (hp : HasPolicies self elementName = true)
    (hparse : ParseDeclarations (prepareStyle style) = some decs) :
    (SanitizeRun ParseDeclarations self elementName style).clean =
      decs.flatMap (fun dec =>
        List.replicate (emitCount self (resolveStyles self elementName) dec) (declText dec)) := by
  simp [SanitizeRun, hp, hparse, foldl_sanitizeDeclaration]

theorem sanitize_eq_join [Unicode] (ParseDeclarations : GoString → Option (List Declaration))
    (self : Policy) (elementName style : GoString) :
    Sanitize ParseDeclarations self elementName style =
      Join (SanitizeRun ParseDeclarations self elementName style).clean "; ".toList := by
  unfold Sanitize SanitizeRun
  by_cases hp : HasPolicies self elementName = true
  · cases hparse : ParseDeclarations (prepareStyle style) with
    | none => simp [hp, hparse, Join]
    | some decs =>
      simp only [hp, hparse, Bool.not_true, Bool.false_eq_true, if_false]
      by_cases hc : (decs.foldl (sanitizeDeclaration self (resolveStyles self elementName)) []).length > 0
      · simp only [hc, if_true]
      · have : decs.foldl (sanitizeDeclaration self (resolveStyles self elementName)) [] = [] :=
          List.length_eq_zero.mp (by omega)
        simp [this, Join]
  · simp [hp, Join]

theorem sanitizeRun_clean_cases [Unicode] (ParseDeclarations : GoString → Option (List Declaration))
    (self : Policy) (elementName style : GoString) :
    (SanitizeRun ParseDeclarations self elementName style).clean = [] ∨
      ∃ decs, ParseDeclarations (prepareStyle style) = some decs ∧
        (SanitizeRun ParseDeclarations self elementName style).clean =
          decs.flatMap (fun dec =>
            List.replicate (emitCount self (resolveStyles self elementName) dec)
              (declText dec)) := by
  by_cases hp : HasPolicies self elementName = true
  · cases hparse : ParseDeclarations (prepareStyle style) with
    | none => left; simp [SanitizeRun, hp, hparse]
    | some decs => exact Or.inr ⟨decs, rfl, sanitizeRun_clean _ _ _ _ _ hp hparse⟩
  · left
    simp [SanitizeRun, hp]

/-- The clean list of a run, for a well-formed policy and a style that parses:
every parsed declaration contributes its text once per accepting rule among the
rules considered for it. -/
theorem sanitizeRun_clean_rules [Unicode] (ParseDeclarations : GoString → Option (List Declaration))
    (self : Policy) (elementName style : GoString) (decs : List Declaration)
    (hwf : self.WF) (hparse : ParseDeclarations (prepareStyle style) = some decs) :
    (SanitizeRun ParseDeclarations self elementName style).clean =
      decs.flatMap (fun dec =>
        List.replicate
          ((rulesConsidered self elementName (lookupName dec.Property)).countP
            (fun sp => ruleAccepts sp (normalizedValue dec.Value)))
          (declText dec)) := by
  by_cases hp : HasPolicies self elementName = true
  · rw [sanitizeRun_clean _ _ _ _ _ hp hparse]
    congr 1
    funext dec
    rw [emitCount_resolve _ _ _ hwf]
  · have hp2 : HasPolicies self elementName = false := by simpa using hp
    rw [sanitizeRun_of_not_hasPolicies _ _ _ _ hp2]
    symm
    rw [List.flatMap_eq_nil_iff]
    intro dec _
    simp [rulesConsidered_of_not_hasPolicies _ _ _ hp2]

theorem mem_infix_join (sep : GoString) (l : List GoString) (s : GoString) (h : s ∈ l) :
    s <:+: Join l sep := by
  induction l with
  | nil => cases h
  | cons a rest ih =>
    cases rest with
    | nil =>
      have : s = a := by simpa using h
      subst this
      exact List.infix_refl _
    | cons b rest2 =>
      rcases List.mem_cons.mp h with h1 | h1
      · subst h1
        exact ⟨[], sep ++ Join (b :: rest2) sep, by simp [Join]⟩
      · obtain ⟨u, t, hut⟩ := ih h1
        exact ⟨a ++ sep ++ u, t, by simp [Join, ← hut]⟩

/-! ## Acceptance of declarations -/

/-- C1: for a policy whose maps have unique keys and a style whose parse
succeeds, the output of `Sanitize` is the `"; "`-join of the emitted texts, and
every parsed declaration contributes its text exactly as many times as there
are rules accepting its normalized value among the rules considered for its
lookup name (resolved scope, then global scope): the text of a declaration
accepted by some rule is emitted, and every emitted text is the text of a
parsed declaration accepted by some rule. The normalized value is the value
lowercased by `strings.ToLower`, then escape-decoded; the lookup name is the
property lowercased by `strings.ToLower`, then trimmed of the listed markers. -/
theorem sanitize_emits_iff_accepted [Unicode]
    (ParseDeclarations : GoString → Option (List Declaration))
    (self : Policy) (elementName style : GoString) (decs : List Declaration)
    (hwf : self.WF) (hparse : ParseDeclarations (prepareStyle style) = some decs) :
    Sanitize ParseDeclarations self elementName style =
        Join (SanitizeRun ParseDeclarations self elementName style).clean "; ".toList ∧
    (SanitizeRun ParseDeclarations self elementName style).clean =
        decs.flatMap (fun dec =>
          List.replicate
            ((rulesConsidered self elementName (lookupName dec.Property)).countP
              (fun sp => ruleAccepts sp (normalizedValue dec.Value)))
            (declText dec)) ∧
    (∀ dec ∈ decs,
        (∃ sp ∈ rulesConsidered self elementName (lookupName dec.Property),
          ruleAccepts sp (normalizedValue dec.Value) = true) →
        declText dec ∈ (SanitizeRun ParseDeclarations self elementName style).clean) ∧
    (∀ s ∈ (SanitizeRun ParseDeclarations self elementName style).clean,
        ∃ dec ∈ decs, s = declText dec ∧
          ∃ sp ∈ rulesConsidered self elementName (lookupName dec.Property),
            ruleAccepts sp (normalizedValue dec.Value) = true) ∧
    (∀ dec : Declaration,
        normalizedValue dec.Value = removeUnicode (ToLower dec.Value) ∧
        lookupName dec.Property = prefixes.foldl TrimPrefix (ToLower dec.Property)) := by
  have hclean := sanitizeRun_clean_rules ParseDeclarations self elementName style decs hwf hparse
  refine ⟨sanitize_eq_join _ _ _ _, hclean, ?_, ?_, fun _ => ⟨rfl, rfl⟩⟩
  · intro dec hdec hsp
    rw [hclean, List.mem_flatMap]
    refine ⟨dec, hdec, ?_⟩
    rw [List.mem_replicate]
    refine ⟨?_, rfl⟩
    have := List.countP_pos_iff.mpr hsp
    omega
  · intro s hs
    rw [hclean, List.mem_flatMap] at hs
    obtain ⟨dec, hdec, hmem⟩ := hs
    rw [List.mem_replicate] at hmem
    refine ⟨dec, hdec, hmem.2, ?_⟩
    exact List.countP_pos_iff.mp (Nat.pos_of_ne_zero hmem.1)

/-- Witness of C1: the second policy of `TestStyleOnElementMatching` on the
element `my-element-demo-two`. -/
theorem sanitize_emits_iff_accepted_witness :
    overridePolicy.WF ∧
    simpleParser (prepareStyle "color:#ffffff;mystyle:test;customstyle:value".toList) =
      some [⟨"color".toList, "#ffffff".toList⟩, ⟨"mystyle".toList, "test".toList⟩,
        ⟨"customstyle".toList, "value".toList⟩] ∧
    (SanitizeRun simpleParser overridePolicy "my-element-demo-two".toList
        "color:#ffffff;mystyle:test;customstyle:value".toList).clean =
      ([⟨"color".toList, "#ffffff".toList⟩, ⟨"mystyle".toList, "test".toList⟩,
        ⟨"customstyle".toList, "value".toList⟩] : List Declaration).flatMap (fun dec =>
          List.replicate
            ((rulesConsidered overridePolicy "my-element-demo-two".toList
                (lookupName dec.Property)).countP
              (fun sp => ruleAccepts sp (normalizedValue dec.Value)))
            (declText dec)) :=
  ⟨by decide, by decide,
    (sanitize_emits_iff_accepted simpleParser overridePolicy "my-element-demo-two".toList
      "color:#ffffff;mystyle:test;customstyle:value".toList _ (by decide) (by decide)).2.1⟩

/-- C2: when the global rules are empty, the exact-element entry of the name
is absent or has no property, and every pattern matching the name has an empty
rule set, `Sanitize` returns the empty string for every style and hands
nothing to the declaration parser. -/
theorem sanitize_without_policy [Unicode]
    (self : Policy) (elementName : GoString)
    (hglobal : self.globalStyles.length = 0)
    (hexact : ((self.elsAndStyles.lookup elementName).getD []).length = 0)
    (hpattern : ∀ e ∈ self.elsMatchingAndStyles,
      e.1.MatchString elementName = true → e.2.length = 0)
    (ParseDeclarations : GoString → Option (List Declaration)) (style : GoString) :
    Sanitize ParseDeclarations self elementName style = [] ∧
    (SanitizeRun ParseDeclarations self elementName style).parserInputs = [] ∧
    (SanitizeRun ParseDeclarations self elementName style).clean = [] := by
  have hp : HasPolicies self elementName = false := by
    unfold HasPolicies
    have h1 : ¬ self.globalStyles.length > 0 := by omega
    simp only [h1, if_false]
    have h2 : (match self.elsAndStyles.lookup elementName with
        | some policies => decide (policies.length > 0)
        | none => false) = false := by
      cases hl : self.elsAndStyles.lookup elementName with
      | none => rfl
      | some policies =>
        rw [hl] at hexact
        simp only [Option.getD_some] at hexact
        simp [hexact]
    rw [h2]
    simp only [Bool.false_eq_true, if_false]
    rw [List.any_eq_false]
    intro e he
    by_cases hm : e.1.MatchString elementName = true
    · have := hpattern e he hm
      simp [this]
    · simp [hm]
  unfold Sanitize
  rw [sanitizeRun_of_not_hasPolicies _ _ _ _ hp]
  exact ⟨rfl, rfl, rfl⟩

/-- Witness of C2: the first policy of `TestStyleOnElementMatching` on the
element `not-my-element-demo-one`. -/
theorem sanitize_without_policy_witness :
    matchingPolicy.globalStyles.length = 0 ∧
    ((matchingPolicy.elsAndStyles.lookup "not-my-element-demo-one".toList).getD []).length = 0 ∧
    (∀ e ∈ matchingPolicy.elsMatchingAndStyles,
      e.1.MatchString "not-my-element-demo-one".toList = true → e.2.length = 0) ∧
    Sanitize simpleParser matchingPolicy "not-my-element-demo-one".toList
      "color: red".toList = [] ∧
    (SanitizeRun simpleParser matchingPolicy "not-my-element-demo-one".toList
      "color: red".toList).parserInputs = [] :=
  ⟨by decide, by decide, by decide,
    (sanitize_without_policy matchingPolicy "not-my-element-demo-one".toList
      (by decide) (by decide) (by decide) simpleParser "color: red".toList).1,
    (sanitize_without_policy matchingPolicy "not-my-element-demo-one".toList
      (by decide) (by decide) (by decide) simpleParser "color: red".toList).2.1⟩

/-- C3: the output of `Sanitize` is the `"; "`-join of its emitted entries, and
every entry is exactly `Property + ": " + Value` of a declaration as the
parser returned it, whatever its casing, vendor marker or escape sequences. -/
theorem sanitize_entries_verbatim [Unicode]
    (ParseDeclarations : GoString → Option (List Declaration))
    (self : Policy) (elementName style : GoString) :
    Sanitize ParseDeclarations self elementName style =
        Join (SanitizeRun ParseDeclarations self elementName style).clean "; ".toList ∧
    ∀ s ∈ (SanitizeRun ParseDeclarations self elementName style).clean,
      ∃ decs, ParseDeclarations (prepareStyle style) = some decs ∧
        ∃ dec ∈ decs, s = dec.Property ++ ": ".toList ++ dec.Value := by
  refine ⟨sanitize_eq_join _ _ _ _, ?_⟩
  intro s hs
  rcases sanitizeRun_clean_cases ParseDeclarations self elementName style with h | h
  · rw [h] at hs
    cases hs
  · obtain ⟨decs, hparse, hclean⟩ := h
    rw [hclean, List.mem_flatMap] at hs
    obtain ⟨dec, hdec, hmem⟩ := hs
    exact ⟨decs, hparse, dec, hdec, (List.mem_replicate.mp hmem).2⟩

/-- C4: when the exact-element rules of the name have at least one property,
`Sanitize` gives, for every style, the same run as under the policy with all
pattern-scoped rules removed. -/
theorem sanitize_exact_shadows_patterns [Unicode]
    (self : Policy) (elementName : GoString)
    (hexact : ((self.elsAndStyles.lookup elementName).getD []).length > 0)
    (ParseDeclarations : GoString → Option (List Declaration)) (style : GoString) :
    Sanitize ParseDeclarations self elementName style =
        Sanitize ParseDeclarations { self with elsMatchingAndStyles := [] } elementName style ∧
    SanitizeRun ParseDeclarations self elementName style =
        SanitizeRun ParseDeclarations { self with elsMatchingAndStyles := [] }
          elementName style := by
  have hne : ¬ ((self.elsAndStyles.lookup elementName).getD []).length = 0 := by omega
  have hres : resolveStyles self elementName =
      resolveStyles { self with elsMatchingAndStyles := [] } elementName := by
    simp only [resolveStyles, hne, if_false]
  have hhas : HasPolicies self elementName = true := by
    unfold HasPolicies
    cases hl : self.elsAndStyles.lookup elementName with
    | none => rw [hl] at hexact; simp at hexact
    | some policies =>
      rw [hl] at hexact
      simp only [Option.getD_some] at hexact
      simp [hexact]
  have hhas2 : HasPolicies { self with elsMatchingAndStyles := [] } elementName = true := by
    unfold HasPolicies
    cases hl : self.elsAndStyles.lookup elementName with
    | none => rw [hl] at hexact; simp at hexact
    | some policies =>
      rw [hl] at hexact
      simp only [Option.getD_some] at hexact
      simp [hexact, hl]
  have hrun : SanitizeRun ParseDeclarations self elementName style =
      SanitizeRun ParseDeclarations { self with elsMatchingAndStyles := [] }
        elementName style := by
    unfold SanitizeRun
    rw [hhas, hhas2, ← hres]
    rfl
  refine ⟨?_, hrun⟩
  unfold Sanitize
  rw [hrun]

/-- Witness of C4: the second policy of `TestStyleOnElementMatching` on the
element `my-element-demo-one`, which has an exact entry. -/
theorem sanitize_exact_shadows_patterns_witness :
    ((overridePolicy.elsAndStyles.lookup "my-element-demo-one".toList).getD []).length > 0 ∧
    Sanitize simpleParser overridePolicy "my-element-demo-one".toList
        "customstyle:value".toList =
      Sanitize simpleParser { overridePolicy with elsMatchingAndStyles := [] }
        "my-element-demo-one".toList "customstyle:value".toList :=
  ⟨by decide,
    (sanitize_exact_shadows_patterns overridePolicy "my-element-demo-one".toList
      (by decide) simpleParser "customstyle:value".toList).1⟩

/-- C5: for a style whose parse succeeds, a declaration whose lookup name has a
global rule accepting its normalized value is emitted, and its text occurs in
the output of `Sanitize`, whatever the exact-element and pattern rules. -/
theorem sanitize_global_rule_accepts [Unicode]
    (ParseDeclarations : GoString → Option (List Declaration))
    (self : Policy) (elementName style : GoString) (decs : List Declaration)
    (dec : Declaration) (spl : List stylePolicy) (sp : stylePolicy)
    (hparse : ParseDeclarations (prepareStyle style) = some decs) (hdec : dec ∈ decs)
    (hlookup : self.globalStyles.lookup (lookupName dec.Property) = some spl)
    (hsp : sp ∈ spl) (haccept : ruleAccepts sp (normalizedValue dec.Value) = true) :
    declText dec ∈ (SanitizeRun ParseDeclarations self elementName style).clean ∧
    declText dec <:+: Sanitize ParseDeclarations self elementName style := by
  have hhas : HasPolicies self elementName = true := by
    unfold HasPolicies
    have : self.globalStyles.length > 0 := by
      cases hg : self.globalStyles with
      | nil => rw [hg] at hlookup; simp [List.lookup] at hlookup
      | cons e rest => simp
    simp [this]
  have hmem : declText dec ∈ (SanitizeRun ParseDeclarations self elementName style).clean := by
    rw [sanitizeRun_clean _ _ _ _ _ hhas hparse, List.mem_flatMap]
    refine ⟨dec, hdec, ?_⟩
    rw [List.mem_replicate]
    refine ⟨?_, rfl⟩
    have hpos : 0 < acceptCount (self.globalStyles.lookup (lookupName dec.Property))
        (normalizedValue dec.Value) := by
      rw [hlookup]
      exact List.countP_pos_iff.mpr ⟨sp, hsp, haccept⟩
    unfold emitCount
    omega
  refine ⟨hmem, ?_⟩
  rw [sanitize_eq_join]
  exact mem_infix_join _ _ _ hmem

/-- Witness of C5: the policy of `TestMatchingHandler` on the element `div`. -/
theorem sanitize_global_rule_accepts_witness :
    simpleParser (prepareStyle "color: invalidValue".toList) =
      some [⟨"color".toList, "invalidValue".toList⟩] ∧
    declText ⟨"color".toList, "invalidValue".toList⟩ ∈
      (SanitizeRun simpleParser globalColorPolicy "div".toList
        "color: invalidValue".toList).clean ∧
    declText ⟨"color".toList, "invalidValue".toList⟩ <:+:
      Sanitize simpleParser globalColorPolicy "div".toList "color: invalidValue".toList :=
  ⟨by decide,
    sanitize_global_rule_accepts simpleParser globalColorPolicy "div".toList
      "color: invalidValue".toList [⟨"color".toList, "invalidValue".toList⟩]
      ⟨"color".toList, "invalidValue".toList⟩
      [{ handler := some trueHandler, regexp := none, enum := [] }]
      { handler := some trueHandler, regexp := none, enum := [] }
      (by decide) (List.mem_singleton.mpr rfl) rfl (List.mem_singleton.mpr rfl) rfl⟩

/-! ## The escape normalizer -/

theorem isHexLower_backslash : isHexLower backslash = false := by decide

theorem isSpace_of_isHexLower (c : Char) (h : isHexLower c = true) : isSpace c = false := by
  unfold isHexLower at h
  unfold isSpace
  simp only [Bool.or_eq_true, Bool.and_eq_true, decide_eq_true_eq] at h
  simp only [Bool.or_eq_false_iff, Bool.and_eq_false_iff, decide_eq_false_iff_not,
    beq_eq_false_iff_ne, ne_eq]
  omega

theorem dropWhile_eq_self {α : Type} (p : α → Bool) (l : List α)
    (h : ∀ c ∈ l, p c = false) : l.dropWhile p = l := by
  cases l with
  | nil => rfl
  | cons c rest => simp [List.dropWhile, h c (List.mem_cons_self _ _)]

theorem takeWhile_append_stop {α : Type} (p : α → Bool) (a b : List α) (x : α)
    (hx : p x = false) : (a ++ x :: b).takeWhile p = a.takeWhile p := by
  induction a with
  | nil => simp [List.takeWhile, hx]
  | cons c rest ih =>
    by_cases hc : p c = true
    · simp [List.takeWhile, hc, ih]
    · simp [List.takeWhile, hc]

theorem takeWhile_append_all {α : Type} (p : α → Bool) (a b : List α)
    (h : ∀ c ∈ a, p c = true) : (a ++ b).takeWhile p = a ++ b.takeWhile p := by
  induction a with
  | nil => rfl
  | cons c rest ih =>
    simp [List.takeWhile, h c (List.mem_cons_self _ _),
      ih (fun d hd => h d (List.mem_cons_of_mem _ hd))]

theorem TrimSpace_length_le (s : GoString) : (TrimSpace s).length ≤ s.length := by
  unfold TrimSpace
  rw [List.length_reverse]
  have h1 := (List.dropWhile_suffix isSpace (l := (s.dropWhile isSpace).reverse)).length_le
  have h2 := (List.dropWhile_suffix isSpace (l := s)).length_le
  rw [List.length_reverse] at h1
  omega

/-- Hex digits are kept by `TrimSpace`, a space after them is removed. -/
theorem TrimSpace_hex (l : GoString) (h : ∀ c ∈ l, isHexLower c = true) :
    TrimSpace l = l ∧ TrimSpace (l ++ [' ']) = l := by
  have hns : ∀ c ∈ l, isSpace c = false := fun c hc => isSpace_of_isHexLower c (h c hc)
  have hrev : ∀ c ∈ l.reverse, isSpace c = false := fun c hc => hns c (List.mem_reverse.mp hc)
  constructor
  · unfold TrimSpace
    rw [dropWhile_eq_self _ _ hns, dropWhile_eq_self _ _ hrev, List.reverse_reverse]
  · unfold TrimSpace
    cases l with
    | nil => decide
    | cons c rest =>
      have h1 : ((c :: rest) ++ [' ']).dropWhile isSpace = (c :: rest) ++ [' '] := by
        simp [List.dropWhile, hns c (List.mem_cons_self _ _)]
      rw [h1, List.reverse_append]
      have h2 : ([' '].reverse ++ (c :: rest).reverse).dropWhile isSpace =
          (c :: rest).reverse.dropWhile isSpace := by
        have : isSpace ' ' = true := by decide
        simp [List.dropWhile, this]
      rw [h2, dropWhile_eq_self _ _ hrev, List.reverse_reverse]

theorem stripToFour_length (l : GoString) : (stripToFour l).length ≤ 4 := by
  induction l with
  | nil => simp [stripToFour]
  | cons c rest ih =>
    unfold stripToFour
    by_cases h : (c :: rest).length > 4
    · by_cases hc : c ≠ '0'
      · rw [if_pos h, if_pos hc]
        simp
      · rw [if_pos h, if_neg hc]
        exact ih
    · rw [if_neg h]
      omega

theorem escapeDigits_length (s : GoString) (loc : Nat × Nat) :
    (escapeDigits s loc).length ≤ 4 := by
  unfold escapeDigits
  simp only
  split
  · rename_i h
    simp only [Repeat, List.length_append, List.length_replicate]
    omega
  · exact stripToFour_length _

theorem UnquoteU_length (character t : GoString) (hlen : character.length ≤ 4)
    (h : UnquoteU character = some t) : t.length = 1 := by
  unfold UnquoteU at h
  by_cases h4 : character.length < 4
  · simp [h4] at h
  · simp only [h4, if_false] at h
    split at h
    · cases h
    · have := Option.some.inj h
      rw [← this]
      simp only [List.length_cons, List.length_drop]
      omega

/-- A match of the escape pattern has at least two characters and lies within
the text. -/
theorem matchEscape_bounds (s : GoString) (n : Nat) (h : matchEscape s = some n) :
    2 ≤ n ∧ n ≤ s.length := by
  cases s with
  | nil => simp [matchEscape] at h
  | cons c rest =>
    unfold matchEscape at h
    by_cases hc : c = backslash
    · simp only [hc, if_true] at h
      have hle : ((rest.takeWhile isHexLower).take 6).length ≤ rest.length :=
        ((List.take_prefix _ _).trans (List.takeWhile_prefix _)).length_le
      by_cases hd : ((rest.takeWhile isHexLower).take 6).length = 0
      · simp [hd] at h
      · simp only [hd, if_false] at h
        by_cases hsp : (rest.drop ((rest.takeWhile isHexLower).take 6).length).head? = some ' '
        · simp only [hsp, if_true] at h
          have hn := Option.some.inj h
          have hlt : ((rest.takeWhile isHexLower).take 6).length < rest.length := by
            by_contra hge
            have : rest.drop ((rest.takeWhile isHexLower).take 6).length = [] :=
              List.drop_eq_nil_of_le (by omega)
            rw [this] at hsp
            cases hsp
          simp only [List.length_cons]
          omega
        · simp only [hsp, if_false] at h
          have hn := Option.some.inj h
          simp only [List.length_cons]
          omega
    · simp [hc] at h

theorem findEscapeFrom_bounds (s : GoString) (i : Nat) (loc : Nat × Nat)
    (h : findEscapeFrom i s = some loc) :
    i ≤ loc.1 ∧ loc.1 + 2 ≤ loc.2 ∧ loc.2 ≤ i + s.length := by
  induction s generalizing i with
  | nil => simp [findEscapeFrom] at h
  | cons c rest ih =>
    unfold findEscapeFrom at h
    cases hm : matchEscape (c :: rest) with
    | some n =>
      rw [hm] at h
      have hb := matchEscape_bounds _ _ hm
      have := Option.some.inj h
      subst this
      simp only
      omega
    | none =>
      rw [hm] at h
      have := ih (i + 1) h
      simp only [List.length_cons]
      omega

theorem FindStringIndex_bounds (s : GoString) (loc : Nat × Nat)
    (h : FindStringIndex s = some loc) : loc.1 + 2 ≤ loc.2 ∧ loc.2 ≤ s.length := by
  have := findEscapeFrom_bounds s 0 loc h
  omega

/-- One iteration of the loop of `removeUnicode` shortens the value. -/
theorem removeUnicode_step_length (s t : GoString) (loc : Nat × Nat)
    (hloc : FindStringIndex s = some loc)
    (ht : UnquoteU (escapeDigits s loc) = some t) :
    (s.take loc.1 ++ TrimSpace t ++ s.drop loc.2).length < s.length := by
  have hb := FindStringIndex_bounds s loc hloc
  have h1 := UnquoteU_length _ _ (escapeDigits_length s loc) ht
  have h2 := TrimSpace_length_le t
  simp only [List.length_append, List.length_take, List.length_drop]
  omega

/-- The loop of `removeUnicode` ends within as many iterations as the value has
characters: the function returns on every input. -/
theorem removeUnicodeLoop_isSome (fuel : Nat) (s : GoString) (h : s.length < fuel) :
    ∃ r, removeUnicodeLoop fuel s = some r := by
  induction fuel generalizing s with
  | zero => omega
  | succ fuel ih =>
    unfold removeUnicodeLoop
    cases hloc : FindStringIndex s with
    | none => exact ⟨s, rfl⟩
    | some loc =>
      simp only
      cases ht : UnquoteU (escapeDigits s loc) with
      | none => exact ⟨[], rfl⟩
      | some t =>
        simp only
        have := removeUnicode_step_length s t loc hloc ht
        exact ih _ (by omega)

theorem removeUnicodeLoop_succ (fuel : Nat) (s r : GoString)
    (h : removeUnicodeLoop fuel s = some r) : removeUnicodeLoop (fuel + 1) s = some r := by
  induction fuel generalizing s with
  | zero => simp [removeUnicodeLoop] at h
  | succ fuel ih =>
    unfold removeUnicodeLoop at h ⊢
    cases hloc : FindStringIndex s with
    | none => rw [hloc] at h; exact h
    | some loc =>
      rw [hloc] at h
      simp only at h ⊢
      cases ht : UnquoteU (escapeDigits s loc) with
      | none => rw [ht] at h; exact h
      | some t =>
        rw [ht] at h
        simp only at h ⊢
        exact ih _ h

theorem removeUnicodeLoop_add (fuel k : Nat) (s r : GoString)
    (h : removeUnicodeLoop fuel s = some r) : removeUnicodeLoop (fuel + k) s = some r := by
  induction k with
  | zero => exact h
  | succ k ih => exact removeUnicodeLoop_succ _ _ _ ih

/-- Any number of iterations above the length of the value gives the result
of `removeUnicode`. -/
theorem removeUnicodeLoop_eq (fuel : Nat) (s : GoString) (h : s.length < fuel) :
    removeUnicodeLoop fuel s = some (removeUnicode s) := by
  obtain ⟨r, hr⟩ := removeUnicodeLoop_isSome (s.length + 1) s (Nat.lt_succ_self _)
  have hrem : removeUnicode s = r := by
    unfold removeUnicode
    rw [hr]
    rfl
  obtain ⟨k, rfl⟩ : ∃ k, fuel = s.length + 1 + k := ⟨fuel - (s.length + 1), by omega⟩
  rw [hrem]
  exact removeUnicodeLoop_add _ _ _ _ hr

/-- The loop equation of `removeUnicode`, as the source states it: return the
value when no escape is left, the empty text when the decoding fails, and go
on with the spliced value otherwise. -/
theorem removeUnicode_unfold (s : GoString) :
    removeUnicode s =
      match FindStringIndex s with
      | none => s
      | some currentLoc =>
        match UnquoteU (escapeDigits s currentLoc) with
        | none => []
        | some translatedChar =>
          removeUnicode
            (s.take currentLoc.1 ++ TrimSpace translatedChar ++ s.drop currentLoc.2) := by
  have h := removeUnicodeLoop_eq (s.length + 1) s (Nat.lt_succ_self _)
  unfold removeUnicodeLoop at h
  cases hloc : FindStringIndex s with
  | none =>
    rw [hloc] at h
    exact (Option.some.inj h).symm
  | some loc =>
    rw [hloc] at h
    simp only at h ⊢
    cases ht : UnquoteU (escapeDigits s loc) with
    | none =>
      rw [ht] at h
      exact (Option.some.inj h).symm
    | some t =>
      rw [ht] at h
      simp only at h ⊢
      have hlen := removeUnicode_step_length s t loc hloc ht
      rw [removeUnicodeLoop_eq _ _ (by omega)] at h
      exact (Option.some.inj h).symm

/-! ## Escapes that do not fit in four hex digits -/

theorem stripToFour_cons_nonzero (c : Char) (rest : GoString) (hlen : 4 ≤ rest.length)
    (hc : c ≠ '0') : stripToFour (c :: rest) = [] := by
  unfold stripToFour
  have h : (c :: rest).length > 4 := by simp only [List.length_cons]; omega
  rw [if_pos h, if_pos hc]

theorem stripToFour_cons_zero (rest : GoString) (hlen : 4 ≤ rest.length) :
    stripToFour ('0' :: rest) = stripToFour rest := by
  rw [stripToFour]
  have h : ('0' :: rest).length > 4 := by simp only [List.length_cons]; omega
  rw [if_pos h, if_neg (by simp)]

/-- A match that starts before a later backslash ends before it. -/
theorem matchEscape_in_front (c : Char) (pre r : GoString) (n : Nat)
    (h : matchEscape (c :: (pre ++ backslash :: r)) = some n) : n ≤ pre.length + 1 := by
  unfold matchEscape at h
  by_cases hc : c = backslash
  · simp only [hc, if_true] at h
    rw [takeWhile_append_stop _ _ _ _ isHexLower_backslash] at h
    have hle : ((pre.takeWhile isHexLower).take 6).length ≤ pre.length :=
      ((List.take_prefix _ _).trans (List.takeWhile_prefix _)).length_le
    by_cases hd : ((pre.takeWhile isHexLower).take 6).length = 0
    · simp [hd] at h
    · simp only [hd, if_false] at h
      by_cases hsp : ((pre ++ backslash :: r).drop
          ((pre.takeWhile isHexLower).take 6).length).head? = some ' '
      · simp only [hsp, if_true] at h
        have hn := Option.some.inj h
        have hlt : ((pre.takeWhile isHexLower).take 6).length < pre.length := by
          by_contra hge
          have heq : ((pre.takeWhile isHexLower).take 6).length = pre.length := by omega
          rw [heq, List.drop_left] at hsp
          simp only [List.head?_cons, Option.some.injEq] at hsp
          exact absurd hsp (by decide)
        omega
      · simp only [hsp, if_false] at h
        have hn := Option.some.inj h
        omega
  · simp [hc] at h

/-- The leftmost match in a text that holds an escape after `pre` is either
that escape or a match that lies inside `pre`. -/
theorem findEscapeFrom_append (pre r : GoString) (i n : Nat)
    (h : matchEscape (backslash :: r) = some n) :
    ∃ loc, findEscapeFrom i (pre ++ backslash :: r) = some loc ∧
      (loc = (i + pre.length, i + pre.length + n) ∨
        (i ≤ loc.1 ∧ loc.1 + 2 ≤ loc.2 ∧ loc.2 ≤ i + pre.length)) := by
  induction pre generalizing i with
  | nil =>
    refine ⟨(i, i + n), ?_, Or.inl (by simp)⟩
    simp only [List.nil_append]
    unfold findEscapeFrom
    rw [h]
  | cons c rest ih =>
    simp only [List.cons_append]
    unfold findEscapeFrom
    cases hm : matchEscape (c :: (rest ++ backslash :: r)) with
    | some m =>
      have hb := matchEscape_bounds _ _ hm
      have hf := matchEscape_in_front c rest r m hm
      refine ⟨(i, i + m), rfl, Or.inr ?_⟩
      simp only [List.length_cons]
      omega
    | none =>
      obtain ⟨loc, hloc, hcases⟩ := ih (i + 1)
      refine ⟨loc, hloc, ?_⟩
      rcases hcases with h1 | h1
      · left
        rw [h1]
        simp only [List.length_cons, Prod.mk.injEq]
        omega
      · right
        simp only [List.length_cons]
        omega

/-- The text between the backslash and the end of a match, once trimmed, is
the run of at most six hex digits that follows the backslash. -/
theorem matchEscape_body (r : GoString) (n : Nat) (h : matchEscape (backslash :: r) = some n) :
    1 ≤ n ∧ TrimSpace (r.take (n - 1)) = (r.takeWhile isHexLower).take 6 := by
  unfold matchEscape at h
  simp only [if_true] at h
  have hpre : (r.takeWhile isHexLower).take 6 <+: r :=
    (List.take_prefix _ _).trans (List.takeWhile_prefix _)
  have hhex : ∀ c ∈ (r.takeWhile isHexLower).take 6, isHexLower c = true :=
    fun c hc => List.mem_takeWhile_imp (List.mem_of_mem_take hc)
  generalize (r.takeWhile isHexLower).take 6 = digits at h hpre hhex ⊢
  obtain ⟨tail, rfl⟩ := hpre
  by_cases hd : digits.length = 0
  · simp [hd] at h
  · simp only [hd, if_false, List.drop_left] at h
    by_cases hsp : tail.head? = some ' '
    · simp only [hsp, if_true] at h
      have hn := Option.some.inj h
      cases tail with
      | nil => cases hsp
      | cons x tail2 =>
        simp only [List.head?_cons, Option.some.injEq] at hsp
        subst hsp
        refine ⟨by omega, ?_⟩
        have hn1 : n - 1 = digits.length + 1 := by omega
        have htake : (digits ++ ' ' :: tail2).take (n - 1) = digits ++ [' '] := by
          rw [hn1, List.take_append]
          simp
        rw [htake]
        exact (TrimSpace_hex _ hhex).2
    · simp only [hsp, if_false] at h
      have hn := Option.some.inj h
      refine ⟨by omega, ?_⟩
      have hn1 : n - 1 = digits.length := by omega
      rw [hn1, List.take_left]
      exact (TrimSpace_hex _ hhex).1

/-- The slice `substitutedValue[loc0+1 : loc1]` for a match right after `pre`. -/
theorem slice_after (pre r : GoString) (n : Nat) (hn : 1 ≤ n) :
    ((pre ++ backslash :: r).take (pre.length + n)).drop (pre.length + 1) = r.take (n - 1) := by
  rw [List.take_append, List.drop_append]
  obtain ⟨m, rfl⟩ : ∃ m, n = m + 1 := ⟨n - 1, by omega⟩
  simp

/-- The digits of an escape that does not fit are stripped to the empty text. -/
theorem stripToFour_badEscape (h post : GoString) (hbad : badEscape h = true) :
    4 ≤ (((h ++ post).takeWhile isHexLower).take 6).length ∧
    stripToFour (((h ++ post).takeWhile isHexLower).take 6) = [] := by
  unfold badEscape at hbad
  simp only [Bool.and_eq_true, Bool.or_eq_true, beq_iff_eq, List.all_eq_true,
    List.any_eq_true, bne_iff_ne, ne_eq] at hbad
  obtain ⟨⟨hhex, hlen⟩, x, hx, hx0⟩ := hbad
  rw [takeWhile_append_all _ _ _ hhex]
  rcases h with _ | ⟨a, _ | ⟨b, _ | ⟨c, _ | ⟨d, _ | ⟨e, _ | ⟨f, _ | ⟨g, rest⟩⟩⟩⟩⟩⟩⟩
  · simp at hlen
  · simp at hlen
  · simp at hlen
  · simp at hlen
  · simp at hlen
  · have hxa : x = a := by simpa using hx
    subst hxa
    have hlen4 : 4 ≤ ([b, c, d, e] ++ (post.takeWhile isHexLower).take 1).length := by
      simp only [List.length_append, List.length_cons, List.length_nil]
      omega
    have heq : ([x, b, c, d, e] ++ post.takeWhile isHexLower).take 6 =
        x :: ([b, c, d, e] ++ (post.takeWhile isHexLower).take 1) := by simp
    rw [heq]
    refine ⟨by simp only [List.length_cons]; omega, ?_⟩
    exact stripToFour_cons_nonzero _ _ hlen4 hx0
  · have heq : ([a, b, c, d, e, f] ++ post.takeWhile isHexLower).take 6 =
        [a, b, c, d, e, f] := by simp
    rw [heq]
    refine ⟨by simp, ?_⟩
    by_cases ha : a = '0'
    · subst ha
      have hxb : x = b := by
        have : x = '0' ∨ x = b := by simpa using hx
        rcases this with h0 | hb
        · exact absurd h0 hx0
        · exact hb
      subst hxb
      rw [stripToFour_cons_zero _ (by simp)]
      exact stripToFour_cons_nonzero _ _ (by simp) hx0
    · exact stripToFour_cons_nonzero _ _ (by simp) ha
  · simp at hlen

theorem UnquoteU_nil : UnquoteU [] = none := by decide

/-- The loop of `removeUnicode` gives the empty text as soon as the value
holds an escape that does not fit in four hex digits. -/
theorem removeUnicodeLoop_badEscape (fuel : Nat) (pre h post : GoString)
    (hbad : badEscape h = true)
    (hfuel : (pre ++ backslash :: (h ++ post)).length < fuel) :
    removeUnicodeLoop fuel (pre ++ backslash :: (h ++ post)) = some [] := by
  induction fuel generalizing pre with
  | zero => omega
  | succ fuel ih =>
    have hstrip := stripToFour_badEscape h post hbad
    have hmatch : ∃ n, matchEscape (backslash :: (h ++ post)) = some n := by
      unfold matchEscape
      simp only [if_true]
      have hd : ¬ (((h ++ post).takeWhile isHexLower).take 6).length = 0 := by omega
      simp only [hd, if_false]
      split
      · exact ⟨_, rfl⟩
      · exact ⟨_, rfl⟩
    obtain ⟨n, hn⟩ := hmatch
    obtain ⟨loc, hloc, hcases⟩ := findEscapeFrom_append pre (h ++ post) 0 n hn
    unfold removeUnicodeLoop
    have hfind : FindStringIndex (pre ++ backslash :: (h ++ post)) = some loc := hloc
    rw [hfind]
    simp only
    rcases hcases with hat | hin
    · have hbody := matchEscape_body (h ++ post) n hn
      have hdig : escapeDigits (pre ++ backslash :: (h ++ post)) loc = [] := by
        unfold escapeDigits
        rw [hat]
        simp only [Nat.zero_add]
        rw [slice_after pre (h ++ post) n hbody.1, hbody.2]
        have hnlt : ¬ (((h ++ post).takeWhile isHexLower).take 6).length < 4 := by omega
        rw [if_neg hnlt]
        exact hstrip.2
      rw [hdig, UnquoteU_nil]
    · cases ht : UnquoteU (escapeDigits (pre ++ backslash :: (h ++ post)) loc) with
      | none => rfl
      | some t =>
        simp only
        have hstep := removeUnicode_step_length _ t loc hfind ht
        have hlo : loc.1 ≤ pre.length := by omega
        have hhi : loc.2 ≤ pre.length := by omega
        have hshape : (pre ++ backslash :: (h ++ post)).take loc.1 ++ TrimSpace t ++
            (pre ++ backslash :: (h ++ post)).drop loc.2 =
            (pre.take loc.1 ++ TrimSpace t ++ pre.drop loc.2) ++ backslash :: (h ++ post) := by
          rw [List.take_append_of_le_length hlo, List.drop_append_of_le_length hhi]
          simp only [List.append_assoc]
        rw [hshape] at hstep ⊢
        exact ih _ (by omega)

/-- A value that holds an escape of five or six hex digits with a non-zero
digit before its last four is normalized to the empty text. -/
theorem removeUnicode_badEscape (pre h post : GoString) (hbad : badEscape h = true) :
    removeUnicode (pre ++ backslash :: (h ++ post)) = [] := by
  unfold removeUnicode
  rw [removeUnicodeLoop_badEscape _ pre h post hbad (Nat.lt_succ_self _)]
  rfl

/-! ## Escaped values -/

theorem sanitizeRun_constParser [Unicode] (self : Policy) (elementName style : GoString)
    (decs : List Declaration) (hp : HasPolicies self elementName = true) :
    (SanitizeRun (constParser decs) self elementName style).clean =
      decs.flatMap (fun dec =>
        List.replicate (emitCount self (resolveStyles self elementName) dec) (declText dec)) :=
  sanitizeRun_clean (constParser decs) self elementName style decs hp rfl

/-- C6: the value `\72 ed` is given to the rules as `red`, so a declaration
with that value is accepted by exactly the rules that accept the same
declaration with the value `red`, as often, and the emitted text carries the
escaped value: the two runs differ only in the text of that declaration. -/
theorem escaped_value_matched_as_decoded [Unicode]
    (self : Policy) (elementName style property : GoString) (before after : List Declaration) :
    normalizedValue "\\72 ed".toList = "red".toList ∧
    normalizedValue "red".toList = "red".toList ∧
    (∀ sps clean,
      sanitizeDeclaration self sps clean ⟨property, "\\72 ed".toList⟩ =
        clean ++ List.replicate (emitCount self sps ⟨property, "red".toList⟩)
          (property ++ ": ".toList ++ "\\72 ed".toList)) ∧
    (∀ sps clean,
      sanitizeDeclaration self sps clean ⟨property, "red".toList⟩ =
        clean ++ List.replicate (emitCount self sps ⟨property, "red".toList⟩)
          (property ++ ": ".toList ++ "red".toList)) ∧
    ∃ k A B,
      (SanitizeRun (constParser (before ++ ⟨property, "\\72 ed".toList⟩ :: after))
          self elementName style).clean =
        A ++ List.replicate k (property ++ ": ".toList ++ "\\72 ed".toList) ++ B ∧
      (SanitizeRun (constParser (before ++ ⟨property, "red".toList⟩ :: after))
          self elementName style).clean =
        A ++ List.replicate k (property ++ ": ".toList ++ "red".toList) ++ B := by
  have h1 : normalizedValue "\\72 ed".toList = "red".toList := by
    unfold normalizedValue
    rw [ToLower_ascii_text _ (by decide)]
    decide
  have h2 : normalizedValue "red".toList = "red".toList := by
    unfold normalizedValue
    rw [ToLower_ascii_text _ (by decide)]
    decide
  have hcount : ∀ sps, emitCount self sps ⟨property, "\\72 ed".toList⟩ =
      emitCount self sps ⟨property, "red".toList⟩ := by
    intro sps
    simp only [emitCount, h1, h2]
  refine ⟨h1, h2, ?_, ?_, ?_⟩
  · intro sps clean
    rw [sanitizeDeclaration_eq, hcount]
    rfl
  · intro sps clean
    rw [sanitizeDeclaration_eq]
    rfl
  · by_cases hp : HasPolicies self elementName = true
    · refine ⟨emitCount self (resolveStyles self elementName) ⟨property, "red".toList⟩,
        before.flatMap (fun dec =>
          List.replicate (emitCount self (resolveStyles self elementName) dec) (declText dec)),
        after.flatMap (fun dec =>
          List.replicate (emitCount self (resolveStyles self elementName) dec) (declText dec)),
        ?_, ?_⟩
      · rw [sanitizeRun_constParser _ _ _ _ hp, List.flatMap_append, List.flatMap_cons, hcount]
        simp only [declText, List.append_assoc]
      · rw [sanitizeRun_constParser _ _ _ _ hp, List.flatMap_append, List.flatMap_cons]
        simp only [declText, List.append_assoc]
    · have hp2 : HasPolicies self elementName = false := by simpa using hp
      refine ⟨0, [], [], ?_, ?_⟩
      · rw [sanitizeRun_of_not_hasPolicies _ _ _ _ hp2]
        rfl
      · rw [sanitizeRun_of_not_hasPolicies _ _ _ _ hp2]
        rfl

/-- C7: the code at the failing input. Under the policy of
`TestMatchingHandler` (`color` with `trueHandler`, globally) the declaration
`color: \100072ed`, whose value holds the escape `\100072` of six hex digits
with a non-zero digit before its last four, is not dropped: `removeUnicode`
gives up on the value by returning the empty text, the handler accepts the
empty text, and the original value is emitted. -/
theorem bad_escape_emitted_by_permissive_rule :
    ToLower "\\100072ed".toList = [] ++ backslash :: ("100072".toList ++ "ed".toList) ∧
    badEscape "100072".toList = true ∧
    simpleParser (prepareStyle "color: \\100072ed".toList) =
      some [⟨"color".toList, "\\100072ed".toList⟩] ∧
    declText ⟨"color".toList, "\\100072ed".toList⟩ ∈
      (SanitizeRun simpleParser globalColorPolicy "div".toList
        "color: \\100072ed".toList).clean ∧
    Sanitize simpleParser globalColorPolicy "div".toList "color: \\100072ed".toList =
      "color: \\100072ed".toList := by
  decide

/-- A declaration whose lowercased value holds an escape of five or six hex
digits with a non-zero digit before its last four is given to the rules with
the empty text as its normalized value, so it is emitted once per rule that
accepts the empty text; when no rule looked up for its property (in the
resolved scope or globally) accepts the empty text, the run emits what it
emits for the other declarations alone. -/
theorem badEscape_value_as_empty [Unicode]
    (self : Policy) (elementName style : GoString) (before after : List Declaration)
    (dec : Declaration) (pre h post : GoString)
    (hval : ToLower dec.Value = pre ++ backslash :: (h ++ post))
    (hbad : badEscape h = true) :
    normalizedValue dec.Value = [] ∧
    (∀ sps clean,
      sanitizeDeclaration self sps clean dec =
        clean ++ List.replicate
          (acceptCount (sps.lookup (lookupName dec.Property)) [] +
            acceptCount (self.globalStyles.lookup (lookupName dec.Property)) [])
          (declText dec)) ∧
    ((∀ sp ∈ ((resolveStyles self elementName).lookup (lookupName dec.Property)).getD [] ++
          (self.globalStyles.lookup (lookupName dec.Property)).getD [],
        ruleAccepts sp [] = false) →
      (SanitizeRun (constParser (before ++ dec :: after)) self elementName style).clean =
          (SanitizeRun (constParser (before ++ after)) self elementName style).clean ∧
      Sanitize (constParser (before ++ dec :: after)) self elementName style =
          Sanitize (constParser (before ++ after)) self elementName style) := by
  have hnorm : normalizedValue dec.Value = [] := by
    unfold normalizedValue
    rw [hval]
    exact removeUnicode_badEscape pre h post hbad
  have hemit : ∀ sps, emitCount self sps dec =
      acceptCount (sps.lookup (lookupName dec.Property)) [] +
        acceptCount (self.globalStyles.lookup (lookupName dec.Property)) [] := by
    intro sps
    simp only [emitCount, hnorm]
  refine ⟨hnorm, ?_, ?_⟩
  · intro sps clean
    rw [sanitizeDeclaration_eq, hemit]
  · intro hrej
    have hclean : (SanitizeRun (constParser (before ++ dec :: after)) self elementName style).clean =
        (SanitizeRun (constParser (before ++ after)) self elementName style).clean := by
      by_cases hp : HasPolicies self elementName = true
      · rw [sanitizeRun_constParser _ _ _ _ hp, sanitizeRun_constParser _ _ _ _ hp,
          List.flatMap_append, List.flatMap_append, List.flatMap_cons, hemit]
        have hzero : acceptCount ((resolveStyles self elementName).lookup
              (lookupName dec.Property)) [] +
            acceptCount (self.globalStyles.lookup (lookupName dec.Property)) [] = 0 := by
          unfold acceptCount
          rw [← List.countP_append, List.countP_eq_zero]
          intro sp hsp
          simp [hrej sp hsp]
        rw [hzero]
        rfl
      · have hp2 : HasPolicies self elementName = false := by simpa using hp
        rw [sanitizeRun_of_not_hasPolicies _ _ _ _ hp2, sanitizeRun_of_not_hasPolicies _ _ _ _ hp2]
    refine ⟨hclean, ?_⟩
    rw [sanitize_eq_join, sanitize_eq_join, hclean]

/-- Under one enumeration rule for `color` on `span`, the declaration
`color: \100072ed` between two others is dropped. -/
theorem badEscape_value_as_empty_example :
    ToLower "\\100072ed".toList = [] ++ backslash :: ("100072".toList ++ "ed".toList) ∧
    badEscape "100072".toList = true ∧
    normalizedValue "\\100072ed".toList = [] ∧
    Sanitize (constParser ([⟨"color".toList, "red".toList⟩] ++
          ⟨"color".toList, "\\100072ed".toList⟩ :: [⟨"color".toList, "green".toList⟩]))
        enumPolicy "span".toList [] =
      Sanitize (constParser ([⟨"color".toList, "red".toList⟩] ++
          [⟨"color".toList, "green".toList⟩])) enumPolicy "span".toList [] :=
  ⟨by decide, by decide,
    (badEscape_value_as_empty enumPolicy "span".toList [] [⟨"color".toList, "red".toList⟩]
      [⟨"color".toList, "green".toList⟩] ⟨"color".toList, "\\100072ed".toList⟩
      [] "100072".toList "ed".toList (by decide) (by decide)).1,
    ((badEscape_value_as_empty enumPolicy "span".toList [] [⟨"color".toList, "red".toList⟩]
      [⟨"color".toList, "green".toList⟩] ⟨"color".toList, "\\100072ed".toList⟩
      [] "100072".toList "ed".toList (by decide) (by decide)).2.2 (by decide)).2⟩

/-! ## Repeated emission -/

/-- C8 (the code emits once per accepting rule): with two rules for `color` on
`span` that both accept `red`, the declaration `color: red` is emitted twice. -/
theorem accepted_by_two_rules_emitted_twice :
    simpleParser (prepareStyle "color: red".toList) = some [⟨"color".toList, "red".toList⟩] ∧
    (SanitizeRun simpleParser overlappingEnumPolicy "span".toList "color: red".toList).clean =
      ["color: red".toList, "color: red".toList] ∧
    Sanitize simpleParser overlappingEnumPolicy "span".toList "color: red".toList =
      "color: red; color: red".toList := by
  decide

/-- C9 (the global rules are evaluated after an accepting element rule): with a
rule for `color` on `span` and a global rule for `color` that both accept
`red`, the declaration `color: red` is emitted twice. -/
theorem accepted_by_scope_and_global_emitted_twice :
    simpleParser (prepareStyle "color: red".toList) = some [⟨"color".toList, "red".toList⟩] ∧
    (SanitizeRun simpleParser elementAndGlobalPolicy "span".toList "color: red".toList).clean =
      ["color: red".toList, "color: red".toList] ∧
    Sanitize simpleParser elementAndGlobalPolicy "span".toList "color: red".toList =
      "color: red; color: red".toList := by
  decide

/-- C10 (sanitizing the output again changes it): with two rules for `color`
on `span` that both accept `red`, the output for `color: red` holds the
declaration twice, the parser reads that output back as two declarations, and
sanitizing it again gives the declaration four times. -/
theorem sanitize_twice_differs :
    Sanitize simpleParser overlappingEnumPolicy "span".toList "color: red".toList =
      "color: red; color: red".toList ∧
    simpleParser (prepareStyle "color: red; color: red".toList) =
      some [⟨"color".toList, "red".toList⟩, ⟨"color".toList, "red".toList⟩] ∧
    Sanitize simpleParser overlappingEnumPolicy "span".toList
        (Sanitize simpleParser overlappingEnumPolicy "span".toList "color: red".toList) =
      "color: red; color: red; color: red; color: red".toList ∧
    Sanitize simpleParser overlappingEnumPolicy "span".toList
        (Sanitize simpleParser overlappingEnumPolicy "span".toList "color: red".toList) ≠
      Sanitize simpleParser overlappingEnumPolicy "span".toList "color: red".toList := by
  decide

/-! ## Element names -/

theorem any_congr_mem {α : Type} (l : List α) (f g : α → Bool)
    (h : ∀ a ∈ l, f a = g a) : l.any f = l.any g := by
  induction l with
  | nil => rfl
  | cons a rest ih =>
    simp only [List.any_cons]
    rw [h a (List.mem_cons_self _ _), ih (fun b hb => h b (List.mem_cons_of_mem _ hb))]

theorem foldl_congr_mem {α β : Type} (l : List α) (f g : β → α → β) (b : β)
    (h : ∀ a ∈ l, ∀ b, f b a = g b a) : l.foldl f b = l.foldl g b := by
  induction l generalizing b with
  | nil => rfl
  | cons a rest ih =>
    simp only [List.foldl_cons]
    rw [h a (List.mem_cons_self _ _), ih _ (fun c hc => h c (List.mem_cons_of_mem _ hc))]

/-- Two element names that get the same exact-element entry and are matched by
the same patterns are treated alike. -/
theorem sanitizeRun_congr_name [Unicode] (ParseDeclarations : GoString → Option (List Declaration))
    (self : Policy) (name name2 style : GoString)
    (hexact : self.elsAndStyles.lookup name = self.elsAndStyles.lookup name2)
    (hpattern : ∀ e ∈ self.elsMatchingAndStyles,
      e.1.MatchString name = e.1.MatchString name2) :
    HasPolicies self name = HasPolicies self name2 ∧
    SanitizeRun ParseDeclarations self name style =
      SanitizeRun ParseDeclarations self name2 style := by
  have hhas : HasPolicies self name = HasPolicies self name2 := by
    unfold HasPolicies
    rw [hexact, any_congr_mem _ _ _ (fun e he => by rw [hpattern e he])]
  have hres : resolveStyles self name = resolveStyles self name2 := by
    unfold resolveStyles
    rw [hexact]
    simp only
    split
    · exact foldl_congr_mem _ _ _ _ (fun e he sps => by rw [hpattern e he])
    · rfl
  refine ⟨hhas, ?_⟩
  unfold SanitizeRun
  rw [hhas, hres]

/-! ## Parser failure -/

/-- Nothing is emitted when the parser fails. -/
theorem sanitizeRun_clean_of_parse_none [Unicode]
    (ParseDeclarations : GoString → Option (List Declaration))
    (self : Policy) (elementName style : GoString)
    (hparse : ParseDeclarations (prepareStyle style) = none) :
    (SanitizeRun ParseDeclarations self elementName style).clean = [] := by
  unfold SanitizeRun
  by_cases hp : HasPolicies self elementName = true
  · simp [hp, hparse]
  · simp [hp]

/-- C12: when the declaration parser fails on the prepared style text,
`Sanitize` returns the empty string and emits nothing, for every policy and
element name. -/
theorem sanitize_parse_failure [Unicode]
    (ParseDeclarations : GoString → Option (List Declaration))
    (self : Policy) (elementName style : GoString)
    (hparse : ParseDeclarations (prepareStyle style) = none) :
    Sanitize ParseDeclarations self elementName style = [] ∧
    (SanitizeRun ParseDeclarations self elementName style).clean = [] := by
  unfold Sanitize SanitizeRun
  by_cases hp : HasPolicies self elementName = true
  · simp [hp, hparse]
  · simp [hp]

/-- Witness of C12: under the global policy of `TestMatchingHandler`, a style
whose second piece has no colon; the first declaration alone is accepted. -/
theorem sanitize_parse_failure_witness :
    simpleParser (prepareStyle "color: red; abc".toList) = none ∧
    Sanitize simpleParser globalColorPolicy "div".toList "color: red".toList =
      "color: red".toList ∧
    Sanitize simpleParser globalColorPolicy "div".toList "color: red; abc".toList = [] :=
  ⟨by decide, by decide,
    (sanitize_parse_failure simpleParser globalColorPolicy "div".toList
      "color: red; abc".toList (by decide)).1⟩

/-! ## Trailing spaces -/

theorem dropWhile_replicate_append {α : Type} (p : α → Bool) (c : α) (n : Nat) (l : List α)
    (hc : p c = true) : (List.replicate n c ++ l).dropWhile p = l.dropWhile p := by
  induction n with
  | zero => rfl
  | succ n ih => simp [List.replicate_succ, List.dropWhile, hc, ih]

theorem TrimRight_append_spaces (s : GoString) (n : Nat) :
    TrimRight (s ++ List.replicate n ' ') [' '] = TrimRight s [' '] := by
  unfold TrimRight
  rw [List.reverse_append, List.reverse_replicate,
    dropWhile_replicate_append _ _ _ _ (by decide)]

theorem prepareStyle_append_spaces (style : GoString) (n : Nat) :
    prepareStyle (style ++ List.replicate n ' ') = prepareStyle style := by
  unfold prepareStyle
  rw [TrimRight_append_spaces]

/-- C14: space characters after the style do not change the run of
`Sanitize`, hence not its result. -/
theorem sanitize_trailing_spaces [Unicode]
    (ParseDeclarations : GoString → Option (List Declaration))
    (self : Policy) (elementName style : GoString) (n : Nat) :
    Sanitize ParseDeclarations self elementName (style ++ List.replicate n ' ') =
      Sanitize ParseDeclarations self elementName style ∧
    SanitizeRun ParseDeclarations self elementName (style ++ List.replicate n ' ') =
      SanitizeRun ParseDeclarations self elementName style := by
  have hrun : SanitizeRun ParseDeclarations self elementName (style ++ List.replicate n ' ') =
      SanitizeRun ParseDeclarations self elementName style := by
    unfold SanitizeRun
    rw [prepareStyle_append_spaces]
  refine ⟨?_, hrun⟩
  unfold Sanitize
  rw [hrun]

/-! ## Existence of a policy -/

/-- The three ways in which a policy exists for an element name. -/
theorem hasPolicies_eq_true (self : Policy) (elementName : GoString) :
    HasPolicies self elementName = true ↔
      self.globalStyles.length > 0 ∨
      ((self.elsAndStyles.lookup elementName).getD []).length > 0 ∨
      ∃ e ∈ self.elsMatchingAndStyles,
        e.1.MatchString elementName = true ∧ e.2.length > 0 := by
  unfold HasPolicies
  by_cases hg : self.globalStyles.length > 0
  · simp [hg]
  · cases hl : self.elsAndStyles.lookup elementName with
    | none => simp [hg, List.any_eq_true]
    | some policies =>
      by_cases hp : policies.length > 0
      · simp [hg, hp]
      · simp [hg, hp, List.any_eq_true]

/-- C15: `HasPolicies` holds exactly when the global rules are non-empty, or
the exact-element entry of the name has at least one property, or some
registered pattern matches the name and has a non-empty rule set; so it holds
for every element name once the global rules are non-empty. -/
theorem hasPolicies_iff (self : Policy) (elementName : GoString) :
    (HasPolicies self elementName = true ↔
      self.globalStyles.length > 0 ∨
      ((self.elsAndStyles.lookup elementName).getD []).length > 0 ∨
      ∃ e ∈ self.elsMatchingAndStyles,
        e.1.MatchString elementName = true ∧ e.2.length > 0) ∧
    (self.globalStyles.length > 0 → ∀ name, HasPolicies self name = true) := by
  constructor
  · exact hasPolicies_eq_true self elementName
  · intro hg name
    unfold HasPolicies
    simp [hg]

/-! ## Shape of the output -/

theorem foldl_patterns_empty (pats : List (Regexp × StyleMap)) (elementName : GoString)
    (sps : StyleMap)
    (h : ∀ e ∈ pats, e.1.MatchString elementName = true → e.2.length = 0) :
    pats.foldl
        (fun sps e =>
          if e.1.MatchString elementName then
            e.2.foldl (fun sps kv => mapSet sps kv.1 ((sps.lookup kv.1).getD [] ++ kv.2)) sps
          else sps)
        sps = sps := by
  induction pats generalizing sps with
  | nil => rfl
  | cons e rest ih =>
    rw [List.foldl_cons]
    have hrest := ih
    by_cases hm : e.1.MatchString elementName = true
    · have he : e.2 = [] := List.length_eq_zero.mp (h e (List.mem_cons_self _ _) hm)
      simp only [hm, if_true, he, List.foldl_nil]
      exact ih sps (fun e' he' => h e' (List.mem_cons_of_mem _ he'))
    · simp only [hm, if_false]
      exact ih sps (fun e' he' => h e' (List.mem_cons_of_mem _ he'))

/-- Without any policy for the element, the loop body would emit nothing. -/
theorem emitCount_of_not_hasPolicies [Unicode] (self : Policy) (elementName : GoString)
    (dec : Declaration) (h : HasPolicies self elementName = false) :
    emitCount self (resolveStyles self elementName) dec = 0 := by
  have hiff := hasPolicies_eq_true self elementName
  have hnot : ¬ (self.globalStyles.length > 0 ∨
      ((self.elsAndStyles.lookup elementName).getD []).length > 0 ∨
      ∃ e ∈ self.elsMatchingAndStyles,
        e.1.MatchString elementName = true ∧ e.2.length > 0) := by
    intro hc
    have := hiff.mpr hc
    rw [h] at this
    cases this
  simp only [not_or, not_exists, not_and] at hnot
  obtain ⟨hg, hexact, hpat⟩ := hnot
  have hg0 : self.globalStyles = [] := List.length_eq_zero.mp (by omega)
  have hres : resolveStyles self elementName = [] := by
    unfold resolveStyles
    have h0 : ((self.elsAndStyles.lookup elementName).getD []).length = 0 := by omega
    simp only [h0, if_true]
    exact foldl_patterns_empty _ _ _ (fun e he hm => by have := hpat e he hm; omega)
  simp [emitCount, acceptCount, hres, hg0, List.lookup]

/-- The emitted list of a run whose style parses, in parse order. -/
theorem sanitizeRun_clean_of_parse [Unicode] (ParseDeclarations : GoString → Option (List Declaration))
    (self : Policy) (elementName style : GoString) (decs : List Declaration)
    (hparse : ParseDeclarations (prepareStyle style) = some decs) :
    (SanitizeRun ParseDeclarations self elementName style).clean =
      decs.flatMap (fun dec =>
        List.replicate (emitCount self (resolveStyles self elementName) dec) (declText dec)) := by
  by_cases hp : HasPolicies self elementName = true
  · exact sanitizeRun_clean _ _ _ _ _ hp hparse
  · have hp2 : HasPolicies self elementName = false := by simpa using hp
    rw [sanitizeRun_of_not_hasPolicies _ _ _ _ hp2]
    symm
    rw [List.flatMap_eq_nil_iff]
    intro dec _
    rw [emitCount_of_not_hasPolicies _ _ _ hp2]
    rfl

theorem join_cons (sep first : GoString) (rest : List GoString) :
    Join (first :: rest) sep = first ++ rest.flatMap (fun s => sep ++ s) := by
  induction rest generalizing first with
  | nil => simp [Join]
  | cons b rest ih =>
    simp only [Join, List.flatMap_cons, List.append_assoc]
    rw [ih b]

/-- C17: the output of `Sanitize` is the emitted texts joined with `"; "`:
empty when nothing is emitted, otherwise the first text followed by each
further text after one separator, so without leading or trailing separator;
and the emitted texts are in parse order: what is emitted for the declarations
before a declaration, then its own text, then what is emitted for the
declarations after it. -/
theorem sanitize_output_joined [Unicode]
    (ParseDeclarations : GoString → Option (List Declaration))
    (self : Policy) (elementName style : GoString) :
    Sanitize ParseDeclarations self elementName style =
        Join (SanitizeRun ParseDeclarations self elementName style).clean "; ".toList ∧
    ((SanitizeRun ParseDeclarations self elementName style).clean = [] →
        Sanitize ParseDeclarations self elementName style = []) ∧
    (∀ first rest, (SanitizeRun ParseDeclarations self elementName style).clean = first :: rest →
        Sanitize ParseDeclarations self elementName style =
          first ++ rest.flatMap (fun s => "; ".toList ++ s)) ∧
    (∀ before dec after,
        ParseDeclarations (prepareStyle style) = some (before ++ dec :: after) →
        (SanitizeRun ParseDeclarations self elementName style).clean =
          before.flatMap (fun d =>
              List.replicate (emitCount self (resolveStyles self elementName) d) (declText d)) ++
            List.replicate (emitCount self (resolveStyles self elementName) dec) (declText dec) ++
            after.flatMap (fun d =>
              List.replicate (emitCount self (resolveStyles self elementName) d) (declText d))) := by
  have hjoin := sanitize_eq_join ParseDeclarations self elementName style
  refine ⟨hjoin, ?_, ?_, ?_⟩
  · intro h
    rw [hjoin, h]
    rfl
  · intro first rest h
    rw [hjoin, h, join_cons]
  · intro before dec after hparse
    rw [sanitizeRun_clean_of_parse _ _ _ _ _ hparse, List.flatMap_append, List.flatMap_cons]
    simp only [List.append_assoc]

/-! ## The scenario of `Example` -/

set_option maxRecDepth 100000 in
/-- C13: under the policy that allows `text-decoration` with the enumeration
underline, line-through, none on `span` and `color` globally with the hex
colour pattern, when the parser yields the four declarations of the style of
`Example`, `Sanitize` on `span` returns exactly `text-decoration: underline`. -/
theorem example_scenario :
    Sanitize (constParser exampleDeclarations) examplePolicy "span".toList exampleStyle =
      "text-decoration: underline".toList ∧
    simpleParser (prepareStyle exampleStyle) = some exampleDeclarations ∧
    Sanitize simpleParser examplePolicy "span".toList exampleStyle =
      "text-decoration: underline".toList := by
  decide

/-! ## Enumerations -/

theorem stringInSlice_iff [Unicode] (needle : GoString) (haystack : List GoString) :
    stringInSlice needle haystack = true ↔
      ∃ straw ∈ haystack, EqualFold straw needle = true := by
  unfold stringInSlice
  exact List.any_eq_true

theorem stylePolicy_enum (GetDefaultHandler : GoString → Option (GoString → Bool))
    (self : PolicyBuilder) (attr : GoString) (hhandler : self.handler = none)
    (henum : self.enum.length > 0) :
    self.stylePolicy GetDefaultHandler attr =
      { handler := none, regexp := none, enum := self.enum } := by
  unfold PolicyBuilder.stylePolicy
  rw [hhandler]
  simp only [henum, if_true]

/-- C20: a rule committed from a builder with a non-empty enumeration and no
handler accepts a value exactly when the value is equal under
`strings.EqualFold` to some member of the enumeration, and a declaration is
emitted by that rule exactly then; `stringInSlice` holds exactly when some
element of the haystack is equal under `strings.EqualFold` to the needle; the
member `RED` is equal to the value `red`, whatever the case tables. -/
theorem enum_rule_accepts_iff [Unicode]
    (GetDefaultHandler : GoString → Option (GoString → Bool))
    (self : PolicyBuilder) (attr : GoString)
    (hhandler : self.handler = none) (henum : self.enum.length > 0) :
    (∀ value, ruleAccepts (self.stylePolicy GetDefaultHandler attr) value = true ↔
      ∃ member ∈ self.enum, EqualFold member value = true) ∧
    (∀ dec clean,
      applyRule dec (normalizedValue dec.Value) clean (self.stylePolicy GetDefaultHandler attr) =
        if (∃ member ∈ self.enum, EqualFold member (normalizedValue dec.Value) = true) then
          clean ++ [declText dec]
        else clean) ∧
    (∀ needle haystack, stringInSlice needle haystack = true ↔
      ∃ straw ∈ haystack, EqualFold straw needle = true) ∧
    EqualFold "RED".toList "red".toList = true := by
  have hacc : ∀ value, ruleAccepts (self.stylePolicy GetDefaultHandler attr) value = true ↔
      ∃ member ∈ self.enum, EqualFold member value = true := by
    intro value
    rw [stylePolicy_enum _ _ _ hhandler henum]
    unfold ruleAccepts
    simp only [henum, if_true]
    exact stringInSlice_iff _ _
  refine ⟨hacc, ?_, stringInSlice_iff, ?_⟩
  · intro dec clean
    rw [applyRule_eq]
    by_cases h : ruleAccepts (self.stylePolicy GetDefaultHandler attr)
        (normalizedValue dec.Value) = true
    · rw [if_pos h, if_pos ((hacc _).mp h)]
    · rw [if_neg h, if_neg (fun hc => h ((hacc _).mpr hc))]
  · rfl

/-- Witness of C20: the enumeration member `RED` accepts the value `red`. -/
theorem enum_rule_accepts_iff_witness :
    ruleAccepts
        (((AllowStyles ["color".toList]).MatchingEnum ["RED".toList]).stylePolicy
          noDefaultHandlers "color".toList)
        "red".toList = true ∧
    stringInSlice "red".toList ["RED".toList] = true :=
  ⟨((enum_rule_accepts_iff noDefaultHandlers
      ((AllowStyles ["color".toList]).MatchingEnum ["RED".toList]) "color".toList
      rfl (by decide)).1 "red".toList).mpr ⟨"RED".toList, List.mem_singleton.mpr rfl, by decide⟩,
    by decide⟩

/-! ## Vendor markers -/

theorem foldl_TrimPrefix_none (l : List GoString) (m : GoString)
    (h : ∀ p ∈ l, HasPrefix m p = false) : l.foldl TrimPrefix m = m := by
  induction l with
  | nil => rfl
  | cons p rest ih =>
    rw [List.foldl_cons]
    have hp : TrimPrefix m p = m := by
      unfold TrimPrefix
      simp [h p (List.mem_cons_self _ _)]
    rw [hp]
    exact ih (fun q hq => h q (List.mem_cons_of_mem _ hq))

theorem TrimPrefix_append_self (x m : GoString) : TrimPrefix (x ++ m) x = m := by
  unfold TrimPrefix HasPrefix
  have : x.isPrefixOf (x ++ m) = true := List.isPrefixOf_iff_prefix.mpr (List.prefix_append _ _)
  simp [this]

theorem foldl_TrimPrefix_once (l : List GoString) (x m : GoString)
    (hother : ∀ p ∈ l, p ≠ x → HasPrefix (x ++ m) p = false)
    (hm : ∀ p ∈ l, HasPrefix m p = false) (hx : x ∈ l) :
    l.foldl TrimPrefix (x ++ m) = m := by
  induction l with
  | nil => cases hx
  | cons p rest ih =>
    rw [List.foldl_cons]
    by_cases hpx : p = x
    · subst hpx
      rw [TrimPrefix_append_self]
      exact foldl_TrimPrefix_none _ _ (fun q hq => hm q (List.mem_cons_of_mem _ hq))
    · have hp : TrimPrefix (x ++ m) p = x ++ m := by
        unfold TrimPrefix
        simp [hother p (List.mem_cons_self _ _) hpx]
      rw [hp]
      have hx2 : x ∈ rest := by
        rcases List.mem_cons.mp hx with h | h
        · exact absurd h.symm hpx
        · exact h
      exact ih (fun q hq => hother q (List.mem_cons_of_mem _ hq))
        (fun q hq => hm q (List.mem_cons_of_mem _ hq)) hx2

/-- No listed marker starts with another one. -/
theorem prefixes_unrelated :
    ∀ p ∈ prefixes, ∀ x ∈ prefixes, p ≠ x → HasPrefix x p = false := by
  decide

theorem prefixes_lower [Unicode] : ∀ x ∈ prefixes, ToLower x = x := by
  intro x hx
  have hascii : ∀ x ∈ prefixes, ∀ c ∈ x, c.toNat < 128 := by decide
  have hmap : ∀ x ∈ prefixes, x.map Char.toLower = x := by decide
  rw [ToLower_ascii_text x (hascii x hx), hmap x hx]

theorem HasPrefix_append_of_unrelated (p x m : GoString)
    (hpx : HasPrefix x p = false) (hxp : HasPrefix p x = false) :
    HasPrefix (x ++ m) p = false := by
  unfold HasPrefix at *
  by_contra hc
  have hc2 : p.isPrefixOf (x ++ m) = true := by simpa using hc
  have h1 : p <+: x ++ m := List.isPrefixOf_iff_prefix.mp hc2
  have h2 : x <+: x ++ m := List.prefix_append _ _
  rcases Nat.le_total p.length x.length with hle | hle
  · have := List.isPrefixOf_iff_prefix.mpr (List.prefix_of_prefix_length_le h1 h2 hle)
    rw [this] at hpx
    cases hpx
  · have := List.isPrefixOf_iff_prefix.mpr (List.prefix_of_prefix_length_le h2 h1 hle)
    rw [this] at hxp
    cases hxp

/-- The lookup name of a property that carries one listed marker in front of a
name without marker is the lowercased name. -/
theorem lookupName_marker [Unicode] (x n : GoString) (hx : x ∈ prefixes)
    (hn : ∀ p ∈ prefixes, HasPrefix (ToLower n) p = false) :
    lookupName (x ++ n) = ToLower n ∧ lookupName n = ToLower n := by
  constructor
  · unfold lookupName
    have hlow : ToLower (x ++ n) = x ++ ToLower n := by
      rw [ToLower_append, prefixes_lower x hx]
    rw [hlow]
    refine foldl_TrimPrefix_once _ _ _ ?_ hn hx
    intro p hp hpx
    exact HasPrefix_append_of_unrelated p x _ (prefixes_unrelated p hp x hx hpx)
      (prefixes_unrelated x hx p hp (fun h => hpx h.symm))
  · unfold lookupName
    exact foldl_TrimPrefix_none _ _ hn

/-- C16: for a listed vendor marker `x` and a property name `n` whose lowercase
form (under `strings.ToLower`, whatever the case tables) starts with no listed
marker, rule lookup for the property `x ++ n` uses the lowercase form of `n`,
as for the property `n`; the declaration with
property `x ++ n` is emitted as often as the declaration with property `n` and
the same value, with the text that keeps `x ++ n`, and the two runs differ
only in that text. -/
theorem vendor_marker_stripped_for_lookup [Unicode]
    (x n : GoString) (hx : x ∈ prefixes)
    (hn : ∀ p ∈ prefixes, HasPrefix (ToLower n) p = false)
    (self : Policy) (elementName style value : GoString) (before after : List Declaration) :
    lookupName (x ++ n) = lookupName n ∧
    lookupName n = ToLower n ∧
    (∀ sps clean,
      sanitizeDeclaration self sps clean ⟨x ++ n, value⟩ =
        clean ++ List.replicate (emitCount self sps ⟨n, value⟩)
          (x ++ n ++ ": ".toList ++ value)) ∧
    (∀ sps clean,
      sanitizeDeclaration self sps clean ⟨n, value⟩ =
        clean ++ List.replicate (emitCount self sps ⟨n, value⟩)
          (n ++ ": ".toList ++ value)) ∧
    (SanitizeRun (constParser (before ++ ⟨x ++ n, value⟩ :: after)) self elementName style).clean =
      before.flatMap (fun d =>
          List.replicate (emitCount self (resolveStyles self elementName) d) (declText d)) ++
        List.replicate (emitCount self (resolveStyles self elementName) ⟨n, value⟩)
          (x ++ n ++ ": ".toList ++ value) ++
        after.flatMap (fun d =>
          List.replicate (emitCount self (resolveStyles self elementName) d) (declText d)) ∧
    (SanitizeRun (constParser (before ++ ⟨n, value⟩ :: after)) self elementName style).clean =
      before.flatMap (fun d =>
          List.replicate (emitCount self (resolveStyles self elementName) d) (declText d)) ++
        List.replicate (emitCount self (resolveStyles self elementName) ⟨n, value⟩)
          (n ++ ": ".toList ++ value) ++
        after.flatMap (fun d =>
          List.replicate (emitCount self (resolveStyles self elementName) d) (declText d)) := by
  have hlook := lookupName_marker x n hx hn
  have hname : lookupName (x ++ n) = lookupName n := by rw [hlook.1, hlook.2]
  have hcount : ∀ sps, emitCount self sps ⟨x ++ n, value⟩ = emitCount self sps ⟨n, value⟩ := by
    intro sps
    simp only [emitCount, hname]
  refine ⟨hname, hlook.2, ?_, ?_, ?_, ?_⟩
  · intro sps clean
    rw [sanitizeDeclaration_eq, hcount]
    rfl
  · intro sps clean
    rw [sanitizeDeclaration_eq]
    rfl
  · rw [sanitizeRun_clean_of_parse _ _ _ _ _ rfl, List.flatMap_append, List.flatMap_cons, hcount]
    simp only [declText, List.append_assoc]
  · rw [sanitizeRun_clean_of_parse _ _ _ _ _ rfl, List.flatMap_append, List.flatMap_cons]
    simp only [declText, List.append_assoc]

/-- Witness of C16: the marker `-webkit-` in front of `Transition`. -/
theorem vendor_marker_stripped_for_lookup_witness :
    "-webkit-".toList ∈ prefixes ∧
    (∀ p ∈ prefixes, HasPrefix (ToLower "Transition".toList) p = false) ∧
    lookupName ("-webkit-".toList ++ "Transition".toList) = lookupName "Transition".toList ∧
    lookupName "Transition".toList = "transition".toList :=
  ⟨by decide, by decide,
    (vendor_marker_stripped_for_lookup "-webkit-".toList "Transition".toList
      (by decide) (by decide) NewPolicy [] [] [] [] []).1,
    by decide⟩

/-! ## Rules built by the commits -/

theorem mem_mapSet {β : Type} (m : List (GoString × β)) (k : GoString) (v : β)
    (e : GoString × β) (h : e ∈ mapSet m k v) : e ∈ m ∨ e = (k, v) := by
  induction m with
  | nil =>
    right
    simpa [mapSet] using h
  | cons a rest ih =>
    unfold mapSet at h
    by_cases ha : a.1 = k
    · rw [if_pos ha] at h
      rcases List.mem_cons.mp h with h1 | h1
      · exact Or.inr h1
      · exact Or.inl (List.mem_cons_of_mem _ h1)
    · rw [if_neg ha] at h
      rcases List.mem_cons.mp h with h1 | h1
      · exact Or.inl (h1 ▸ List.mem_cons_self _ _)
      · rcases ih h1 with h2 | h2
        · exact Or.inl (List.mem_cons_of_mem _ h2)
        · exact Or.inr h2

theorem lookup_some_mem {β : Type} (m : List (GoString × β)) (k : GoString) (v : β)
    (h : m.lookup k = some v) : (k, v) ∈ m := by
  induction m with
  | nil => simp [List.lookup] at h
  | cons a rest ih =>
    obtain ⟨ak, av⟩ := a
    by_cases hk : k = ak
    · subst hk
      rw [lookup_cons_self] at h
      cases h
      exact List.mem_cons_self _ _
    · rw [lookup_cons_ne _ _ _ _ hk] at h
      exact List.mem_cons_of_mem _ (ih h)

theorem mem_matchingSet (m : List (Regexp × StyleMap)) (regex : Regexp) (v : StyleMap)
    (e : Regexp × StyleMap) (h : e ∈ matchingSet m regex v) : e ∈ m ∨ e.2 = v := by
  induction m with
  | nil =>
    right
    have : e = (regex, v) := by simpa [matchingSet] using h
    rw [this]
  | cons a rest ih =>
    unfold matchingSet at h
    by_cases ha : a.1.ptr = regex.ptr
    · rw [if_pos ha] at h
      rcases List.mem_cons.mp h with h1 | h1
      · right
        rw [h1]
      · exact Or.inl (List.mem_cons_of_mem _ h1)
    · rw [if_neg ha] at h
      rcases List.mem_cons.mp h with h1 | h1
      · exact Or.inl (h1 ▸ List.mem_cons_self _ _)
      · rcases ih h1 with h2 | h2
        · exact Or.inl (List.mem_cons_of_mem _ h2)
        · exact Or.inr h2

theorem matchingGet_some_mem (m : List (Regexp × StyleMap)) (regex : Regexp) (v : StyleMap)
    (h : matchingGet m regex = some v) : ∃ e ∈ m, e.2 = v := by
  induction m with
  | nil => simp [matchingGet] at h
  | cons a rest ih =>
    unfold matchingGet at h
    by_cases ha : a.1.ptr = regex.ptr
    · rw [if_pos ha] at h
      exact ⟨a, List.mem_cons_self _ _, Option.some.inj h⟩
    · rw [if_neg ha] at h
      obtain ⟨e, he, hv⟩ := ih h
      exact ⟨e, List.mem_cons_of_mem _ he, hv⟩

theorem StyleMap.Forall_nil (P : stylePolicy → Prop) : StyleMap.Forall P [] := by
  intro kv hkv
  cases hkv

/-- Appending a rule that satisfies `P` to one rule list keeps `P` on the map. -/
theorem StyleMap.Forall_append (P : stylePolicy → Prop) (m : StyleMap) (k : GoString)
    (sp : stylePolicy) (hm : StyleMap.Forall P m) (hsp : P sp) :
    StyleMap.Forall P (mapSet m k ((m.lookup k).getD [] ++ [sp])) := by
  intro kv hkv sp' hsp'
  rcases mem_mapSet _ _ _ _ hkv with h | h
  · exact hm kv h sp' hsp'
  · rw [h] at hsp'
    rcases List.mem_append.mp hsp' with h1 | h1
    · cases hl : m.lookup k with
      | none => rw [hl] at h1; cases h1
      | some v =>
        rw [hl] at h1
        exact hm (k, v) (lookup_some_mem _ _ _ hl) sp' h1
    · have : sp' = sp := by simpa using h1
      rw [this]
      exact hsp

theorem Forall_globally (P : stylePolicy → Prop)
    (GetDefaultHandler : GoString → Option (GoString → Bool)) (b : PolicyBuilder) (p : Policy)
    (hP : ∀ attr, P (b.stylePolicy GetDefaultHandler attr)) (hp : Policy.Forall P p) :
    Policy.Forall P (b.Globally GetDefaultHandler p) := by
  unfold PolicyBuilder.Globally
  generalize b.propertyNames = names
  induction names generalizing p with
  | nil => exact hp
  | cons attr rest ih =>
    rw [List.foldl_cons]
    apply ih
    exact ⟨hp.1, hp.2.1, StyleMap.Forall_append P _ _ _ hp.2.2 (hP attr)⟩

theorem Forall_onElementsMatching (P : stylePolicy → Prop)
    (GetDefaultHandler : GoString → Option (GoString → Bool)) (b : PolicyBuilder) (p : Policy)
    (regex : Regexp)
    (hP : ∀ attr, P (b.stylePolicy GetDefaultHandler attr)) (hp : Policy.Forall P p) :
    Policy.Forall P (b.OnElementsMatching GetDefaultHandler p regex) := by
  unfold PolicyBuilder.OnElementsMatching
  have hp0 : Policy.Forall P
      (match matchingGet p.elsMatchingAndStyles regex with
        | some _ => p
        | none => { p with elsMatchingAndStyles := matchingSet p.elsMatchingAndStyles regex [] }) := by
    cases matchingGet p.elsMatchingAndStyles regex with
    | some _ => exact hp
    | none =>
      refine ⟨hp.1, ?_, hp.2.2⟩
      intro e he
      rcases mem_matchingSet _ _ _ _ he with h | h
      · exact hp.2.1 e h
      · rw [h]
        exact StyleMap.Forall_nil P
  simp only
  generalize (match matchingGet p.elsMatchingAndStyles regex with
        | some _ => p
        | none => { p with elsMatchingAndStyles := matchingSet p.elsMatchingAndStyles regex [] })
      = p0 at hp0
  generalize b.propertyNames = names
  induction names generalizing p0 with
  | nil => exact hp0
  | cons attr rest ih =>
    rw [List.foldl_cons]
    apply ih
    refine ⟨hp0.1, ?_, hp0.2.2⟩
    intro e he
    rcases mem_matchingSet _ _ _ _ he with h | h
    · exact hp0.2.1 e h
    · rw [h]
      apply StyleMap.Forall_append P _ _ _ _ (hP attr)
      cases hg : matchingGet p0.elsMatchingAndStyles regex with
      | none => exact StyleMap.Forall_nil P
      | some v =>
        obtain ⟨e', he', hv⟩ := matchingGet_some_mem _ _ _ hg
        simp only [Option.getD_some]
        rw [← hv]
        exact hp0.2.1 e' he'

theorem Forall_onElements [Unicode] (P : stylePolicy → Prop)
    (GetDefaultHandler : GoString → Option (GoString → Bool)) (b : PolicyBuilder) (p : Policy)
    (elements : List GoString)
    (hP : ∀ attr, P (b.stylePolicy GetDefaultHandler attr)) (hp : Policy.Forall P p) :
    Policy.Forall P (b.OnElements GetDefaultHandler p elements) := by
  unfold PolicyBuilder.OnElements
  induction elements generalizing p with
  | nil => exact hp
  | cons element rest ihel =>
    rw [List.foldl_cons]
    apply ihel
    generalize b.propertyNames = names
    induction names generalizing p with
    | nil => exact hp
    | cons attr rest2 ih =>
      rw [List.foldl_cons]
      apply ih
      refine ⟨?_, hp.2.1, hp.2.2⟩
      intro e he
      rcases mem_mapSet _ _ _ _ he with h | h
      · exact hp.1 e h
      · rw [h]
        apply StyleMap.Forall_append P _ _ _ _ (hP attr)
        cases hg : p.elsAndStyles.lookup (ToLower element) with
        | none => exact StyleMap.Forall_nil P
        | some v => exact hp.1 _ (lookup_some_mem _ _ _ hg)

/-- A rule built by `stylePolicy` has exactly one strategy set, provided the
table of default handlers returns a handler. -/
theorem strategyCount_stylePolicy
    (GetDefaultHandler : GoString → Option (GoString → Bool)) (b : PolicyBuilder)
    (attr : GoString) (hreg : (GetDefaultHandler attr).isSome = true) :
    strategyCount (b.stylePolicy GetDefaultHandler attr) = 1 := by
  unfold PolicyBuilder.stylePolicy
  cases hh : b.handler with
  | some handler => simp [strategyCount]
  | none =>
    simp only
    by_cases he : b.enum.length > 0
    · simp [strategyCount, he]
    · rw [if_neg he]
      cases hr : b.regexp with
      | some regexp => simp [strategyCount]
      | none => simp [strategyCount, hreg]

/-- C19: provided the table of default handlers returns a handler for every
property, every rule constructed by a commit has exactly one of handler,
non-empty enumeration and pattern set, and so has every rule stored in one of
the three indices of a policy obtained from a new policy by any sequence of
commits; when the builder staged no handler, no value of an enumeration and no
pattern, the handler of the rule is the default handler of the property. -/
theorem committed_rule_has_one_strategy [Unicode]
    (GetDefaultHandler : GoString → Option (GoString → Bool))
    (hreg : ∀ attr, (GetDefaultHandler attr).isSome = true) :
    (∀ (b : PolicyBuilder) attr, strategyCount (b.stylePolicy GetDefaultHandler attr) = 1) ∧
    (∀ p, Built GetDefaultHandler p → Policy.Forall (fun sp => strategyCount sp = 1) p) ∧
    (∀ (b : PolicyBuilder) attr, b.handler = none → b.enum.length = 0 → b.regexp = none →
      b.stylePolicy GetDefaultHandler attr =
        { handler := GetDefaultHandler attr, regexp := none, enum := [] }) := by
  have hone : ∀ (b : PolicyBuilder) attr,
      strategyCount (b.stylePolicy GetDefaultHandler attr) = 1 :=
    fun b attr => strategyCount_stylePolicy GetDefaultHandler b attr (hreg attr)
  refine ⟨hone, ?_, ?_⟩
  · intro p hp
    induction hp with
    | newPolicy =>
      exact And.intro (fun e he => by cases he)
        (And.intro (fun e he => by cases he) (StyleMap.Forall_nil _))
    | onElements b p elements _ ih => exact Forall_onElements _ _ b p elements (hone b) ih
    | onElementsMatching b p regex _ ih =>
      exact Forall_onElementsMatching _ _ b p regex (hone b) ih
    | globally b p _ ih => exact Forall_globally _ _ b p (hone b) ih
  · intro b attr hh he hr
    unfold PolicyBuilder.stylePolicy
    rw [hh, hr]
    have he2 : ¬ b.enum.length > 0 := by omega
    simp only [he2, if_false]

/-- Witness of C19: the table without entries, and the policy of the scenario
of `Example`. -/
theorem committed_rule_has_one_strategy_witness :
    (∀ attr, (noDefaultHandlers attr).isSome = true) ∧
    Policy.Forall (fun sp => strategyCount sp = 1) examplePolicy :=
  ⟨fun _ => rfl,
    (committed_rule_has_one_strategy noDefaultHandlers (fun _ => rfl)).2.1 examplePolicy
      (Built.globally _ _ (Built.onElements _ _ _ Built.newPolicy))⟩

/-! ## Frame of the commits -/

theorem ruleList_appendRule (f : GoString → stylePolicy) (m : StyleMap) (a k : GoString) :
    ruleList (appendRule f m a) k = ruleList m k ++ (if k = a then [f a] else []) := by
  unfold ruleList appendRule
  rw [lookup_mapSet]
  by_cases h : k = a
  · subst h
    simp
  · simp [h]

theorem count_cons_self (k : GoString) (l : List GoString) :
    (k :: l).count k = l.count k + 1 := by
  simp [List.count_cons]

theorem count_cons_ne (a k : GoString) (l : List GoString) (h : ¬ k = a) :
    (a :: l).count k = l.count k := by
  have h2 : (a == k) = false := by simpa using fun h' => h h'.symm
  simp [List.count_cons, h2]

theorem count_nodup (l : List GoString) (k : GoString) (h : l.Nodup) :
    l.count k = if k ∈ l then 1 else 0 := by
  induction l with
  | nil => simp
  | cons a rest ih =>
    rw [List.nodup_cons] at h
    by_cases hk : k = a
    · subst hk
      rw [count_cons_self, ih h.2]
      simp [h.1]
    · rw [count_cons_ne _ _ _ hk, ih h.2]
      simp [hk]

/-- Appending one rule per staged name to a rule map adds, to the rule list of
a property, one rule per occurrence of the property among the names. -/
theorem ruleList_foldl (f : GoString → stylePolicy) (names : List GoString) (m : StyleMap)
    (k : GoString) :
    ruleList (names.foldl (appendRule f) m) k =
      ruleList m k ++ List.replicate (names.count k) (f k) := by
  induction names generalizing m with
  | nil => simp
  | cons a rest ih =>
    rw [List.foldl_cons, ih, ruleList_appendRule, List.append_assoc]
    by_cases h : k = a
    · subst h
      rw [if_pos rfl, count_cons_self, Nat.add_comm, List.replicate_add]
      rfl
    · rw [if_neg h, count_cons_ne _ _ _ h]
      rfl

theorem matchingGet_congr (m : List (Regexp × StyleMap)) (r r2 : Regexp)
    (h : r.ptr = r2.ptr) : matchingGet m r = matchingGet m r2 := by
  induction m with
  | nil => rfl
  | cons e rest ih =>
    unfold matchingGet
    rw [h, ih]

theorem matchingGet_matchingSet (m : List (Regexp × StyleMap)) (regex r : Regexp)
    (v : StyleMap) :
    matchingGet (matchingSet m regex v) r =
      if r.ptr = regex.ptr then some v else matchingGet m r := by
  induction m with
  | nil =>
    by_cases h : r.ptr = regex.ptr
    · simp [matchingSet, matchingGet, h]
    · have h2 : ¬ regex.ptr = r.ptr := fun h' => h h'.symm
      simp [matchingSet, matchingGet, h, h2]
  | cons e rest ih =>
    unfold matchingSet
    by_cases he : e.1.ptr = regex.ptr
    · rw [if_pos he]
      by_cases h : r.ptr = regex.ptr
      · have h2 : e.1.ptr = r.ptr := by omega
        simp [matchingGet, h, h2]
      · have h2 : ¬ e.1.ptr = r.ptr := by omega
        simp [matchingGet, h, h2]
    · rw [if_neg he]
      by_cases h2 : e.1.ptr = r.ptr
      · have h : ¬ r.ptr = regex.ptr := by omega
        simp [matchingGet, h, h2]
      · simp only [matchingGet, h2, if_false]
        exact ih

/-- What `Globally` does: the other indices are untouched, and every global
rule list receives one rule per occurrence of its property among the names. -/
theorem globally_frame (GetDefaultHandler : GoString → Option (GoString → Bool))
    (b : PolicyBuilder) (p : Policy) :
    (b.Globally GetDefaultHandler p).elsAndStyles = p.elsAndStyles ∧
    (b.Globally GetDefaultHandler p).elsMatchingAndStyles = p.elsMatchingAndStyles ∧
    ∀ k, (b.Globally GetDefaultHandler p).globalRules k =
      p.globalRules k ++
        List.replicate (b.propertyNames.count k) (b.stylePolicy GetDefaultHandler k) := by
  unfold PolicyBuilder.Globally
  generalize b.propertyNames = names
  induction names generalizing p with
  | nil => simp
  | cons a rest ih =>
    rw [List.foldl_cons]
    obtain ⟨h1, h2, h3⟩ := ih _
    refine ⟨h1, h2, ?_⟩
    intro k
    rw [h3 k]
    have hstep : ∀ q : Policy,
        Policy.globalRules
          { q with globalStyles := appendRule (b.stylePolicy GetDefaultHandler) q.globalStyles a } k =
        q.globalRules k ++ (if k = a then [b.stylePolicy GetDefaultHandler a] else []) :=
      fun q => ruleList_appendRule _ _ _ _
    have := hstep p
    unfold appendRule at this
    rw [this, List.append_assoc]
    by_cases h : k = a
    · subst h
      rw [if_pos rfl, count_cons_self, Nat.add_comm, List.replicate_add]
      rfl
    · rw [if_neg h, count_cons_ne _ _ _ h]
      rfl

theorem patternRules_step (f : GoString → stylePolicy) (pats : List (Regexp × StyleMap))
    (regex r : Regexp) (a k : GoString) :
    ruleList ((matchingGet
        (matchingSet pats regex (appendRule f ((matchingGet pats regex).getD []) a)) r).getD []) k =
      ruleList ((matchingGet pats r).getD []) k ++
        (if r.ptr = regex.ptr ∧ k = a then [f a] else []) := by
  rw [matchingGet_matchingSet]
  by_cases h : r.ptr = regex.ptr
  · rw [if_pos h, matchingGet_congr _ r regex h]
    simp only [Option.getD_some, h, true_and]
    exact ruleList_appendRule _ _ _ _
  · simp [h]

theorem elementRules_step (f : GoString → stylePolicy) (els : List (GoString × StyleMap))
    (element el a k : GoString) :
    ruleList (((mapSet els element
        (appendRule f ((els.lookup element).getD []) a)).lookup el).getD []) k =
      ruleList ((els.lookup el).getD []) k ++
        (if el = element ∧ k = a then [f a] else []) := by
  rw [lookup_mapSet]
  by_cases h : el = element
  · subst h
    simp only [if_true, Option.getD_some, true_and]
    exact ruleList_appendRule _ _ _ _
  · simp [h]

/-- What `OnElementsMatching` does: the other indices are untouched, and every
rule list of the pattern receives one rule per occurrence of its property among
the names. -/
theorem onElementsMatching_frame (GetDefaultHandler : GoString → Option (GoString → Bool))
    (b : PolicyBuilder) (p : Policy) (regex : Regexp) :
    (b.OnElementsMatching GetDefaultHandler p regex).elsAndStyles = p.elsAndStyles ∧
    (b.OnElementsMatching GetDefaultHandler p regex).globalStyles = p.globalStyles ∧
    ∀ r k, (b.OnElementsMatching GetDefaultHandler p regex).patternRules r k =
      p.patternRules r k ++
        (if r.ptr = regex.ptr then
          List.replicate (b.propertyNames.count k) (b.stylePolicy GetDefaultHandler k)
        else []) := by
  have hfold : ∀ (names : List GoString) (q : Policy),
      (names.foldl
        (fun p attr =>
          let styles := (matchingGet p.elsMatchingAndStyles regex).getD []
          let sp := b.stylePolicy GetDefaultHandler attr
          let styles := mapSet styles attr ((styles.lookup attr).getD [] ++ [sp])
          { p with elsMatchingAndStyles := matchingSet p.elsMatchingAndStyles regex styles })
        q).elsAndStyles = q.elsAndStyles ∧
      (names.foldl
        (fun p attr =>
          let styles := (matchingGet p.elsMatchingAndStyles regex).getD []
          let sp := b.stylePolicy GetDefaultHandler attr
          let styles := mapSet styles attr ((styles.lookup attr).getD [] ++ [sp])
          { p with elsMatchingAndStyles := matchingSet p.elsMatchingAndStyles regex styles })
        q).globalStyles = q.globalStyles ∧
      ∀ r k, (names.foldl
        (fun p attr =>
          let styles := (matchingGet p.elsMatchingAndStyles regex).getD []
          let sp := b.stylePolicy GetDefaultHandler attr
          let styles := mapSet styles attr ((styles.lookup attr).getD [] ++ [sp])
          { p with elsMatchingAndStyles := matchingSet p.elsMatchingAndStyles regex styles })
        q).patternRules r k =
        q.patternRules r k ++
          (if r.ptr = regex.ptr then
            List.replicate (names.count k) (b.stylePolicy GetDefaultHandler k)
          else []) := by
    intro names
    induction names with
    | nil => intro q; simp
    | cons a rest ih =>
      intro q
      rw [List.foldl_cons]
      obtain ⟨h1, h2, h3⟩ := ih _
      refine ⟨h1, h2, ?_⟩
      intro r k
      rw [h3 r k]
      have hstep := patternRules_step (b.stylePolicy GetDefaultHandler)
        q.elsMatchingAndStyles regex r a k
      unfold appendRule at hstep
      unfold Policy.patternRules
      simp only
      rw [hstep, List.append_assoc]
      by_cases hr : r.ptr = regex.ptr
      · by_cases hk : k = a
        · subst hk
          simp only [hr, true_and, if_true]
          rw [count_cons_self, Nat.add_comm, List.replicate_add]
          rfl
        · simp only [hr, hk, and_false, if_false, if_true, List.nil_append]
          rw [count_cons_ne _ _ _ hk]
      · simp [hr]
  unfold PolicyBuilder.OnElementsMatching
  simp only
  obtain ⟨h1, h2, h3⟩ := hfold b.propertyNames
    (match matchingGet p.elsMatchingAndStyles regex with
      | some _ => p
      | none => { p with elsMatchingAndStyles := matchingSet p.elsMatchingAndStyles regex [] })
  have hp0 : ∀ r k,
      Policy.patternRules
        (match matchingGet p.elsMatchingAndStyles regex with
          | some _ => p
          | none => { p with elsMatchingAndStyles := matchingSet p.elsMatchingAndStyles regex [] })
        r k = p.patternRules r k := by
    intro r k
    cases hg : matchingGet p.elsMatchingAndStyles regex with
    | some _ => rfl
    | none =>
      unfold Policy.patternRules
      simp only
      rw [matchingGet_matchingSet]
      by_cases hr : r.ptr = regex.ptr
      · rw [if_pos hr, matchingGet_congr _ r regex hr, hg]
        rfl
      · rw [if_neg hr]
  refine ⟨?_, ?_, ?_⟩
  · rw [h1]
    cases matchingGet p.elsMatchingAndStyles regex <;> rfl
  · rw [h2]
    cases matchingGet p.elsMatchingAndStyles regex <;> rfl
  · intro r k
    rw [h3 r k, hp0 r k]

/-- What `OnElements` does for one element: the other indices are untouched,
and every rule list of the element receives one rule per occurrence of its
property among the names. -/
theorem onElement_frame (f : GoString → stylePolicy) (element : GoString)
    (names : List GoString) (q : Policy) :
    (names.foldl
      (fun p attr =>
        let styles := (p.elsAndStyles.lookup element).getD []
        let sp := f attr
        let styles := mapSet styles attr ((styles.lookup attr).getD [] ++ [sp])
        { p with elsAndStyles := mapSet p.elsAndStyles element styles })
      q).elsMatchingAndStyles = q.elsMatchingAndStyles ∧
    (names.foldl
      (fun p attr =>
        let styles := (p.elsAndStyles.lookup element).getD []
        let sp := f attr
        let styles := mapSet styles attr ((styles.lookup attr).getD [] ++ [sp])
        { p with elsAndStyles := mapSet p.elsAndStyles element styles })
      q).globalStyles = q.globalStyles ∧
    ∀ el k, (names.foldl
      (fun p attr =>
        let styles := (p.elsAndStyles.lookup element).getD []
        let sp := f attr
        let styles := mapSet styles attr ((styles.lookup attr).getD [] ++ [sp])
        { p with elsAndStyles := mapSet p.elsAndStyles element styles })
      q).elementRules el k =
      q.elementRules el k ++
        (if el = element then List.replicate (names.count k) (f k) else []) := by
  induction names generalizing q with
  | nil => simp
  | cons a rest ih =>
    rw [List.foldl_cons]
    obtain ⟨h1, h2, h3⟩ := ih _
    refine ⟨h1, h2, ?_⟩
    intro el k
    rw [h3 el k]
    have hstep := elementRules_step f q.elsAndStyles element el a k
    unfold appendRule at hstep
    unfold Policy.elementRules
    simp only
    rw [hstep, List.append_assoc]
    by_cases hel : el = element
    · by_cases hk : k = a
      · subst hk
        simp only [hel, true_and, if_true]
        rw [count_cons_self, Nat.add_comm, List.replicate_add]
        rfl
      · simp only [hel, hk, and_false, if_false, if_true, List.nil_append]
        rw [count_cons_ne _ _ _ hk]
    · simp [hel]

/-- What `OnElements` does: the other indices are untouched, and every rule
list of an element receives one rule per occurrence of the element among the
lowercased element names and of its property among the names. -/
theorem onElements_frame [Unicode] (GetDefaultHandler : GoString → Option (GoString → Bool))
    (b : PolicyBuilder) (p : Policy) (elements : List GoString) :
    (b.OnElements GetDefaultHandler p elements).elsMatchingAndStyles =
      p.elsMatchingAndStyles ∧
    (b.OnElements GetDefaultHandler p elements).globalStyles = p.globalStyles ∧
    ∀ el k, (b.OnElements GetDefaultHandler p elements).elementRules el k =
      p.elementRules el k ++
        List.replicate ((elements.map ToLower).count el * b.propertyNames.count k)
          (b.stylePolicy GetDefaultHandler k) := by
  unfold PolicyBuilder.OnElements
  induction elements generalizing p with
  | nil => simp
  | cons element rest ih =>
    rw [List.foldl_cons]
    obtain ⟨h1, h2, h3⟩ := ih _
    obtain ⟨g1, g2, g3⟩ := onElement_frame (b.stylePolicy GetDefaultHandler)
      (ToLower element) b.propertyNames p
    refine ⟨h1.trans g1, h2.trans g2, ?_⟩
    intro el k
    rw [h3 el k]
    simp only at g3
    rw [g3 el k, List.append_assoc, List.map_cons]
    by_cases hel : el = ToLower element
    · subst hel
      rw [if_pos rfl, count_cons_self, ← List.replicate_add]
      congr 2
      rw [Nat.add_mul, Nat.one_mul, Nat.add_comm]
    · rw [if_neg hel, count_cons_ne _ _ _ hel]
      rfl

theorem replicate_count_mul_nodup {α : Type} (l m : List GoString) (a k : GoString) (x : α)
    (hl : l.Nodup) (hm : m.Nodup) :
    List.replicate (l.count a * m.count k) x = if a ∈ l ∧ k ∈ m then [x] else [] := by
  rw [count_nodup l a hl, count_nodup m k hm]
  by_cases ha : a ∈ l
  · by_cases hk : k ∈ m
    · simp [ha, hk]
    · simp [ha, hk]
  · simp [ha]

theorem replicate_count_nodup {α : Type} (m : List GoString) (k : GoString) (x : α)
    (hm : m.Nodup) : List.replicate (m.count k) x = if k ∈ m then [x] else [] := by
  rw [count_nodup m k hm]
  by_cases hk : k ∈ m
  · simp [hk]
  · simp [hk]

/-- C18, as stated, fails: element names that are distinct but equal once
lowercased target the same rule list, which receives two rules from one
commit; likewise for property names. -/
theorem commit_with_names_equal_up_to_case :
    (["SPAN".toList, "span".toList] : List GoString).Nodup ∧
    (NewPolicy.elementRules "span".toList "color".toList).length = 0 ∧
    ((((AllowStyles ["color".toList]).MatchingHandler (some trueHandler)).OnElements
        noDefaultHandlers NewPolicy ["SPAN".toList, "span".toList]).elementRules
      "span".toList "color".toList).length = 2 ∧
    (["Color".toList, "color".toList] : List GoString).Nodup ∧
    ((((AllowStyles ["Color".toList, "color".toList]).MatchingHandler
        (some trueHandler)).Globally noDefaultHandlers NewPolicy).globalRules
      "color".toList).length = 2 := by
  decide

/-- C18, amended: for a builder whose staged property names are the lowercase
forms of `names` and are distinct once lowercased, and for element names that
are distinct once lowercased, each commit appends exactly one rule, the rule
built for the property, at the end of every targeted rule list and leaves every
other rule list as it was: `OnElements` targets the lists of the lowercased
element names and lowercased properties, `OnElementsMatching` those of the
pattern (by pointer) and lowercased properties, `Globally` the global lists of
the lowercased properties; the indices a commit does not write are untouched. -/
theorem commit_appends_one_rule [Unicode]
    (GetDefaultHandler : GoString → Option (GoString → Bool))
    (names : List GoString) (b : PolicyBuilder) (p : Policy)
    (elements : List GoString) (regex : Regexp)
    (hb : b.propertyNames = names.map ToLower)
    (hnames : (names.map ToLower).Nodup) (hels : (elements.map ToLower).Nodup) :
    ((b.OnElements GetDefaultHandler p elements).elsMatchingAndStyles =
        p.elsMatchingAndStyles ∧
      (b.OnElements GetDefaultHandler p elements).globalStyles = p.globalStyles ∧
      ∀ el k, (b.OnElements GetDefaultHandler p elements).elementRules el k =
        p.elementRules el k ++
          (if el ∈ elements.map ToLower ∧ k ∈ names.map ToLower then
            [b.stylePolicy GetDefaultHandler k]
          else [])) ∧
    ((b.OnElementsMatching GetDefaultHandler p regex).elsAndStyles = p.elsAndStyles ∧
      (b.OnElementsMatching GetDefaultHandler p regex).globalStyles = p.globalStyles ∧
      ∀ r k, (b.OnElementsMatching GetDefaultHandler p regex).patternRules r k =
        p.patternRules r k ++
          (if r.ptr = regex.ptr ∧ k ∈ names.map ToLower then
            [b.stylePolicy GetDefaultHandler k]
          else [])) ∧
    ((b.Globally GetDefaultHandler p).elsAndStyles = p.elsAndStyles ∧
      (b.Globally GetDefaultHandler p).elsMatchingAndStyles = p.elsMatchingAndStyles ∧
      ∀ k, (b.Globally GetDefaultHandler p).globalRules k =
        p.globalRules k ++
          (if k ∈ names.map ToLower then [b.stylePolicy GetDefaultHandler k] else [])) := by
  obtain ⟨e1, e2, e3⟩ := onElements_frame GetDefaultHandler b p elements
  obtain ⟨m1, m2, m3⟩ := onElementsMatching_frame GetDefaultHandler b p regex
  obtain ⟨g1, g2, g3⟩ := globally_frame GetDefaultHandler b p
  rw [hb] at e3 m3 g3
  refine ⟨⟨e1, e2, ?_⟩, ⟨m1, m2, ?_⟩, ⟨g1, g2, ?_⟩⟩
  · intro el k
    rw [e3 el k, replicate_count_mul_nodup _ _ _ _ _ hels hnames]
  · intro r k
    rw [m3 r k, replicate_count_nodup _ _ _ hnames]
    by_cases hr : r.ptr = regex.ptr
    · simp [hr]
    · simp [hr]
  · intro k
    rw [g3 k, replicate_count_nodup _ _ _ hnames]

/-- Witness of the amended C18: the first commit of the second policy of
`TestStyleOnElementMatching`. -/
theorem commit_appends_one_rule_witness :
    (["color".toList, "mystyle".toList].map ToLower).Nodup ∧
    (["my-element-demo-one".toList].map ToLower).Nodup ∧
    (((AllowStyles ["color".toList, "mystyle".toList]).MatchingHandler
        (some trueHandler)).OnElements noDefaultHandlers NewPolicy
        ["my-element-demo-one".toList]).elementRules
        "my-element-demo-one".toList "color".toList =
      NewPolicy.elementRules "my-element-demo-one".toList "color".toList ++
        (if "my-element-demo-one".toList ∈ ["my-element-demo-one".toList].map ToLower ∧
            "color".toList ∈ ["color".toList, "mystyle".toList].map ToLower then
          [((AllowStyles ["color".toList, "mystyle".toList]).MatchingHandler
            (some trueHandler)).stylePolicy noDefaultHandlers "color".toList]
        else []) :=
  ⟨by decide, by decide,
    (commit_appends_one_rule noDefaultHandlers ["color".toList, "mystyle".toList]
      ((AllowStyles ["color".toList, "mystyle".toList]).MatchingHandler (some trueHandler))
      NewPolicy ["my-element-demo-one".toList] myElementPattern rfl (by decide)
      (by decide)).1.2.2 "my-element-demo-one".toList "color".toList⟩

/-! ## Union of the matching patterns -/

/-- C21: for a policy whose maps have unique keys and an element name whose
exact-element rules are empty, the rule list resolved for a property is the
concatenation of the rule lists registered for it under every pattern matching
the name; so, for a style that parses, a declaration accepted by a rule
registered for its property under one matching pattern is emitted, whatever the
other matching patterns register for that property. -/
theorem pattern_scope_is_union [Unicode]
    (self : Policy) (elementName : GoString) (hwf : self.WF)
    (hexact : ((self.elsAndStyles.lookup elementName).getD []).length = 0) :
    (∀ name, ((resolveStyles self elementName).lookup name).getD [] =
      (self.elsMatchingAndStyles.filter (fun e => e.1.MatchString elementName)).flatMap
        (fun e => (e.2.lookup name).getD [])) ∧
    (∀ (ParseDeclarations : GoString → Option (List Declaration)) (style : GoString)
        (decs : List Declaration) (dec : Declaration) (e : Regexp × StyleMap) (sp : stylePolicy),
      ParseDeclarations (prepareStyle style) = some decs → dec ∈ decs →
      e ∈ self.elsMatchingAndStyles → e.1.MatchString elementName = true →
      sp ∈ (e.2.lookup (lookupName dec.Property)).getD [] →
      ruleAccepts sp (normalizedValue dec.Value) = true →
      declText dec ∈ (SanitizeRun ParseDeclarations self elementName style).clean ∧
      declText dec <:+: Sanitize ParseDeclarations self elementName style) := by
  have hres : ∀ name, ((resolveStyles self elementName).lookup name).getD [] =
      (self.elsMatchingAndStyles.filter (fun e => e.1.MatchString elementName)).flatMap
        (fun e => (e.2.lookup name).getD []) := by
    intro name
    rw [resolveStyles_lookup self elementName name hwf]
    unfold resolvedScopeRules
    have h2 : ¬ ((self.elsAndStyles.lookup elementName).getD []).length > 0 := by omega
    simp only [h2, if_false]
  refine ⟨hres, ?_⟩
  intro ParseDeclarations style decs dec e sp hparse hdec he hmatch hsp haccept
  have hmem : declText dec ∈ (SanitizeRun ParseDeclarations self elementName style).clean := by
    rw [sanitizeRun_clean_of_parse _ _ _ _ _ hparse, List.mem_flatMap]
    refine ⟨dec, hdec, ?_⟩
    rw [List.mem_replicate]
    refine ⟨?_, rfl⟩
    have hpos : 0 < acceptCount ((resolveStyles self elementName).lookup (lookupName dec.Property))
        (normalizedValue dec.Value) := by
      unfold acceptCount
      rw [hres]
      refine List.countP_pos_iff.mpr ⟨sp, ?_, haccept⟩
      rw [List.mem_flatMap]
      exact ⟨e, List.mem_filter.mpr ⟨he, hmatch⟩, hsp⟩
    unfold emitCount
    omega
  refine ⟨hmem, ?_⟩
  rw [sanitize_eq_join]
  exact mem_infix_join _ _ _ hmem

/-- Witness of C21: on `my-element-x`, matched by both patterns, `color: blue`
is rejected by the rule of the first pattern and accepted by that of the
second. -/
theorem pattern_scope_is_union_witness :
    twoPatternPolicy.WF ∧
    ((twoPatternPolicy.elsAndStyles.lookup "my-element-x".toList).getD []).length = 0 ∧
    declText ⟨"color".toList, "blue".toList⟩ ∈
      (SanitizeRun simpleParser twoPatternPolicy "my-element-x".toList
        "color: blue".toList).clean :=
  ⟨by decide, by decide,
    ((pattern_scope_is_union twoPatternPolicy "my-element-x".toList (by decide)
      (by decide)).2 simpleParser "color: blue".toList
      [⟨"color".toList, "blue".toList⟩] ⟨"color".toList, "blue".toList⟩
      (myPattern, [("color".toList, [⟨none, none, ["blue".toList]⟩])])
      ⟨none, none, ["blue".toList]⟩
      (by decide) (List.mem_singleton.mpr rfl)
      (List.mem_cons_of_mem _ (List.mem_singleton.mpr rfl)) rfl
      (List.mem_singleton.mpr rfl) rfl).1⟩

/-! ## The text handed to the parser -/

theorem eq_replicate_of_all_spaces (w : GoString) (h : ∀ c ∈ w, c = ' ') :
    w = List.replicate w.length ' ' :=
  List.eq_replicate_iff.mpr ⟨rfl, h⟩

/-- C27, as stated, fails: a trailing tab is not trimmed, so the text handed to
the parser for the style followed by a tab differs from that for the style. -/
theorem trailing_tab_not_trimmed :
    isSpace '\t' = true ∧
    prepareStyle ("color: red".toList ++ ['\t']) = "color: red\t;".toList ∧
    prepareStyle "color: red".toList = "color: red;".toList ∧
    (SanitizeRun simpleParser globalColorPolicy "div".toList
        ("color: red".toList ++ ['\t'])).parserInputs ≠
      (SanitizeRun simpleParser globalColorPolicy "div".toList
        "color: red".toList).parserInputs := by
  decide

/-- C27, amended: trailing space characters are trimmed before the terminator
check: for a suffix made only of space characters, the text handed to the
declaration parser for the style followed by the suffix is the text handed to
it for the style. -/
theorem trailing_spaces_trimmed [Unicode] (style w : GoString) (hw : ∀ c ∈ w, c = ' ') :
    prepareStyle (style ++ w) = prepareStyle style ∧
    ∀ (ParseDeclarations : GoString → Option (List Declaration)) (self : Policy)
      (elementName : GoString),
      (SanitizeRun ParseDeclarations self elementName (style ++ w)).parserInputs =
        (SanitizeRun ParseDeclarations self elementName style).parserInputs := by
  have hprep : prepareStyle (style ++ w) = prepareStyle style := by
    rw [eq_replicate_of_all_spaces w hw]
    exact prepareStyle_append_spaces _ _
  refine ⟨hprep, ?_⟩
  intro ParseDeclarations self elementName
  unfold SanitizeRun
  rw [hprep]

/-- Witness of the amended C27: the style of `TestIssue171`, which ends in
three spaces. -/
theorem trailing_spaces_trimmed_witness :
    (∀ c ∈ "   ".toList, c = ' ') ∧
    prepareStyle ("color: red; text-align: center;".toList ++ "   ".toList) =
      prepareStyle "color: red; text-align: center;".toList :=
  ⟨by decide,
    (trailing_spaces_trimmed "color: red; text-align: center;".toList "   ".toList
      (by decide)).1⟩

theorem TrimRight_of_last (s : GoString) (h : s.getLast? ≠ some ' ') :
    TrimRight s [' '] = s := by
  unfold TrimRight
  have hrev : s.reverse.dropWhile (fun c => [' '].contains c) = s.reverse := by
    cases hs : s.reverse with
    | nil => rfl
    | cons c rest =>
      have hc : s.getLast? = some c := by
        rw [← List.head?_reverse, hs]
        rfl
      have hne : c ≠ ' ' := fun hc2 => h (by rw [hc, hc2])
      simp [List.dropWhile, hne]
  rw [hrev, List.reverse_reverse]

theorem TrimRight_all_spaces (s : GoString) (h : ∀ c ∈ s, c = ' ') :
    TrimRight s [' '] = [] := by
  have := TrimRight_append_spaces [] s.length
  rw [List.nil_append, ← eq_replicate_of_all_spaces s h] at this
  rw [this]
  rfl

theorem getLast?_append_singleton (s : GoString) (c : Char) :
    (s ++ [c]).getLast? = some c := by
  simp

/-- C28: when the style without its trailing spaces is non-empty, the text
handed to the parser ends with `;`: it is the trimmed style when that ends with
`;`, and the trimmed style followed by one `;` otherwise; hence a non-empty
style that ends with neither a space nor `;` gives the same run as the style
followed by `;`; for an empty or all-space style the text for the parser is
empty. -/
theorem style_terminator [Unicode] :
    (∀ style : GoString, (TrimRight style [' ']).length > 0 →
      (prepareStyle style).getLast? = some ';' ∧
      ((TrimRight style [' ']).getLast? = some ';' →
        prepareStyle style = TrimRight style [' ']) ∧
      ((TrimRight style [' ']).getLast? ≠ some ';' →
        prepareStyle style = TrimRight style [' '] ++ [';'])) ∧
    (∀ style : GoString, style ≠ [] → style.getLast? ≠ some ' ' → style.getLast? ≠ some ';' →
      prepareStyle style = style ++ [';'] ∧
      prepareStyle (style ++ [';']) = style ++ [';'] ∧
      ∀ (ParseDeclarations : GoString → Option (List Declaration)) (self : Policy)
        (elementName : GoString),
        Sanitize ParseDeclarations self elementName style =
          Sanitize ParseDeclarations self elementName (style ++ [';'])) ∧
    (∀ style : GoString, (∀ c ∈ style, c = ' ') →
      prepareStyle style = [] ∧
      ∀ (ParseDeclarations : GoString → Option (List Declaration)) (self : Policy)
        (elementName : GoString),
        ∀ text ∈ (SanitizeRun ParseDeclarations self elementName style).parserInputs,
          text = []) := by
  refine ⟨?_, ?_, ?_⟩
  · intro style hlen
    unfold prepareStyle
    simp only
    by_cases hlast : (TrimRight style [' ']).getLast? = some ';'
    · have hcond : ¬ ((TrimRight style [' ']).length > 0 ∧
          (TrimRight style [' ']).getLast? ≠ some ';') := fun hc => hc.2 hlast
      rw [if_neg hcond]
      exact ⟨hlast, fun _ => rfl, fun hc => absurd hlast hc⟩
    · rw [if_pos ⟨hlen, hlast⟩]
      exact ⟨getLast?_append_singleton _ _, fun hc => absurd hc hlast, fun _ => rfl⟩
  · intro style hne hsp hsemi
    have hlen : style.length > 0 := List.length_pos.mpr hne
    have h1 : prepareStyle style = style ++ [';'] := by
      unfold prepareStyle
      simp only
      rw [TrimRight_of_last style hsp, if_pos ⟨hlen, hsemi⟩]
    have h2 : prepareStyle (style ++ [';']) = style ++ [';'] := by
      unfold prepareStyle
      simp only
      have hl : (style ++ [';']).getLast? = some ';' := getLast?_append_singleton _ _
      have hns : (style ++ [';']).getLast? ≠ some ' ' := by
        rw [hl]
        decide
      rw [TrimRight_of_last _ hns]
      have hcond : ¬ ((style ++ [';']).length > 0 ∧ (style ++ [';']).getLast? ≠ some ';') :=
        fun hc => hc.2 hl
      rw [if_neg hcond]
    refine ⟨h1, h2, ?_⟩
    intro ParseDeclarations self elementName
    unfold Sanitize SanitizeRun
    rw [h1, h2]
  · intro style hall
    have h1 : prepareStyle style = [] := by
      unfold prepareStyle
      simp only
      rw [TrimRight_all_spaces style hall]
      rfl
    refine ⟨h1, ?_⟩
    intro ParseDeclarations self elementName text htext
    unfold SanitizeRun at htext
    rw [h1] at htext
    by_cases hp : HasPolicies self elementName = true
    · cases hparse : ParseDeclarations [] with
      | none => simpa [hp, hparse] using htext
      | some decs => simpa [hp, hparse] using htext
    · simp [hp] at htext

/-! ## Markers left in the lookup name -/

/-- C29, as stated, fails: each listed marker is trimmed once, in the order of
the list, so the lookup name of `-o--webkit-x` is `-webkit-x`, which starts
with a listed marker. -/
theorem lookup_name_keeps_second_marker :
    lookupName "-o--webkit-x".toList = "-webkit-x".toList ∧
    "-webkit-".toList ∈ prefixes ∧
    HasPrefix (lookupName "-o--webkit-x".toList) "-webkit-".toList = true := by
  decide

/-- Trimming the markers of a list, in its order, from a text made of markers
that follow one another in that order and of a name without marker leaves the
name. No marker of the list starts with another one. -/
theorem foldl_TrimPrefix_sublist (ps ms : List GoString) (n : GoString)
    (hsub : List.Sublist ms ps)
    (hrel : ∀ p ∈ ps, ∀ x ∈ ps, p ≠ x → HasPrefix x p = false)
    (hnd : ps.Nodup)
    (hn : ∀ p ∈ ps, HasPrefix n p = false) :
    ps.foldl TrimPrefix (ms.flatten ++ n) = n := by
  induction hsub with
  | slnil => rfl
  | @cons ms rest p hsub ih =>
    rw [List.foldl_cons]
    rw [List.nodup_cons] at hnd
    have hkeep : HasPrefix (ms.flatten ++ n) p = false := by
      cases ms with
      | nil => exact hn p (List.mem_cons_self _ _)
      | cons m ms2 =>
        have hm : m ∈ rest := hsub.subset (List.mem_cons_self _ _)
        have hpm : p ≠ m := fun h => hnd.1 (h ▸ hm)
        rw [List.flatten_cons, List.append_assoc]
        exact HasPrefix_append_of_unrelated p m _
          (hrel p (List.mem_cons_self _ _) m (List.mem_cons_of_mem _ hm) hpm)
          (hrel m (List.mem_cons_of_mem _ hm) p (List.mem_cons_self _ _)
            (fun h => hpm h.symm))
    have htrim : TrimPrefix (ms.flatten ++ n) p = ms.flatten ++ n := by
      unfold TrimPrefix
      rw [hkeep]
      rfl
    rw [htrim]
    exact ih
      (fun a ha x hx => hrel a (List.mem_cons_of_mem _ ha) x (List.mem_cons_of_mem _ hx))
      hnd.2 (fun a ha => hn a (List.mem_cons_of_mem _ ha))
  | @cons₂ ms rest p hsub ih =>
    rw [List.foldl_cons, List.flatten_cons, List.append_assoc, TrimPrefix_append_self]
    rw [List.nodup_cons] at hnd
    exact ih
      (fun a ha x hx => hrel a (List.mem_cons_of_mem _ ha) x (List.mem_cons_of_mem _ hx))
      hnd.2 (fun a ha => hn a (List.mem_cons_of_mem _ ha))

/-- What the trimming loop removes from a text is a run of markers of the
list that follow one another in the order of the list. -/
theorem foldl_TrimPrefix_removed (ps : List GoString) (t : GoString) :
    ∃ ms, List.Sublist ms ps ∧ t = ms.flatten ++ ps.foldl TrimPrefix t := by
  induction ps generalizing t with
  | nil => exact ⟨[], List.Sublist.slnil, rfl⟩
  | cons p rest ih =>
    rw [List.foldl_cons]
    by_cases hp : HasPrefix t p = true
    · have hpre : p <+: t := List.isPrefixOf_iff_prefix.mp hp
      have ht : p ++ t.drop p.length = t := List.prefix_iff_eq_append.mp hpre
      have htrim : TrimPrefix t p = t.drop p.length := by
        unfold TrimPrefix
        rw [if_pos hp]
      obtain ⟨ms, hsub, hms⟩ := ih (t.drop p.length)
      refine ⟨p :: ms, List.Sublist.cons₂ p hsub, ?_⟩
      rw [htrim, List.flatten_cons, List.append_assoc, ← hms, ht]
    · have htrim : TrimPrefix t p = t := by
        unfold TrimPrefix
        rw [if_neg hp]
      obtain ⟨ms, hsub, hms⟩ := ih t
      refine ⟨ms, List.Sublist.cons p hsub, ?_⟩
      rw [htrim]
      exact hms

theorem prefixes_nodup : prefixes.Nodup := by
  decide

/-- C29, amended: the name used for rule lookup starts with none of the
fifteen listed markers exactly when the lowercase form of the property is a
run of listed markers that follow one another in the order of the list (each
at most once, possibly none) followed by a name that starts with none of
them; the lookup name is then that name. The loop trims each marker at most
once, in the order of the list. -/
theorem lookup_name_marker_free_iff [Unicode] (property : GoString) :
    ((∀ p ∈ prefixes, HasPrefix (lookupName property) p = false) ↔
      ∃ ms n, List.Sublist ms prefixes ∧ ToLower property = ms.flatten ++ n ∧
        ∀ p ∈ prefixes, HasPrefix n p = false) ∧
    (∀ ms n, List.Sublist ms prefixes → ToLower property = ms.flatten ++ n →
      (∀ p ∈ prefixes, HasPrefix n p = false) → lookupName property = n) := by
  have hstrip : ∀ ms n, List.Sublist ms prefixes → ToLower property = ms.flatten ++ n →
      (∀ p ∈ prefixes, HasPrefix n p = false) → lookupName property = n := by
    intro ms n hsub hlow hn
    unfold lookupName
    rw [hlow]
    exact foldl_TrimPrefix_sublist prefixes ms n hsub prefixes_unrelated prefixes_nodup hn
  refine ⟨⟨?_, ?_⟩, hstrip⟩
  · intro hfree
    obtain ⟨ms, hsub, hms⟩ := foldl_TrimPrefix_removed prefixes (ToLower property)
    exact ⟨ms, prefixes.foldl TrimPrefix (ToLower property), hsub, hms, hfree⟩
  · rintro ⟨ms, n, hsub, hlow, hn⟩
    rw [hstrip ms n hsub hlow hn]
    exact hn

/-- The amended C29 on the properties `-webkit--o-x`, whose two markers follow
the order of the list, and `-moz-Border-Radius`. -/
theorem lookup_name_marker_free_iff_witness :
    List.Sublist ["-webkit-".toList, "-o-".toList] prefixes ∧
    (∀ p ∈ prefixes, HasPrefix "x".toList p = false) ∧
    lookupName "-webkit--o-x".toList = "x".toList ∧
    lookupName "-moz-Border-Radius".toList = "border-radius".toList ∧
    (∀ p ∈ prefixes, HasPrefix (lookupName "-moz-Border-Radius".toList) p = false) :=
  ⟨by decide, by decide,
    (lookup_name_marker_free_iff "-webkit--o-x".toList).2
      ["-webkit-".toList, "-o-".toList] "x".toList (by decide) (by decide) (by decide),
    (lookup_name_marker_free_iff "-moz-Border-Radius".toList).2
      ["-moz-".toList] "border-radius".toList (by decide) (by decide) (by decide),
    ((lookup_name_marker_free_iff "-moz-Border-Radius".toList).1).mpr
      ⟨["-moz-".toList], "border-radius".toList, by decide, by decide, by decide⟩⟩

/-! ## Precedence of the strategies -/

/-- C30: the committed rule carries one strategy, chosen by a fixed precedence:
the handler when one is staged, otherwise the enumeration when it is
non-empty, otherwise the pattern; the rule then accepts by that strategy alone;
the order of the calls that stage the strategies does not matter, and an
enumeration without values counts as not staged. -/
theorem strategy_precedence [Unicode]
    (GetDefaultHandler : GoString → Option (GoString → Bool)) (b : PolicyBuilder)
    (attr : GoString) :
    (∀ handler, b.handler = some handler →
      b.stylePolicy GetDefaultHandler attr = ⟨some handler, none, []⟩ ∧
      ∀ value, ruleAccepts (b.stylePolicy GetDefaultHandler attr) value = handler value) ∧
    (b.handler = none → b.enum.length > 0 →
      b.stylePolicy GetDefaultHandler attr = ⟨none, none, b.enum⟩ ∧
      ∀ value, ruleAccepts (b.stylePolicy GetDefaultHandler attr) value =
        stringInSlice value b.enum) ∧
    (∀ regexp, b.handler = none → b.enum.length = 0 → b.regexp = some regexp →
      b.stylePolicy GetDefaultHandler attr = ⟨none, some regexp, []⟩ ∧
      ∀ value, ruleAccepts (b.stylePolicy GetDefaultHandler attr) value =
        regexp.MatchString value) ∧
    (∀ handler enum regex,
      ((b.Matching regex).MatchingEnum enum).MatchingHandler handler =
        ((b.MatchingHandler handler).MatchingEnum enum).Matching regex ∧
      ((b.Matching regex).MatchingEnum enum).MatchingHandler handler =
        ((b.MatchingEnum enum).MatchingHandler handler).Matching regex ∧
      ((b.Matching regex).MatchingEnum enum).MatchingHandler handler =
        ((b.MatchingEnum enum).Matching regex).MatchingHandler handler ∧
      ((b.Matching regex).MatchingEnum enum).MatchingHandler handler =
        ((b.MatchingHandler handler).Matching regex).MatchingEnum enum ∧
      ((b.Matching regex).MatchingEnum enum).MatchingHandler handler =
        ((b.Matching regex).MatchingHandler handler).MatchingEnum enum) ∧
    (∀ regexp, b.handler = none →
      ((b.Matching (some regexp)).MatchingEnum []).stylePolicy GetDefaultHandler attr =
        ⟨none, some regexp, []⟩) := by
  refine ⟨?_, ?_, ?_, ?_, ?_⟩
  · intro handler hh
    have hsp : b.stylePolicy GetDefaultHandler attr = ⟨some handler, none, []⟩ := by
      unfold PolicyBuilder.stylePolicy
      rw [hh]
    refine ⟨hsp, ?_⟩
    intro value
    rw [hsp]
    rfl
  · intro hh he
    have hsp := stylePolicy_enum GetDefaultHandler b attr hh he
    refine ⟨hsp, ?_⟩
    intro value
    rw [hsp]
    unfold ruleAccepts
    simp only [he, if_true]
  · intro regexp hh he hr
    have he2 : ¬ b.enum.length > 0 := by omega
    have hsp : b.stylePolicy GetDefaultHandler attr = ⟨none, some regexp, []⟩ := by
      unfold PolicyBuilder.stylePolicy
      rw [hh, hr]
      simp only [he2, if_false]
    refine ⟨hsp, ?_⟩
    intro value
    rw [hsp]
    rfl
  · intro handler enum regex
    exact ⟨rfl, rfl, rfl, rfl, rfl⟩
  · intro regexp hh
    unfold PolicyBuilder.stylePolicy PolicyBuilder.MatchingEnum PolicyBuilder.Matching
    simp only [hh]
    rfl

/-! ## No escape is left -/

theorem matchEscape_isSome (c : Char) (post : GoString) (hc : isHexLower c = true) :
    ∃ n, matchEscape (backslash :: c :: post) = some n := by
  unfold matchEscape
  simp only [if_true]
  have hd : ¬ (((c :: post).takeWhile isHexLower).take 6).length = 0 := by
    simp [List.takeWhile, hc]
  simp only [hd, if_false]
  split
  · exact ⟨_, rfl⟩
  · exact ⟨_, rfl⟩

/-- A text without match of the escape pattern holds no backslash followed by
a hex digit. -/
theorem no_escape_of_find_none (t pre post : GoString) (c : Char)
    (hfind : FindStringIndex t = none) (ht : t = pre ++ backslash :: c :: post) :
    isHexLower c = false := by
  by_contra hc
  have hc2 : isHexLower c = true := by simpa using hc
  obtain ⟨n, hn⟩ := matchEscape_isSome c post hc2
  obtain ⟨loc, hloc, _⟩ := findEscapeFrom_append pre (c :: post) 0 n hn
  unfold FindStringIndex at hfind
  rw [ht, hloc] at hfind
  cases hfind

theorem FindStringIndex_nil : FindStringIndex [] = none := rfl

theorem removeUnicodeLoop_no_escape (fuel : Nat) (s r : GoString)
    (h : removeUnicodeLoop fuel s = some r) : FindStringIndex r = none := by
  induction fuel generalizing s with
  | zero => simp [removeUnicodeLoop] at h
  | succ fuel ih =>
    unfold removeUnicodeLoop at h
    cases hloc : FindStringIndex s with
    | none =>
      rw [hloc] at h
      rw [← Option.some.inj h]
      exact hloc
    | some loc =>
      rw [hloc] at h
      simp only at h
      cases ht : UnquoteU (escapeDigits s loc) with
      | none =>
        rw [ht] at h
        rw [← Option.some.inj h]
        rfl
      | some t =>
        rw [ht] at h
        exact ih _ h

/-- C23: the value returned by `removeUnicode` has no match of the escape
pattern left: it holds no backslash followed by a lowercase hex digit, hence no
backslash followed by one to six lowercase hex digits. -/
theorem removeUnicode_leaves_no_escape (value : GoString) :
    FindStringIndex (removeUnicode value) = none ∧
    (∀ pre post c, removeUnicode value = pre ++ backslash :: c :: post →
      isHexLower c = false) ∧
    (∀ pre h post, removeUnicode value = pre ++ backslash :: (h ++ post) →
      1 ≤ h.length → h.length ≤ 6 → ¬ ∀ d ∈ h, isHexLower d = true) := by
  have hfind : FindStringIndex (removeUnicode value) = none :=
    removeUnicodeLoop_no_escape _ _ _
      (removeUnicodeLoop_eq (value.length + 1) value (Nat.lt_succ_self _))
  refine ⟨hfind, ?_, ?_⟩
  · intro pre post c h
    exact no_escape_of_find_none _ pre post c hfind h
  · intro pre h post heq hlen _ hall
    cases h with
    | nil => simp at hlen
    | cons c rest =>
      have := no_escape_of_find_none _ pre (rest ++ post) c hfind (by rw [heq]; rfl)
      rw [hall c (List.mem_cons_self _ _)] at this
      cases this

/-! ## One escape followed by a space -/

theorem escapeDigits_eq (s : GoString) (loc : Nat × Nat) :
    escapeDigits s loc = padOrStrip (TrimSpace ((s.take loc.2).drop (loc.1 + 1))) := rfl

theorem matchEscape_none_append (c : Char) (pre r : GoString)
    (h : matchEscape (c :: pre) = none) :
    matchEscape (c :: (pre ++ backslash :: r)) = none := by
  unfold matchEscape at h ⊢
  by_cases hc : c = backslash
  · simp only [hc, if_true] at h ⊢
    rw [takeWhile_append_stop _ _ _ _ isHexLower_backslash]
    by_cases hd : ((pre.takeWhile isHexLower).take 6).length = 0
    · simp [hd]
    · simp only [hd, if_false] at h
      split at h <;> cases h
  · simp [hc]

/-- In a text whose front part holds no escape, the leftmost match is looked
for from the backslash that follows the front part. -/
theorem findEscapeFrom_escapeFree (pre r : GoString) (i : Nat)
    (h : findEscapeFrom i pre = none) :
    findEscapeFrom i (pre ++ backslash :: r) =
      findEscapeFrom (i + pre.length) (backslash :: r) := by
  induction pre generalizing i with
  | nil => rfl
  | cons c rest ih =>
    unfold findEscapeFrom at h
    cases hm : matchEscape (c :: rest) with
    | some n => rw [hm] at h; cases h
    | none =>
      rw [hm] at h
      simp only at h
      simp only [List.cons_append]
      rw [findEscapeFrom, matchEscape_none_append c rest r hm]
      simp only
      rw [ih (i + 1) h]
      simp only [List.length_cons]
      congr 1
      omega

theorem findEscapeFrom_no_backslash (s : GoString) (i : Nat)
    (h : ∀ c ∈ s, c ≠ backslash) : findEscapeFrom i s = none := by
  induction s generalizing i with
  | nil => rfl
  | cons c rest ih =>
    unfold findEscapeFrom
    have hc : c ≠ backslash := h c (List.mem_cons_self _ _)
    have hm : matchEscape (c :: rest) = none := by
      unfold matchEscape
      simp [hc]
    rw [hm]
    exact ih (i + 1) (fun d hd => h d (List.mem_cons_of_mem _ hd))

theorem isHexLower_space : isHexLower ' ' = false := by decide

/-- The match of an escape of one to six hex digits followed by a space. -/
theorem matchEscape_digits_space (digits post : GoString)
    (hhex : ∀ d ∈ digits, isHexLower d = true) (h1 : 1 ≤ digits.length)
    (h6 : digits.length ≤ 6) :
    matchEscape (backslash :: (digits ++ ' ' :: post)) = some (digits.length + 2) := by
  unfold matchEscape
  simp only [if_true]
  rw [takeWhile_append_stop _ _ _ _ isHexLower_space]
  have htw : digits.takeWhile isHexLower = digits := by
    have := takeWhile_append_all isHexLower digits [] hhex
    simpa using this
  rw [htw, List.take_of_length_le h6]
  have hd : ¬ digits.length = 0 := by omega
  simp only [hd, if_false, List.drop_left, List.head?_cons, if_true]

/-- One iteration of `removeUnicode` on a value whose leftmost escape has one
to six hex digits and a space after them. -/
theorem removeUnicode_step_space (pre digits post : GoString)
    (hpre : FindStringIndex pre = none)
    (hhex : ∀ d ∈ digits, isHexLower d = true) (h1 : 1 ≤ digits.length)
    (h6 : digits.length ≤ 6) :
    removeUnicode (pre ++ backslash :: (digits ++ ' ' :: post)) =
      match UnquoteU (padOrStrip digits) with
      | none => []
      | some translatedChar => removeUnicode (pre ++ TrimSpace translatedChar ++ post) := by
  have hm := matchEscape_digits_space digits post hhex h1 h6
  have hfind : FindStringIndex (pre ++ backslash :: (digits ++ ' ' :: post)) =
      some (pre.length, pre.length + (digits.length + 2)) := by
    unfold FindStringIndex at hpre ⊢
    rw [findEscapeFrom_escapeFree pre _ 0 hpre, findEscapeFrom, hm]
    simp
  have hdig : escapeDigits (pre ++ backslash :: (digits ++ ' ' :: post))
      (pre.length, pre.length + (digits.length + 2)) = padOrStrip digits := by
    rw [escapeDigits_eq]
    simp only
    rw [slice_after pre _ _ (by omega)]
    have hbody := matchEscape_body (digits ++ ' ' :: post) _ hm
    rw [hbody.2, takeWhile_append_stop _ _ _ _ isHexLower_space]
    have htw : digits.takeWhile isHexLower = digits := by
      have := takeWhile_append_all isHexLower digits [] hhex
      simpa using this
    rw [htw, List.take_of_length_le h6]
  have htake : (pre ++ backslash :: (digits ++ ' ' :: post)).take pre.length = pre :=
    List.take_left _ _
  have hdrop : (pre ++ backslash :: (digits ++ ' ' :: post)).drop
      (pre.length + (digits.length + 2)) = post := by
    rw [List.drop_append]
    have : backslash :: (digits ++ ' ' :: post) = (backslash :: digits ++ [' ']) ++ post := by
      simp
    rw [this]
    have hl : (backslash :: digits ++ [' ']).length = digits.length + 2 := by simp
    rw [← hl]
    exact List.drop_left _ _
  rw [removeUnicode_unfold, hfind]
  simp only
  rw [hdig, htake, hdrop]

/-- Leading zeros before at most four digits, six digits in all at most, are
padded or stripped to the same four digits. -/
theorem padOrStrip_zeros (k : Nat) (h : GoString) (h4 : h.length ≤ 4)
    (h6 : k + h.length ≤ 6) :
    padOrStrip (List.replicate k '0' ++ h) = List.replicate (4 - h.length) '0' ++ h := by
  induction k with
  | zero =>
    unfold padOrStrip
    simp only [List.replicate_zero, List.nil_append, Repeat]
    by_cases hlt : h.length < 4
    · rw [if_pos hlt]
    · rw [if_neg hlt]
      have h0 : 4 - h.length = 0 := by omega
      rw [h0, List.replicate_zero, List.nil_append]
      cases h with
      | nil => simp at hlt
      | cons c rest =>
        unfold stripToFour
        have : ¬ (c :: rest).length > 4 := by omega
        rw [if_neg this]
  | succ k ih =>
    have ih2 := ih (by omega)
    unfold padOrStrip at ih2 ⊢
    have hlen : (List.replicate (k + 1) '0' ++ h).length = k + 1 + h.length := by simp
    have hlen2 : (List.replicate k '0' ++ h).length = k + h.length := by simp
    rw [hlen]
    rw [hlen2] at ih2
    by_cases hlt : k + 1 + h.length < 4
    · rw [if_pos hlt]
      simp only [Repeat]
      rw [← List.append_assoc, ← List.replicate_add]
      congr 2
      omega
    · rw [if_neg hlt]
      by_cases heq : k + 1 + h.length = 4
      · have hcons : List.replicate (k + 1) '0' ++ h = '0' :: (List.replicate k '0' ++ h) := by
          simp [List.replicate_succ]
        rw [hcons]
        unfold stripToFour
        have hnot : ¬ ('0' :: (List.replicate k '0' ++ h)).length > 4 := by
          simp only [List.length_cons, hlen2]
          omega
        rw [if_neg hnot, ← hcons]
        congr 2
        omega
      · have hcons : List.replicate (k + 1) '0' ++ h = '0' :: (List.replicate k '0' ++ h) := by
          simp [List.replicate_succ]
        rw [hcons, stripToFour_cons_zero _ (by rw [hlen2]; omega)]
        have hnlt : ¬ k + h.length < 4 := by omega
        rw [if_neg hnlt] at ih2
        exact ih2

/-- C25: leading zeros in an escape do not matter: for one to four hex digits
`h`, `k` zeros in front of them with at most six digits in all, a front part
without escape and any rest, `removeUnicode` gives the same result with and
without the zeros. -/
theorem removeUnicode_leading_zeros (pre h post : GoString) (k : Nat)
    (hhex : ∀ d ∈ h, isHexLower d = true) (h1 : 1 ≤ h.length) (h4 : h.length ≤ 4)
    (h6 : k + h.length ≤ 6) (hpre : FindStringIndex pre = none) :
    removeUnicode (pre ++ backslash :: (List.replicate k '0' ++ h ++ ' ' :: post)) =
      removeUnicode (pre ++ backslash :: (h ++ ' ' :: post)) := by
  have hzhex : ∀ d ∈ List.replicate k '0' ++ h, isHexLower d = true := by
    intro d hd
    rcases List.mem_append.mp hd with hz | hh
    · rw [(List.mem_replicate.mp hz).2]
      decide
    · exact hhex d hh
  have hzlen : (List.replicate k '0' ++ h).length = k + h.length := by simp
  rw [removeUnicode_step_space pre (List.replicate k '0' ++ h) post hpre hzhex
      (by rw [hzlen]; omega) (by rw [hzlen]; omega),
    removeUnicode_step_space pre h post hpre hhex h1 (by omega),
    padOrStrip_zeros k h h4 h6]
  have := padOrStrip_zeros 0 h h4 (by omega)
  simp only [List.replicate_zero, List.nil_append] at this
  rw [this]

/-- Witness of C25: the escapes `\\0072 ` and `\\72 ` of `TestUnicodePoints`. -/
theorem removeUnicode_leading_zeros_witness :
    FindStringIndex "x".toList = none ∧
    removeUnicode ("x".toList ++ backslash :: (List.replicate 2 '0' ++ "72".toList ++
        ' ' :: "ed".toList)) =
      removeUnicode ("x".toList ++ backslash :: ("72".toList ++ ' ' :: "ed".toList)) ∧
    removeUnicode "\\72 ".toList = removeUnicode "\\0072 ".toList ∧
    removeUnicode "\\72 ".toList = removeUnicode "\\000072 ".toList :=
  ⟨by decide,
    removeUnicode_leading_zeros "x".toList "72".toList "ed".toList 2 (by decide) (by decide)
      (by decide) (by decide) (by decide),
    by decide, by decide⟩

/-! ## The decoded character -/

theorem hexValue_zeros (n : Nat) (h : GoString) :
    hexValue (List.replicate n '0' ++ h) = hexValue h := by
  unfold hexValue
  rw [List.foldl_append]
  have hz : (List.replicate n '0').foldl (fun v c => 16 * v + unhex c) 0 = 0 := by
    induction n with
    | zero => rfl
    | succ n ih =>
      rw [List.replicate_succ, List.foldl_cons]
      have : 16 * 0 + unhex '0' = 0 := by decide
      rw [this]
      exact ih
  rw [hz]

theorem TrimSpace_singleton (c : Char) :
    TrimSpace [c] = if isSpace c then [] else [c] := by
  unfold TrimSpace
  by_cases h : isSpace c = true
  · simp [List.dropWhile, h]
  · simp [List.dropWhile, h]

theorem removeUnicode_no_backslash (s : GoString) (h : ∀ c ∈ s, c ≠ backslash) :
    removeUnicode s = s := by
  rw [removeUnicode_unfold]
  have : FindStringIndex s = none := findEscapeFrom_no_backslash s 0 h
  rw [this]

/-- C24, as stated, fails for the whitespace code points: the decoded character
is trimmed, so the escape `\\20 ` is replaced by nothing and not by a space. -/
theorem escaped_space_disappears :
    removeUnicode ("a".toList ++ backslash :: ("20".toList ++ ' ' :: "b".toList)) =
      "ab".toList ∧
    hexValue "20".toList = 32 ∧
    Char.ofNat 32 = ' ' ∧
    removeUnicode ("a".toList ++ backslash :: ("20".toList ++ ' ' :: "b".toList)) ≠
      "a".toList ++ [Char.ofNat 32] ++ "b".toList := by
  decide

/-- C24, amended: for a value `pre ++ "\\" ++ h ++ " " ++ post` where `pre` and
`post` hold no backslash and `h` is one to four lowercase hex digits that
denote a non-surrogate code point other than the backslash, `removeUnicode`
replaces the escape and its trailing space by the denoted character when this
character is not white space, and by nothing when it is. -/
theorem removeUnicode_single_escape (pre h post : GoString)
    (hpre : ∀ c ∈ pre, c ≠ backslash) (hpost : ∀ c ∈ post, c ≠ backslash)
    (hhex : ∀ d ∈ h, isHexLower d = true) (h1 : 1 ≤ h.length) (h4 : h.length ≤ 4)
    (hvalid : ¬ (0xD800 ≤ hexValue h ∧ hexValue h ≤ 0xDFFF))
    (hback : Char.ofNat (hexValue h) ≠ backslash) :
    removeUnicode (pre ++ backslash :: (h ++ ' ' :: post)) =
        pre ++ TrimSpace [Char.ofNat (hexValue h)] ++ post ∧
    (isSpace (Char.ofNat (hexValue h)) = false →
      removeUnicode (pre ++ backslash :: (h ++ ' ' :: post)) =
        pre ++ [Char.ofNat (hexValue h)] ++ post) ∧
    (isSpace (Char.ofNat (hexValue h)) = true →
      removeUnicode (pre ++ backslash :: (h ++ ' ' :: post)) = pre ++ post) := by
  have hpad : padOrStrip h = List.replicate (4 - h.length) '0' ++ h := by
    have := padOrStrip_zeros 0 h h4 (by omega)
    simpa using this
  have hlen : (List.replicate (4 - h.length) '0' ++ h).length = 4 := by
    simp only [List.length_append, List.length_replicate]
    omega
  have hunq : UnquoteU (padOrStrip h) = some [Char.ofNat (hexValue h)] := by
    rw [hpad]
    unfold UnquoteU
    have hnlt : ¬ (List.replicate (4 - h.length) '0' ++ h).length < 4 := by omega
    rw [if_neg hnlt]
    simp only
    have htake : (List.replicate (4 - h.length) '0' ++ h).take 4 =
        List.replicate (4 - h.length) '0' ++ h := List.take_of_length_le (by omega)
    have hdrop : (List.replicate (4 - h.length) '0' ++ h).drop 4 = [] :=
      List.drop_eq_nil_of_le (by omega)
    rw [htake, hdrop, hexValue_zeros, if_neg hvalid]
  have hmain : removeUnicode (pre ++ backslash :: (h ++ ' ' :: post)) =
      pre ++ TrimSpace [Char.ofNat (hexValue h)] ++ post := by
    rw [removeUnicode_step_space pre h post (findEscapeFrom_no_backslash pre 0 hpre) hhex h1
      (by omega), hunq]
    simp only
    apply removeUnicode_no_backslash
    intro c hc
    rcases List.mem_append.mp hc with hc1 | hc1
    · rcases List.mem_append.mp hc1 with hc2 | hc2
      · exact hpre c hc2
      · rw [TrimSpace_singleton] at hc2
        by_cases hs : isSpace (Char.ofNat (hexValue h)) = true
        · rw [if_pos hs] at hc2
          cases hc2
        · rw [if_neg hs] at hc2
          rw [List.mem_singleton.mp hc2]
          exact hback
    · exact hpost c hc1
  refine ⟨hmain, ?_, ?_⟩
  · intro hs
    rw [hmain, TrimSpace_singleton, hs]
    rfl
  · intro hs
    rw [hmain, TrimSpace_singleton, hs]
    simp

/-- Witness of the amended C24: the value `\\72 ed` gives `red`. -/
theorem removeUnicode_single_escape_witness :
    hexValue "72".toList = 114 ∧
    Char.ofNat 114 = 'r' ∧
    removeUnicode ([] ++ backslash :: ("72".toList ++ ' ' :: "ed".toList)) =
      [] ++ [Char.ofNat (hexValue "72".toList)] ++ "ed".toList ∧
    removeUnicode "\\72 ed".toList = "red".toList :=
  ⟨by decide, by decide,
    (removeUnicode_single_escape [] "72".toList "ed".toList (by decide) (by decide)
      (by decide) (by decide) (by decide) (by decide) (by decide)).2.1 (by decide),
    by decide⟩

/-! ## Termination -/

theorem findEscapeFrom_spec (s : GoString) (i : Nat) (loc : Nat × Nat)
    (h : findEscapeFrom i s = some loc) :
    ∃ a r n, s = a ++ backslash :: r ∧ loc = (i + a.length, i + a.length + n) ∧
      matchEscape (backslash :: r) = some n := by
  induction s generalizing i with
  | nil => simp [findEscapeFrom] at h
  | cons c rest ih =>
    unfold findEscapeFrom at h
    cases hm : matchEscape (c :: rest) with
    | some n =>
      rw [hm] at h
      have hc : c = backslash := by
        by_contra hne
        unfold matchEscape at hm
        simp [hne] at hm
      subst hc
      refine ⟨[], rest, n, rfl, ?_, hm⟩
      rw [← Option.some.inj h]
      simp
    | none =>
      rw [hm] at h
      obtain ⟨a, r, n, hs, hl, hmr⟩ := ih (i + 1) h
      refine ⟨c :: a, r, n, by rw [hs]; rfl, ?_, hmr⟩
      rw [hl]
      simp only [List.length_cons, Prod.mk.injEq]
      omega

theorem matchEscape_digits_pos (r : GoString) (n : Nat)
    (h : matchEscape (backslash :: r) = some n) :
    1 ≤ ((r.takeWhile isHexLower).take 6).length := by
  unfold matchEscape at h
  simp only [if_true] at h
  by_cases hd : ((r.takeWhile isHexLower).take 6).length = 0
  · simp [hd] at h
  · omega

theorem unhex_lt (c : Char) (h : isHexLower c = true) : unhex c < 16 := by
  unfold isHexLower at h
  simp only [Bool.or_eq_true, Bool.and_eq_true, decide_eq_true_eq] at h
  unfold unhex
  split
  · omega
  · split
    · omega
    · omega

theorem foldl_hex_lt (l : GoString) (acc : Nat) (h : ∀ d ∈ l, isHexLower d = true) :
    l.foldl (fun v c => 16 * v + unhex c) acc < (acc + 1) * 16 ^ l.length := by
  induction l generalizing acc with
  | nil => simp
  | cons c rest ih =>
    rw [List.foldl_cons]
    have h1 := ih (16 * acc + unhex c) (fun d hd => h d (List.mem_cons_of_mem _ hd))
    have h2 := unhex_lt c (h c (List.mem_cons_self _ _))
    have h3 : (16 * acc + unhex c + 1) * 16 ^ rest.length ≤
        (16 * (acc + 1)) * 16 ^ rest.length :=
      Nat.mul_le_mul_right _ (by omega)
    have h4 : (16 * (acc + 1)) * 16 ^ rest.length = (acc + 1) * 16 ^ (c :: rest).length := by
      simp only [List.length_cons, pow_succ]
      ring
    omega

theorem hexValue_lt (l : GoString) (h : ∀ d ∈ l, isHexLower d = true) :
    hexValue l < 16 ^ l.length := by
  have := foldl_hex_lt l 0 h
  simpa [hexValue] using this

theorem stripToFour_mem (l : GoString) (c : Char) (h : c ∈ stripToFour l) : c ∈ l := by
  induction l with
  | nil => simp [stripToFour] at h
  | cons a rest ih =>
    unfold stripToFour at h
    by_cases hlen : (a :: rest).length > 4
    · rw [if_pos hlen] at h
      by_cases ha : a ≠ '0'
      · rw [if_pos ha] at h
        cases h
      · rw [if_neg ha] at h
        exact List.mem_cons_of_mem _ (ih h)
    · rw [if_neg hlen] at h
      exact h

theorem padOrStrip_length (digits : GoString) : (padOrStrip digits).length ≤ 4 := by
  unfold padOrStrip
  split
  · simp only [Repeat, List.length_append, List.length_replicate]
    omega
  · exact stripToFour_length _

/-- The character decoded from an escape of `n` digits has a code point below
`16 ^ n`, and below `16 ^ 4` in any case. -/
theorem UnquoteU_padOrStrip (digits t : GoString)
    (hhex : ∀ d ∈ digits, isHexLower d = true)
    (ht : UnquoteU (padOrStrip digits) = some t) :
    ∃ v, t = [Char.ofNat v] ∧ v < 16 ^ 4 ∧ (digits.length < 4 → v < 16 ^ digits.length) := by
  have hlen := padOrStrip_length digits
  unfold UnquoteU at ht
  by_cases h4 : (padOrStrip digits).length < 4
  · simp [h4] at ht
  · rw [if_neg h4] at ht
    simp only at ht
    split at ht
    · cases ht
    · have htake : (padOrStrip digits).take 4 = padOrStrip digits :=
        List.take_of_length_le hlen
      have hdrop : (padOrStrip digits).drop 4 = [] := List.drop_eq_nil_of_le hlen
      rw [htake, hdrop] at ht
      refine ⟨hexValue (padOrStrip digits), (Option.some.inj ht).symm, ?_, ?_⟩
      · have hall : ∀ d ∈ padOrStrip digits, isHexLower d = true := by
          intro d hd
          unfold padOrStrip at hd
          split at hd
          · rcases List.mem_append.mp hd with hz | hh
            · rw [(List.mem_replicate.mp hz).2]
              decide
            · exact hhex d hh
          · exact hhex d (stripToFour_mem _ _ hd)
        have := hexValue_lt _ hall
        have hl4 : (padOrStrip digits).length = 4 := by omega
        rw [hl4] at this
        exact this
      · intro hlt
        have hp : padOrStrip digits = List.replicate (4 - digits.length) '0' ++ digits := by
          unfold padOrStrip
          rw [if_pos hlt]
          rfl
        rw [hp, hexValue_zeros]
        exact hexValue_lt _ hhex

theorem toNat_ofNat_le (v : Nat) : (Char.ofNat v).toNat ≤ v := by
  unfold Char.ofNat
  split
  · rfl
  · exact Nat.zero_le _

theorem utf8Len_pos (c : Char) : 1 ≤ utf8Len c := by
  unfold utf8Len
  split
  · omega
  · split
    · omega
    · split <;> omega

theorem byteLen_append (a b : GoString) : byteLen (a ++ b) = byteLen a + byteLen b := by
  simp [byteLen]

theorem byteLen_ge_length (s : GoString) : s.length ≤ byteLen s := by
  induction s with
  | nil => simp [byteLen]
  | cons c rest ih =>
    have := utf8Len_pos c
    simp only [byteLen, List.map_cons, List.sum_cons, List.length_cons] at ih ⊢
    omega

/-- The UTF-8 encoding of the character decoded from an escape is shorter than
the escape: at most as many bytes as the escape has digits. -/
theorem byteLen_decoded (digits t : GoString)
    (hhex : ∀ d ∈ digits, isHexLower d = true) (h1 : 1 ≤ digits.length)
    (ht : UnquoteU (padOrStrip digits) = some t) :
    byteLen (TrimSpace t) ≤ digits.length := by
  obtain ⟨v, htv, hv4, hvn⟩ := UnquoteU_padOrStrip digits t hhex ht
  rw [htv, TrimSpace_singleton]
  split
  · simp [byteLen]
  · have hle := toNat_ofNat_le v
    have hb : byteLen [Char.ofNat v] = utf8Len (Char.ofNat v) := by simp [byteLen]
    rw [hb]
    unfold utf8Len
    by_cases hd : digits.length < 4
    · have hvd := hvn hd
      have hcases : digits.length = 1 ∨ digits.length = 2 ∨ digits.length = 3 := by omega
      rcases hcases with h | h | h
      · rw [h] at hvd ⊢
        norm_num at hvd
        split_ifs <;> omega
      · rw [h] at hvd ⊢
        norm_num at hvd
        split_ifs <;> omega
      · rw [h] at hvd ⊢
        norm_num at hvd
        split_ifs <;> omega
    · norm_num at hv4
      split_ifs <;> omega

/-- One iteration of the loop of `removeUnicode` replaces an escape of at least
two bytes by a text that is shorter in bytes, so the value gets shorter in
bytes. -/
theorem removeUnicode_step_bytes (s t : GoString) (loc : Nat × Nat)
    (hloc : FindStringIndex s = some loc)
    (ht : UnquoteU (escapeDigits s loc) = some t) :
    2 ≤ byteLen ((s.take loc.2).drop loc.1) ∧
    byteLen (TrimSpace t) < byteLen ((s.take loc.2).drop loc.1) ∧
    byteLen (s.take loc.1 ++ TrimSpace t ++ s.drop loc.2) < byteLen s := by
  obtain ⟨a, r, n, hs, hl, hm⟩ := findEscapeFrom_spec s 0 loc hloc
  have hbody := matchEscape_body r n hm
  have hbounds := matchEscape_bounds _ n hm
  have hpos := matchEscape_digits_pos r n hm
  have hhex : ∀ c ∈ (r.takeWhile isHexLower).take 6, isHexLower c = true :=
    fun c hc => List.mem_takeWhile_imp (List.mem_of_mem_take hc)
  simp only [Nat.zero_add] at hl
  subst hs
  rw [hl] at ht ⊢
  simp only at ht ⊢
  have hdig : escapeDigits (a ++ backslash :: r) (a.length, a.length + n) =
      padOrStrip ((r.takeWhile isHexLower).take 6) := by
    rw [escapeDigits_eq]
    simp only
    rw [slice_after a r n hbody.1, hbody.2]
  rw [hdig] at ht
  have hdec := byteLen_decoded _ t hhex hpos ht
  have hslice : ((a ++ backslash :: r).take (a.length + n)).drop a.length =
      (backslash :: r).take n := by
    rw [List.take_append, List.drop_left]
  have hslen : ((backslash :: r).take n).length = n := by
    rw [List.length_take]
    omega
  have hsb := byteLen_ge_length ((backslash :: r).take n)
  have htrim := TrimSpace_length_le (r.take (n - 1))
  rw [hbody.2] at htrim
  have htl := List.length_take_le (n - 1) r
  have hlt : byteLen (TrimSpace t) < byteLen ((backslash :: r).take n) := by omega
  rw [hslice]
  refine ⟨by omega, hlt, ?_⟩
  have hsplit : a ++ backslash :: r =
      a ++ ((backslash :: r).take n ++ (backslash :: r).drop n) := by
    rw [List.take_append_drop]
  have hdrop : (a ++ backslash :: r).drop (a.length + n) = (backslash :: r).drop n := by
    rw [List.drop_append]
  have htake : (a ++ backslash :: r).take a.length = a := List.take_left _ _
  rw [htake, hdrop]
  conv_rhs => rw [hsplit]
  simp only [byteLen_append]
  omega

/-- C26: `removeUnicode` returns on every input: within one more iteration
than the value has characters the loop ends, and any larger number of
iterations gives the same result; an iteration that does not return replaces an
escape of at least two bytes by a decoded text that is shorter in bytes, so the
working value gets shorter, in bytes and in characters. -/
theorem removeUnicode_terminates :
    (∀ value : GoString, removeUnicodeLoop (value.length + 1) value =
      some (removeUnicode value)) ∧
    (∀ (fuel : Nat) (value : GoString), value.length < fuel →
      removeUnicodeLoop fuel value = some (removeUnicode value)) ∧
    (∀ (s t : GoString) (loc : Nat × Nat), FindStringIndex s = some loc →
      UnquoteU (escapeDigits s loc) = some t →
      2 ≤ byteLen ((s.take loc.2).drop loc.1) ∧
      byteLen (TrimSpace t) < byteLen ((s.take loc.2).drop loc.1) ∧
      byteLen (s.take loc.1 ++ TrimSpace t ++ s.drop loc.2) < byteLen s ∧
      (s.take loc.1 ++ TrimSpace t ++ s.drop loc.2).length < s.length) := by
  refine ⟨fun value => removeUnicodeLoop_eq _ value (Nat.lt_succ_self _),
    removeUnicodeLoop_eq, ?_⟩
  intro s t loc hloc ht
  obtain ⟨h1, h2, h3⟩ := removeUnicode_step_bytes s t loc hloc ht
  exact ⟨h1, h2, h3, removeUnicode_step_length s t loc hloc ht⟩

/-! ## Commits that only add -/

theorem flatMap_replicate_sublist {α β : Type} (l : List α) (k k2 : α → Nat) (t : α → β)
    (h : ∀ d, k d ≤ k2 d) :
    List.Sublist (l.flatMap (fun d => List.replicate (k d) (t d)))
      (l.flatMap (fun d => List.replicate (k2 d) (t d))) := by
  induction l with
  | nil => exact List.Sublist.refl _
  | cons d rest ih =>
    simp only [List.flatMap_cons]
    exact List.Sublist.append (List.replicate_sublist_replicate (t d) |>.mpr (h d)) ih

/-- The rule set resolved by `Sanitize`, when the rule maps of the patterns
have unique keys. -/
theorem resolveStyles_lookup_patterns (self : Policy) (elementName name : GoString)
    (hkeys : ∀ e ∈ self.elsMatchingAndStyles, (e.2.map Prod.fst).Nodup) :
    ((resolveStyles self elementName).lookup name).getD [] =
      resolvedScopeRules self elementName name := by
  unfold resolveStyles resolvedScopeRules
  by_cases h : ((self.elsAndStyles.lookup elementName).getD []).length = 0
  · have h2 : ¬ ((self.elsAndStyles.lookup elementName).getD []).length > 0 := by omega
    simp only [h, h2, if_true, if_false]
    rw [lookup_foldl_patterns _ _ _ _ hkeys]
    simp [List.lookup]
  · have h2 : ((self.elsAndStyles.lookup elementName).getD []).length > 0 := by omega
    simp only [h, h2, if_true, if_false]

theorem emitCount_rules [Unicode] (self : Policy) (elementName : GoString) (dec : Declaration)
    (hkeys : ∀ e ∈ self.elsMatchingAndStyles, (e.2.map Prod.fst).Nodup) :
    emitCount self (resolveStyles self elementName) dec =
      (rulesConsidered self elementName (lookupName dec.Property)).countP
        (fun sp => ruleAccepts sp (normalizedValue dec.Value)) := by
  unfold emitCount acceptCount rulesConsidered
  rw [resolveStyles_lookup_patterns self elementName _ hkeys, List.countP_append]

/-- When every rule list considered under one policy is a sublist of the one
considered under another policy, every run under the first emits a sublist of
what the run under the second emits. -/
theorem sanitizeRun_clean_sublist [Unicode] (ParseDeclarations : GoString → Option (List Declaration))
    (p q : Policy) (elementName style : GoString)
    (hp : ∀ e ∈ p.elsMatchingAndStyles, (e.2.map Prod.fst).Nodup)
    (hq : ∀ e ∈ q.elsMatchingAndStyles, (e.2.map Prod.fst).Nodup)
    (hrules : ∀ name,
      List.Sublist (rulesConsidered p elementName name) (rulesConsidered q elementName name)) :
    List.Sublist (SanitizeRun ParseDeclarations p elementName style).clean
      (SanitizeRun ParseDeclarations q elementName style).clean := by
  cases hparse : ParseDeclarations (prepareStyle style) with
  | none =>
    rw [sanitizeRun_clean_of_parse_none ParseDeclarations p elementName style hparse]
    exact List.nil_sublist _
  | some decs =>
    rw [sanitizeRun_clean_of_parse _ _ _ _ _ hparse, sanitizeRun_clean_of_parse _ _ _ _ _ hparse]
    apply flatMap_replicate_sublist
    intro dec
    rw [emitCount_rules p elementName dec hp, emitCount_rules q elementName dec hq]
    exact (hrules _).countP_le _

theorem nodup_keys_mapSet {β : Type} (m : List (GoString × β)) (k : GoString) (v : β)
    (h : (m.map Prod.fst).Nodup) : ((mapSet m k v).map Prod.fst).Nodup := by
  induction m with
  | nil => simp [mapSet]
  | cons e rest ih =>
    unfold mapSet
    rw [List.map_cons, List.nodup_cons] at h
    by_cases he : e.1 = k
    · rw [if_pos he, List.map_cons, List.nodup_cons]
      exact ⟨he ▸ h.1, h.2⟩
    · rw [if_neg he, List.map_cons, List.nodup_cons]
      refine ⟨?_, ih h.2⟩
      intro hmem
      obtain ⟨x, hx, hxe⟩ := List.mem_map.mp hmem
      rcases mem_mapSet _ _ _ _ hx with h1 | h1
      · exact h.1 (List.mem_map.mpr ⟨x, h1, hxe⟩)
      · rw [h1] at hxe
        exact he hxe.symm

theorem length_mapSet_ge {β : Type} (m : List (GoString × β)) (k : GoString) (v : β) :
    m.length ≤ (mapSet m k v).length := by
  induction m with
  | nil => simp [mapSet]
  | cons e rest ih =>
    unfold mapSet
    by_cases he : e.1 = k
    · rw [if_pos he]
      simp
    · rw [if_neg he]
      simp only [List.length_cons]
      omega

theorem length_mapSet_pos {β : Type} (m : List (GoString × β)) (k : GoString) (v : β) :
    0 < (mapSet m k v).length := by
  cases m with
  | nil => simp [mapSet]
  | cons e rest =>
    unfold mapSet
    split <;> simp

/-- A property of the pattern index that holds of the index itself, is
transitive, and is kept by the updates that `OnElementsMatching` performs, holds
between the index before and after the commit. -/
theorem onElementsMatching_induction
    (R : List (Regexp × StyleMap) → List (Regexp × StyleMap) → Prop)
    (GetDefaultHandler : GoString → Option (GoString → Bool))
    (b : PolicyBuilder) (p : Policy) (regex : Regexp)
    (hrefl : ∀ m, R m m) (htrans : ∀ m1 m2 m3, R m1 m2 → R m2 m3 → R m1 m3)
    (hinit : ∀ m, matchingGet m regex = none → R m (matchingSet m regex []))
    (hstep : ∀ m a, R m (matchingSet m regex
      (appendRule (b.stylePolicy GetDefaultHandler) ((matchingGet m regex).getD []) a))) :
    R p.elsMatchingAndStyles
      (b.OnElementsMatching GetDefaultHandler p regex).elsMatchingAndStyles := by
  have hfold : ∀ (names : List GoString) (q : Policy),
      R q.elsMatchingAndStyles
        (names.foldl
          (fun p attr =>
            let styles := (matchingGet p.elsMatchingAndStyles regex).getD []
            let sp := b.stylePolicy GetDefaultHandler attr
            let styles := mapSet styles attr ((styles.lookup attr).getD [] ++ [sp])
            { p with elsMatchingAndStyles := matchingSet p.elsMatchingAndStyles regex styles })
          q).elsMatchingAndStyles := by
    intro names
    induction names with
    | nil => intro q; exact hrefl _
    | cons a rest ih =>
      intro q
      rw [List.foldl_cons]
      exact htrans _ _ _ (hstep q.elsMatchingAndStyles a)
        (ih ⟨q.elsAndStyles,
          matchingSet q.elsMatchingAndStyles regex
            (appendRule (b.stylePolicy GetDefaultHandler)
              ((matchingGet q.elsMatchingAndStyles regex).getD []) a),
          q.globalStyles⟩)
  unfold PolicyBuilder.OnElementsMatching
  simp only
  cases hg : matchingGet p.elsMatchingAndStyles regex with
  | some _ => exact hfold _ p
  | none =>
    exact htrans _ _ _ (hinit _ hg)
      (hfold _ ⟨p.elsAndStyles, matchingSet p.elsMatchingAndStyles regex [], p.globalStyles⟩)

theorem ruleList_appendRule_sublist (f : GoString → stylePolicy) (m : StyleMap)
    (a k : GoString) : List.Sublist (ruleList m k) (ruleList (appendRule f m a) k) := by
  rw [ruleList_appendRule]
  exact List.sublist_append_left _ _

/-- Replacing the rule map of one pattern by a map with longer rule lists makes
the union over the matching patterns longer. -/
theorem patternUnion_matchingSet (pats : List (Regexp × StyleMap)) (regex : Regexp)
    (v : StyleMap) (elementName k : GoString)
    (h : ∀ old, matchingGet pats regex = some old →
      List.Sublist (ruleList old k) (ruleList v k)) :
    List.Sublist
      ((pats.filter (fun e => e.1.MatchString elementName)).flatMap (fun e => ruleList e.2 k))
      (((matchingSet pats regex v).filter (fun e => e.1.MatchString elementName)).flatMap
        (fun e => ruleList e.2 k)) := by
  induction pats with
  | nil => exact List.nil_sublist _
  | cons e rest ih =>
    unfold matchingSet
    by_cases he : e.1.ptr = regex.ptr
    · rw [if_pos he]
      have hold : List.Sublist (ruleList e.2 k) (ruleList v k) := by
        apply h
        unfold matchingGet
        rw [if_pos he]
      by_cases hm : e.1.MatchString elementName = true
      · simp only [List.filter_cons, hm, if_true, List.flatMap_cons]
        exact List.Sublist.append hold (List.Sublist.refl _)
      · simp only [List.filter_cons, hm, if_false]
        exact List.Sublist.refl _
    · rw [if_neg he]
      have hrest := ih (fun old hold => h old (by
        unfold matchingGet
        rw [if_neg he]
        exact hold))
      by_cases hm : e.1.MatchString elementName = true
      · simp only [List.filter_cons, hm, if_true, List.flatMap_cons]
        exact List.Sublist.append (List.Sublist.refl _) hrest
      · simp only [List.filter_cons, hm, if_false]
        exact hrest

theorem patternAny_matchingSet (pats : List (Regexp × StyleMap)) (regex : Regexp)
    (v : StyleMap) (elementName : GoString)
    (h : ∀ old, matchingGet pats regex = some old → old.length ≤ v.length)
    (hex : ∃ e ∈ pats, e.1.MatchString elementName = true ∧ e.2.length > 0) :
    ∃ e ∈ matchingSet pats regex v, e.1.MatchString elementName = true ∧ e.2.length > 0 := by
  induction pats with
  | nil =>
    obtain ⟨e, he, _⟩ := hex
    cases he
  | cons e rest ih =>
    unfold matchingSet
    obtain ⟨x, hx, hxm, hxl⟩ := hex
    by_cases he : e.1.ptr = regex.ptr
    · rw [if_pos he]
      rcases List.mem_cons.mp hx with h1 | h1
      · subst h1
        have hold : x.2.length ≤ v.length := by
          apply h
          unfold matchingGet
          rw [if_pos he]
        exact ⟨(x.1, v), List.mem_cons_self _ _, hxm, by simp only; omega⟩
      · exact ⟨x, List.mem_cons_of_mem _ h1, hxm, hxl⟩
    · rw [if_neg he]
      rcases List.mem_cons.mp hx with h1 | h1
      · exact ⟨x, h1 ▸ List.mem_cons_self _ _, hxm, hxl⟩
      · obtain ⟨y, hy, hym, hyl⟩ := ih (fun old hold => h old (by
          unfold matchingGet
          rw [if_neg he]
          exact hold)) ⟨x, h1, hxm, hxl⟩
        exact ⟨y, List.mem_cons_of_mem _ hy, hym, hyl⟩

theorem nodupKeys_matchingSet (pats : List (Regexp × StyleMap)) (regex : Regexp)
    (v : StyleMap) (hv : (v.map Prod.fst).Nodup)
    (h : ∀ e ∈ pats, (e.2.map Prod.fst).Nodup) :
    ∀ e ∈ matchingSet pats regex v, (e.2.map Prod.fst).Nodup := by
  intro e he
  rcases mem_matchingSet _ _ _ _ he with h1 | h1
  · exact h e h1
  · rw [h1]
    exact hv

theorem nodupKeys_matchingGet (pats : List (Regexp × StyleMap)) (regex : Regexp)
    (h : ∀ e ∈ pats, (e.2.map Prod.fst).Nodup) :
    (((matchingGet pats regex).getD []).map Prod.fst).Nodup := by
  cases hg : matchingGet pats regex with
  | none => simp
  | some v =>
    obtain ⟨e, he, hv⟩ := matchingGet_some_mem _ _ _ hg
    simp only [Option.getD_some]
    rw [← hv]
    exact h e he

theorem globally_length (GetDefaultHandler : GoString → Option (GoString → Bool))
    (b : PolicyBuilder) (p : Policy) :
    p.globalStyles.length ≤ (b.Globally GetDefaultHandler p).globalStyles.length := by
  unfold PolicyBuilder.Globally
  generalize b.propertyNames = names
  induction names generalizing p with
  | nil => exact Nat.le_refl _
  | cons a rest ih =>
    rw [List.foldl_cons]
    refine Nat.le_trans ?_ (ih _)
    exact length_mapSet_ge _ _ _

theorem rulesConsidered_globally (GetDefaultHandler : GoString → Option (GoString → Bool))
    (b : PolicyBuilder) (p : Policy) (elementName name : GoString) :
    List.Sublist (rulesConsidered p elementName name)
      (rulesConsidered (b.Globally GetDefaultHandler p) elementName name) := by
  obtain ⟨g1, g2, g3⟩ := globally_frame GetDefaultHandler b p
  unfold rulesConsidered resolvedScopeRules
  rw [g1, g2]
  refine List.Sublist.append (List.Sublist.refl _) ?_
  have := g3 name
  unfold Policy.globalRules ruleList at this
  rw [this]
  exact List.sublist_append_left _ _

theorem rulesConsidered_onElementsMatching
    (GetDefaultHandler : GoString → Option (GoString → Bool))
    (b : PolicyBuilder) (p : Policy) (regex : Regexp) (elementName name : GoString) :
    List.Sublist (rulesConsidered p elementName name)
      (rulesConsidered (b.OnElementsMatching GetDefaultHandler p regex) elementName name) := by
  obtain ⟨m1, m2, _⟩ := onElementsMatching_frame GetDefaultHandler b p regex
  have hunion : List.Sublist
      ((p.elsMatchingAndStyles.filter (fun e => e.1.MatchString elementName)).flatMap
        (fun e => ruleList e.2 name))
      (((b.OnElementsMatching GetDefaultHandler p regex).elsMatchingAndStyles.filter
        (fun e => e.1.MatchString elementName)).flatMap (fun e => ruleList e.2 name)) := by
    refine onElementsMatching_induction
      (fun m m2 => List.Sublist
        ((m.filter (fun e => e.1.MatchString elementName)).flatMap (fun e => ruleList e.2 name))
        ((m2.filter (fun e => e.1.MatchString elementName)).flatMap
          (fun e => ruleList e.2 name)))
      GetDefaultHandler b p regex ?_ ?_ ?_ ?_
    · intro m
      exact List.Sublist.refl _
    · intro m1 m2 m3 h1 h2
      exact List.Sublist.trans h1 h2
    · intro m hg
      exact patternUnion_matchingSet m regex [] elementName name
        (fun old hold => by rw [hg] at hold; cases hold)
    · intro m a
      refine patternUnion_matchingSet m regex _ elementName name ?_
      intro old hold
      rw [hold]
      exact ruleList_appendRule_sublist _ _ _ _
  unfold rulesConsidered resolvedScopeRules
  rw [m1, m2]
  refine List.Sublist.append ?_ (List.Sublist.refl _)
  simp only
  split
  · exact List.Sublist.refl _
  · exact hunion

theorem nodupKeys_onElementsMatching
    (GetDefaultHandler : GoString → Option (GoString → Bool))
    (b : PolicyBuilder) (p : Policy) (regex : Regexp)
    (h : ∀ e ∈ p.elsMatchingAndStyles, (e.2.map Prod.fst).Nodup) :
    ∀ e ∈ (b.OnElementsMatching GetDefaultHandler p regex).elsMatchingAndStyles,
      (e.2.map Prod.fst).Nodup := by
  have hind : (∀ e ∈ p.elsMatchingAndStyles, (e.2.map Prod.fst).Nodup) →
      ∀ e ∈ (b.OnElementsMatching GetDefaultHandler p regex).elsMatchingAndStyles,
        (e.2.map Prod.fst).Nodup := by
    refine onElementsMatching_induction
      (fun m m2 => (∀ e ∈ m, (e.2.map Prod.fst).Nodup) → ∀ e ∈ m2, (e.2.map Prod.fst).Nodup)
      GetDefaultHandler b p regex ?_ ?_ ?_ ?_
    · intro m hm
      exact hm
    · intro m1 m2 m3 h1 h2 hm
      exact h2 (h1 hm)
    · intro m _ hm
      exact nodupKeys_matchingSet m regex [] (by simp) hm
    · intro m a hm
      exact nodupKeys_matchingSet m regex _
        (nodup_keys_mapSet _ _ _ (nodupKeys_matchingGet m regex hm)) hm
  exact hind h

theorem hasPolicies_onElementsMatching
    (GetDefaultHandler : GoString → Option (GoString → Bool))
    (b : PolicyBuilder) (p : Policy) (regex : Regexp) (elementName : GoString)
    (h : HasPolicies p elementName = true) :
    HasPolicies (b.OnElementsMatching GetDefaultHandler p regex) elementName = true := by
  obtain ⟨m1, m2, _⟩ := onElementsMatching_frame GetDefaultHandler b p regex
  have hany : (∃ e ∈ p.elsMatchingAndStyles,
        e.1.MatchString elementName = true ∧ e.2.length > 0) →
      ∃ e ∈ (b.OnElementsMatching GetDefaultHandler p regex).elsMatchingAndStyles,
        e.1.MatchString elementName = true ∧ e.2.length > 0 := by
    refine onElementsMatching_induction
      (fun m m2 => (∃ e ∈ m, e.1.MatchString elementName = true ∧ e.2.length > 0) →
        ∃ e ∈ m2, e.1.MatchString elementName = true ∧ e.2.length > 0)
      GetDefaultHandler b p regex ?_ ?_ ?_ ?_
    · intro m hm
      exact hm
    · intro m1 m2 m3 h1 h2 hm
      exact h2 (h1 hm)
    · intro m hg hm
      exact patternAny_matchingSet m regex [] elementName
        (fun old hold => by rw [hg] at hold; cases hold) hm
    · intro m a hm
      refine patternAny_matchingSet m regex _ elementName ?_ hm
      intro old hold
      rw [hold]
      exact length_mapSet_ge _ _ _
  rw [hasPolicies_eq_true] at h ⊢
  rw [m1, m2]
  rcases h with h1 | h1 | h1
  · exact Or.inl h1
  · exact Or.inr (Or.inl h1)
  · exact Or.inr (Or.inr (hany h1))

theorem hasPolicies_globally
    (GetDefaultHandler : GoString → Option (GoString → Bool))
    (b : PolicyBuilder) (p : Policy) (elementName : GoString)
    (h : HasPolicies p elementName = true) :
    HasPolicies (b.Globally GetDefaultHandler p) elementName = true := by
  obtain ⟨g1, g2, _⟩ := globally_frame GetDefaultHandler b p
  have hlen := globally_length GetDefaultHandler b p
  rw [hasPolicies_eq_true] at h ⊢
  rw [g1, g2]
  rcases h with h1 | h1 | h1
  · exact Or.inl (by omega)
  · exact Or.inr (Or.inl h1)
  · exact Or.inr (Or.inr h1)

/-- C22: for a policy whose maps have unique keys, a commit with `Globally` or
with `OnElementsMatching` never removes anything from the output: what a run
emits before the commit is a sublist of what the same run emits after it, so
every text is emitted at least as many times, and an element that has a policy
before the commit has one after it. -/
theorem commit_never_removes [Unicode]
    (GetDefaultHandler : GoString → Option (GoString → Bool))
    (b : PolicyBuilder) (p : Policy) (regex : Regexp)
    (ParseDeclarations : GoString → Option (List Declaration))
    (elementName style : GoString) (hwf : p.WF) :
    (List.Sublist (SanitizeRun ParseDeclarations p elementName style).clean
        (SanitizeRun ParseDeclarations (b.Globally GetDefaultHandler p) elementName style).clean ∧
      (∀ text, (SanitizeRun ParseDeclarations p elementName style).clean.count text ≤
        (SanitizeRun ParseDeclarations (b.Globally GetDefaultHandler p)
          elementName style).clean.count text) ∧
      (HasPolicies p elementName = true →
        HasPolicies (b.Globally GetDefaultHandler p) elementName = true)) ∧
    (List.Sublist (SanitizeRun ParseDeclarations p elementName style).clean
        (SanitizeRun ParseDeclarations (b.OnElementsMatching GetDefaultHandler p regex)
          elementName style).clean ∧
      (∀ text, (SanitizeRun ParseDeclarations p elementName style).clean.count text ≤
        (SanitizeRun ParseDeclarations (b.OnElementsMatching GetDefaultHandler p regex)
          elementName style).clean.count text) ∧
      (HasPolicies p elementName = true →
        HasPolicies (b.OnElementsMatching GetDefaultHandler p regex) elementName = true)) := by
  have hkeys := hwf.2.2.2.1
  have hg : List.Sublist (SanitizeRun ParseDeclarations p elementName style).clean
      (SanitizeRun ParseDeclarations (b.Globally GetDefaultHandler p) elementName style).clean := by
    apply sanitizeRun_clean_sublist _ _ _ _ _ hkeys
    · rw [(globally_frame GetDefaultHandler b p).2.1]
      exact hkeys
    · exact fun name => rulesConsidered_globally GetDefaultHandler b p elementName name
  have hm : List.Sublist (SanitizeRun ParseDeclarations p elementName style).clean
      (SanitizeRun ParseDeclarations (b.OnElementsMatching GetDefaultHandler p regex)
        elementName style).clean := by
    apply sanitizeRun_clean_sublist _ _ _ _ _ hkeys
    · exact nodupKeys_onElementsMatching GetDefaultHandler b p regex hkeys
    · exact fun name =>
        rulesConsidered_onElementsMatching GetDefaultHandler b p regex elementName name
  exact ⟨⟨hg, fun text => hg.count_le text, hasPolicies_globally _ b p elementName⟩,
    ⟨hm, fun text => hm.count_le text, hasPolicies_onElementsMatching _ b p regex elementName⟩⟩

/-- Witness of C22: a global enumeration rule and a pattern rule added to the
policy with `color` on `span`. -/
theorem commit_never_removes_witness :
    spanColorPolicy.WF ∧
    (SanitizeRun simpleParser spanColorPolicy "span".toList "color: red".toList).clean.count
        "color: red".toList ≤
      (SanitizeRun simpleParser
        (((AllowStyles ["color".toList]).MatchingEnum ["red".toList]).Globally
          noDefaultHandlers spanColorPolicy)
        "span".toList "color: red".toList).clean.count "color: red".toList :=
  ⟨by decide,
    (commit_never_removes noDefaultHandlers
      ((AllowStyles ["color".toList]).MatchingEnum ["red".toList]) spanColorPolicy myPattern
      simpleParser "span".toList "color: red".toList (by decide)).1.2.1 "color: red".toList⟩


/-! ## Values without escape -/

/-- A text in which no backslash is followed by a hex digit has no match of
the escape pattern. -/
theorem findEscapeFrom_none_of_escape_free (s : GoString) (i : Nat)
    (h : ∀ pre c post, s = pre ++ backslash :: c :: post → isHexLower c = false) :
    findEscapeFrom i s = none := by
  induction s generalizing i with
  | nil => rfl
  | cons a rest ih =>
    unfold findEscapeFrom
    have hm : matchEscape (a :: rest) = none := by
      by_cases ha : a = backslash
      · subst ha
        cases rest with
        | nil => simp [matchEscape]
        | cons d r =>
          have hd : isHexLower d = false := h [] d r rfl
          simp [matchEscape, List.takeWhile, hd]
      · unfold matchEscape
        simp [ha]
    rw [hm]
    exact ih (i + 1) (fun pre c post hs => h (a :: pre) c post (by rw [hs]; rfl))

/-- C31: `removeUnicode` returns unchanged every value in which no backslash
is immediately followed by a lowercase hex digit. -/
theorem removeUnicode_escape_free (s : GoString)
    (h : ∀ pre c post, s = pre ++ backslash :: c :: post → isHexLower c = false) :
    removeUnicode s = s := by
  have hfind : FindStringIndex s = none := findEscapeFrom_none_of_escape_free s 0 h
  rw [removeUnicode_unfold, hfind]

theorem removeUnicode_escape_free_witness :
    (∀ pre c post, "url(a\\zb) \\".toList = pre ++ backslash :: c :: post →
      isHexLower c = false) ∧
    removeUnicode "url(a\\zb) \\".toList = "url(a\\zb) \\".toList :=
  ⟨fun pre c post hs => no_escape_of_find_none _ pre post c (by decide) hs,
    removeUnicode_escape_free _
      (fun pre c post hs => no_escape_of_find_none _ pre post c (by decide) hs)⟩

/-! ## An allow rule that removes a declaration -/

/-- C33: committing an allow rule with `OnElements` can remove a declaration
from the output. Under the policy that allows `customstyle` on the elements
matching `^my-element-`, the style `customstyle:value` of the element
`my-element-demo-one` is emitted; after `color` is allowed on that element the
exact-element entry shadows the pattern and the declaration is emitted no
more. -/
theorem onElements_can_remove_declaration :
    ∃ (P : Policy) (b : PolicyBuilder) (name style : GoString) (dec : Declaration),
      P = customstylePolicy ∧ b = colorBuilder ∧
      name = "my-element-demo-one".toList ∧ style = "customstyle:value".toList ∧
      dec = { Property := "customstyle".toList, Value := "value".toList } ∧
      P.WF ∧ (b.OnElements noDefaultHandlers P [name]).WF ∧
      declText dec ∈ (SanitizeRun simpleParser P name style).clean ∧
      declText dec ∉
        (SanitizeRun simpleParser (b.OnElements noDefaultHandlers P [name]) name style).clean ∧
      Sanitize simpleParser P name style = "customstyle: value".toList ∧
      Sanitize simpleParser (b.OnElements noDefaultHandlers P [name]) name style = [] :=
  ⟨customstylePolicy, colorBuilder, "my-element-demo-one".toList, "customstyle:value".toList,
    { Property := "customstyle".toList, Value := "value".toList }, rfl, rfl, rfl, rfl, rfl,
    by decide, by decide, by decide, by decide, by decide, by decide⟩


/-! ## Escapes that make the value empty -/

theorem foldl_hex_append (l : GoString) (acc : Nat) :
    l.foldl (fun v c => 16 * v + unhex c) acc = acc * 16 ^ l.length + hexValue l := by
  unfold hexValue
  induction l generalizing acc with
  | nil => simp
  | cons c rest ih =>
    rw [List.foldl_cons, List.foldl_cons, ih (16 * acc + unhex c), ih (16 * 0 + unhex c)]
    simp only [List.length_cons, pow_succ]
    ring

/-- Value of a text of hex digits split in two. -/
theorem hexValue_append (z l : GoString) :
    hexValue (z ++ l) = hexValue z * 16 ^ l.length + hexValue l := by
  have h := foldl_hex_append l (hexValue z)
  unfold hexValue at h ⊢
  rw [List.foldl_append]
  exact h

theorem unhex_eq_zero (c : Char) (hc : isHexLower c = true) (h0 : unhex c = 0) : c = '0' := by
  have h48 : c.toNat = 48 := by
    unfold isHexLower at hc
    unfold unhex at h0
    simp only [Bool.or_eq_true, Bool.and_eq_true, decide_eq_true_eq] at hc
    split_ifs at h0 <;> omega
  have := Char.ofNat_toNat c
  rw [h48] at this
  exact this.symm

/-- Hex digits of value zero are all `0`. -/
theorem hexValue_eq_zero (z : GoString) (hhex : ∀ d ∈ z, isHexLower d = true)
    (h0 : hexValue z = 0) : z = List.replicate z.length '0' := by
  induction z with
  | nil => rfl
  | cons c rest ih =>
    have happ := hexValue_append [c] rest
    have hc1 : hexValue [c] = unhex c := by simp [hexValue]
    rw [List.singleton_append, hc1, h0] at happ
    have hpos : 0 < 16 ^ rest.length := Nat.pow_pos (by decide)
    have hrest : hexValue rest = 0 := by omega
    have hmul : unhex c * 16 ^ rest.length = 0 := by omega
    have hcz : unhex c = 0 := by
      rcases Nat.mul_eq_zero.mp hmul with h | h
      · exact h
      · omega
    have hceq := unhex_eq_zero c (hhex c (List.mem_cons_self _ _)) hcz
    rw [List.length_cons, List.replicate_succ, hceq,
      ← ih (fun d hd => hhex d (List.mem_cons_of_mem _ hd)) hrest]

/-- An escape of at most six hex digits that denotes a surrogate code point is
refused by `strconv.Unquote`. -/
theorem UnquoteU_surrogate (digits : GoString)
    (hhex : ∀ d ∈ digits, isHexLower d = true) (h6 : digits.length ≤ 6)
    (hlo : 0xD800 ≤ hexValue digits) (hhi : hexValue digits ≤ 0xDFFF) :
    UnquoteU (padOrStrip digits) = none := by
  have hlt := hexValue_lt digits hhex
  have h4 : 4 ≤ digits.length := by
    by_contra hc
    have hle : digits.length ≤ 3 := by omega
    have hpow : 16 ^ digits.length ≤ 16 ^ 3 := Nat.pow_le_pow_right (by decide) hle
    have : (16 : Nat) ^ 3 = 4096 := by norm_num
    omega
  have hsplit : digits = digits.take (digits.length - 4) ++ digits.drop (digits.length - 4) :=
    (List.take_append_drop _ _).symm
  have hl : (digits.drop (digits.length - 4)).length = 4 := by
    rw [List.length_drop]
    omega
  have hz : (digits.take (digits.length - 4)).length = digits.length - 4 := by
    rw [List.length_take]
    omega
  have hval := hexValue_append (digits.take (digits.length - 4))
    (digits.drop (digits.length - 4))
  rw [← hsplit, hl] at hval
  have h16 : (16 : Nat) ^ 4 = 65536 := by norm_num
  rw [h16] at hval
  have hz0 : hexValue (digits.take (digits.length - 4)) = 0 := by
    by_contra hne
    have h1 : 1 ≤ hexValue (digits.take (digits.length - 4)) := Nat.pos_of_ne_zero hne
    have := Nat.mul_le_mul_right 65536 h1
    omega
  have hzeq := hexValue_eq_zero (digits.take (digits.length - 4))
    (fun d hd => hhex d (List.mem_of_mem_take hd)) hz0
  rw [hz] at hzeq
  have hpad : padOrStrip digits = digits.drop (digits.length - 4) := by
    have := padOrStrip_zeros (digits.length - 4) (digits.drop (digits.length - 4))
      (by omega) (by omega)
    rw [← hzeq, ← hsplit, hl] at this
    simpa using this
  rw [hpad]
  unfold UnquoteU
  have hnlt : ¬ (digits.drop (digits.length - 4)).length < 4 := by omega
  rw [if_neg hnlt]
  have htake : (digits.drop (digits.length - 4)).take 4 = digits.drop (digits.length - 4) :=
    List.take_of_length_le (by omega)
  simp only [htake]
  have hv : hexValue (digits.drop (digits.length - 4)) = hexValue digits := by omega
  rw [hv, if_pos ⟨hlo, hhi⟩]

/-- The digits the escape pattern takes when the run of hex digits after the
backslash is maximal. -/
theorem takeWhile_maximal_run (digits post : GoString)
    (hhex : ∀ d ∈ digits, isHexLower d = true) (h6 : digits.length ≤ 6)
    (hmax : digits.length = 6 ∨ ∀ c, post.head? = some c → isHexLower c = false) :
    ((digits ++ post).takeWhile isHexLower).take 6 = digits := by
  rw [takeWhile_append_all isHexLower digits post hhex]
  rcases hmax with h | h
  · rw [List.take_append_of_le_length (by omega), List.take_of_length_le (by omega)]
  · have hpost : post.takeWhile isHexLower = [] := by
      cases post with
      | nil => rfl
      | cons c r =>
        have hc : isHexLower c = false := h c rfl
        simp [List.takeWhile, hc]
    rw [hpost, List.append_nil, List.take_of_length_le h6]

/-- One iteration of `removeUnicode` on a value whose leftmost escape is a
backslash with its maximal run of one to six hex digits and whose digits are
refused by `strconv.Unquote`. -/
theorem removeUnicode_refused_escape (pre digits post : GoString)
    (hpre : FindStringIndex pre = none)
    (hhex : ∀ d ∈ digits, isHexLower d = true) (h1 : 1 ≤ digits.length)
    (h6 : digits.length ≤ 6)
    (hmax : digits.length = 6 ∨ ∀ c, post.head? = some c → isHexLower c = false)
    (hrefused : UnquoteU (padOrStrip digits) = none) :
    removeUnicode (pre ++ backslash :: (digits ++ post)) = [] := by
  obtain ⟨c, rest, hd⟩ : ∃ c rest, digits = c :: rest := by
    cases digits with
    | nil => simp at h1
    | cons c rest => exact ⟨c, rest, rfl⟩
  have hc : isHexLower c = true := hhex c (by rw [hd]; exact List.mem_cons_self _ _)
  obtain ⟨n, hm⟩ : ∃ n, matchEscape (backslash :: (digits ++ post)) = some n := by
    rw [hd]
    exact matchEscape_isSome c (rest ++ post) hc
  have hbody := matchEscape_body (digits ++ post) n hm
  have hfind : FindStringIndex (pre ++ backslash :: (digits ++ post)) =
      some (pre.length, pre.length + n) := by
    unfold FindStringIndex at hpre ⊢
    rw [findEscapeFrom_escapeFree pre _ 0 hpre, findEscapeFrom, hm]
    simp
  have hdig : escapeDigits (pre ++ backslash :: (digits ++ post))
      (pre.length, pre.length + n) = padOrStrip digits := by
    rw [escapeDigits_eq]
    simp only
    rw [slice_after pre _ _ hbody.1, hbody.2, takeWhile_maximal_run digits post hhex h6 hmax]
  rw [removeUnicode_unfold, hfind]
  simp only
  rw [hdig, hrefused]

/-- C34: `removeUnicode` returns the empty string whenever the leftmost escape
of the value, a backslash with its maximal run of up to six lowercase hex
digits, has five or six digits with a non-zero digit before its last four, or
denotes a surrogate code point (d800 to dfff), whatever escape-free text
precedes it and whatever text follows it. -/
theorem removeUnicode_discards_value (pre digits post : GoString)
    (hpre : FindStringIndex pre = none)
    (hhex : ∀ d ∈ digits, isHexLower d = true) (h1 : 1 ≤ digits.length)
    (h6 : digits.length ≤ 6)
    (hmax : digits.length = 6 ∨ ∀ c, post.head? = some c → isHexLower c = false)
    (hfail : badEscape digits = true ∨
      (0xD800 ≤ hexValue digits ∧ hexValue digits ≤ 0xDFFF)) :
    removeUnicode (pre ++ backslash :: (digits ++ post)) = [] := by
  rcases hfail with hbad | ⟨hlo, hhi⟩
  · exact removeUnicode_badEscape pre digits post hbad
  · exact removeUnicode_refused_escape pre digits post hpre hhex h1 h6 hmax
      (UnquoteU_surrogate digits hhex h6 hlo hhi)

theorem removeUnicode_discards_value_witness :
    (FindStringIndex "url(".toList = none ∧
      (∀ d ∈ "0d83d".toList, isHexLower d = true) ∧
      (0xD800 ≤ hexValue "0d83d".toList ∧ hexValue "0d83d".toList ≤ 0xDFFF) ∧
      removeUnicode ("url(".toList ++ backslash :: ("0d83d".toList ++ " x)".toList)) = []) ∧
    (badEscape "1f600".toList = true ∧
      removeUnicode ("a".toList ++ backslash :: ("1f600".toList ++ "z".toList)) = []) :=
  ⟨⟨by decide, by decide, by decide,
      removeUnicode_discards_value "url(".toList "0d83d".toList " x)".toList (by decide)
        (by decide) (by decide) (by decide) (Or.inr (by decide)) (Or.inr (by decide))⟩,
    by decide,
    removeUnicode_discards_value "a".toList "1f600".toList "z".toList (by decide)
      (by decide) (by decide) (by decide) (Or.inr (by decide)) (Or.inl (by decide))⟩


/-! ## Iteration order of the patterns -/

theorem lookup_perm {β : Type} (l l2 : List (GoString × β)) (k : GoString)
    (h : List.Perm l l2) (hnd : (l.map Prod.fst).Nodup) : l.lookup k = l2.lookup k := by
  induction h with
  | nil => rfl
  | cons x _ ih =>
    obtain ⟨a, b⟩ := x
    simp only [List.map_cons, List.nodup_cons] at hnd
    by_cases hk : k = a
    · subst hk
      rw [lookup_cons_self, lookup_cons_self]
    · rw [lookup_cons_ne _ _ _ _ hk, lookup_cons_ne _ _ _ _ hk]
      exact ih hnd.2
  | swap x y l =>
    obtain ⟨a, b⟩ := x
    obtain ⟨c, d⟩ := y
    simp only [List.map_cons, List.nodup_cons, List.mem_cons] at hnd
    have hca : ¬ c = a := fun hc => hnd.1 (Or.inl hc)
    by_cases hk : k = a
    · subst hk
      have hkc : ¬ k = c := fun hc => hca hc.symm
      rw [lookup_cons_self, lookup_cons_ne _ _ _ _ hkc, lookup_cons_self]
    · by_cases hk2 : k = c
      · subst hk2
        rw [lookup_cons_ne _ _ _ _ hk, lookup_cons_self, lookup_cons_self]
      · rw [lookup_cons_ne _ _ _ _ hk, lookup_cons_ne _ _ _ _ hk2,
          lookup_cons_ne _ _ _ _ hk2, lookup_cons_ne _ _ _ _ hk]
  | trans h1 _ ih1 ih2 =>
    rw [ih1 hnd]
    exact ih2 ((h1.map Prod.fst).nodup_iff.mp hnd)

theorem any_perm {α : Type} (l l2 : List α) (f : α → Bool) (h : List.Perm l l2) :
    l.any f = l2.any f := by
  induction h with
  | nil => rfl
  | cons x _ ih => simp only [List.any_cons, ih]
  | swap x y l =>
    simp only [List.any_cons]
    cases f x <;> cases f y <;> rfl
  | trans _ _ ih1 ih2 => rw [ih1, ih2]

theorem any_related {α : Type} (R : α → α → Prop) (f : α → Bool) (l l2 : List α)
    (h : List.Forall₂ R l l2) (hf : ∀ a b, R a b → f a = f b) : l.any f = l2.any f := by
  induction h with
  | nil => rfl
  | cons hab _ ih => simp only [List.any_cons, hf _ _ hab, ih]

theorem mem_related_right {α : Type} (R : α → α → Prop) (l l2 : List α)
    (h : List.Forall₂ R l l2) (b : α) (hb : b ∈ l2) : ∃ a ∈ l, R a b := by
  induction h with
  | nil => cases hb
  | cons hab _ ih =>
    rcases List.mem_cons.mp hb with rfl | hb
    · exact ⟨_, List.mem_cons_self _ _, hab⟩
    · obtain ⟨a, ha, hr⟩ := ih hb
      exact ⟨a, List.mem_cons_of_mem _ ha, hr⟩

/-- Unique keys in every rule set survive a change of iteration order. -/
theorem nodupKeys_reordered (m m2 : List (Regexp × StyleMap)) (h : Reordered m m2)
    (hkeys : ∀ e ∈ m, (e.2.map Prod.fst).Nodup) :
    ∀ e ∈ m2, (e.2.map Prod.fst).Nodup := by
  obtain ⟨mid, hperm, hpair⟩ := h
  intro e2 he2
  obtain ⟨e, he, _, hp⟩ := mem_related_right _ mid m2 hpair e2 he2
  exact ((hp.map Prod.fst).nodup_iff).mp (hkeys e (hperm.mem_iff.mpr he))

/-- The rules of the matching patterns for a property are the same list when
only the properties inside each rule set are listed in another order. -/
theorem patternRules_related (mid m2 : List (Regexp × StyleMap))
    (elementName name : GoString)
    (hpair : List.Forall₂ (fun e e2 => e.1 = e2.1 ∧ List.Perm e.2 e2.2) mid m2)
    (hkeys : ∀ e ∈ mid, (e.2.map Prod.fst).Nodup) :
    (mid.filter (fun e => e.1.MatchString elementName)).flatMap
        (fun e => (e.2.lookup name).getD []) =
      (m2.filter (fun e => e.1.MatchString elementName)).flatMap
        (fun e => (e.2.lookup name).getD []) := by
  induction hpair with
  | nil => rfl
  | @cons a b l l2 hab _ ih =>
    have hrest := ih (fun e he => hkeys e (List.mem_cons_of_mem _ he))
    have hlook : a.2.lookup name = b.2.lookup name :=
      lookup_perm a.2 b.2 name hab.2 (hkeys a (List.mem_cons_self _ _))
    by_cases hm : a.1.MatchString elementName = true
    · have hm2 : b.1.MatchString elementName = true := by rw [← hab.1]; exact hm
      simp only [List.filter_cons, hm, hm2, if_true, List.flatMap_cons, hrest, hlook]
    · have hm2 : ¬ b.1.MatchString elementName = true := by rw [← hab.1]; exact hm
      simp only [List.filter_cons, hm, hm2, Bool.false_eq_true, if_false, hrest]

/-- The rules considered for a property are the same up to their order when
the patterns are iterated in another order. -/
theorem rulesConsidered_reordered (p : Policy) (patterns : List (Regexp × StyleMap))
    (elementName name : GoString)
    (hkeys : ∀ e ∈ p.elsMatchingAndStyles, (e.2.map Prod.fst).Nodup)
    (horder : Reordered p.elsMatchingAndStyles patterns) :
    List.Perm (rulesConsidered p elementName name)
      (rulesConsidered ⟨p.elsAndStyles, patterns, p.globalStyles⟩ elementName name) := by
  obtain ⟨mid, hperm, hpair⟩ := horder
  unfold rulesConsidered resolvedScopeRules
  simp only
  refine List.Perm.append ?_ (List.Perm.refl _)
  by_cases hex : ((p.elsAndStyles.lookup elementName).getD []).length > 0
  · rw [if_pos hex, if_pos hex]
  · rw [if_neg hex, if_neg hex]
    rw [← patternRules_related mid patterns elementName name hpair
      (fun e he => hkeys e (hperm.mem_iff.mpr he))]
    exact List.Perm.flatMap_right _ (hperm.filter _)

/-- `HasPolicies` does not depend on the iteration order of the patterns. -/
theorem hasPolicies_reordered (p : Policy) (patterns : List (Regexp × StyleMap))
    (elementName : GoString) (horder : Reordered p.elsMatchingAndStyles patterns) :
    HasPolicies ⟨p.elsAndStyles, patterns, p.globalStyles⟩ elementName =
      HasPolicies p elementName := by
  obtain ⟨mid, hperm, hpair⟩ := horder
  unfold HasPolicies
  simp only
  rw [any_perm _ _ _ hperm]
  rw [any_related _ _ mid patterns hpair
    (fun a b hab => by rw [hab.1, hab.2.length_eq])]

/-- C32: the output of `Sanitize` does not depend on the order in which the
registered patterns, and the properties inside each pattern's rule set, are
iterated during scope resolution: for every policy, element name and style,
the run on the policy with its pattern map listed in another order emits the
same texts and returns the same string, also when several matching patterns
register different strategies for the same property. -/
theorem sanitize_iteration_order [Unicode]
    (ParseDeclarations : GoString → Option (List Declaration))
    (p : Policy) (patterns : List (Regexp × StyleMap)) (elementName style : GoString)
    (hkeys : ∀ e ∈ p.elsMatchingAndStyles, (e.2.map Prod.fst).Nodup)
    (horder : Reordered p.elsMatchingAndStyles patterns) :
    SanitizeRun ParseDeclarations ⟨p.elsAndStyles, patterns, p.globalStyles⟩
        elementName style =
      SanitizeRun ParseDeclarations p elementName style ∧
    Sanitize ParseDeclarations ⟨p.elsAndStyles, patterns, p.globalStyles⟩
        elementName style =
      Sanitize ParseDeclarations p elementName style := by
  have hkeys2 := nodupKeys_reordered _ _ horder hkeys
  have hcount : ∀ dec,
      emitCount ⟨p.elsAndStyles, patterns, p.globalStyles⟩
          (resolveStyles ⟨p.elsAndStyles, patterns, p.globalStyles⟩ elementName) dec =
        emitCount p (resolveStyles p elementName) dec := by
    intro dec
    rw [emitCount_rules p elementName dec hkeys,
      emitCount_rules ⟨p.elsAndStyles, patterns, p.globalStyles⟩ elementName dec hkeys2]
    exact (List.Perm.countP_eq _
      (rulesConsidered_reordered p patterns elementName _ hkeys horder)).symm
  have hrun : SanitizeRun ParseDeclarations ⟨p.elsAndStyles, patterns, p.globalStyles⟩
      elementName style = SanitizeRun ParseDeclarations p elementName style := by
    unfold SanitizeRun
    rw [hasPolicies_reordered p patterns elementName horder]
    by_cases hp : HasPolicies p elementName = true
    · simp only [hp, Bool.not_true, Bool.false_eq_true, if_false]
      cases hparse : ParseDeclarations (prepareStyle style) with
      | none => rfl
      | some decs =>
        simp only
        have hclean : decs.foldl
            (sanitizeDeclaration ⟨p.elsAndStyles, patterns, p.globalStyles⟩
              (resolveStyles ⟨p.elsAndStyles, patterns, p.globalStyles⟩ elementName)) [] =
            decs.foldl (sanitizeDeclaration p (resolveStyles p elementName)) [] := by
          rw [foldl_sanitizeDeclaration, foldl_sanitizeDeclaration]
          simp only [hcount]
        rw [hclean]
    · simp [hp]
  exact ⟨hrun, by unfold Sanitize; rw [hrun]⟩

theorem sanitize_iteration_order_witness :
    (∀ e ∈ twoPatternPolicy.elsMatchingAndStyles, (e.2.map Prod.fst).Nodup) ∧
    Reordered twoPatternPolicy.elsMatchingAndStyles twoPatternsReversed ∧
    (twoPatternsReversed.map (fun e => e.1.ptr) = [3, 1] ∧
      twoPatternPolicy.elsMatchingAndStyles.map (fun e => e.1.ptr) = [1, 3]) ∧
    (SanitizeRun simpleParser
        ⟨twoPatternPolicy.elsAndStyles, twoPatternsReversed, twoPatternPolicy.globalStyles⟩
        "my-element-demo-one".toList "color: blue; color: red".toList =
      SanitizeRun simpleParser twoPatternPolicy "my-element-demo-one".toList
        "color: blue; color: red".toList ∧
    Sanitize simpleParser
        ⟨twoPatternPolicy.elsAndStyles, twoPatternsReversed, twoPatternPolicy.globalStyles⟩
        "my-element-demo-one".toList "color: blue; color: red".toList =
      Sanitize simpleParser twoPatternPolicy "my-element-demo-one".toList
        "color: blue; color: red".toList) ∧
    Sanitize simpleParser twoPatternPolicy "my-element-demo-one".toList
      "color: blue; color: red".toList = "color: blue; color: red".toList :=
  ⟨by decide,
    ⟨twoPatternsReversed, List.reverse_perm _ |>.symm,
      List.forall₂_same.mpr (fun _ _ => ⟨rfl, List.Perm.refl _⟩)⟩,
    ⟨by decide, by decide⟩,
    sanitize_iteration_order simpleParser twoPatternPolicy twoPatternsReversed
      "my-element-demo-one".toList "color: blue; color: red".toList (by decide)
      ⟨twoPatternsReversed, List.reverse_perm _ |>.symm,
        List.forall₂_same.mpr (fun _ _ => ⟨rfl, List.Perm.refl _⟩)⟩,
    by decide⟩

/-! ## Element names at commit and at lookup -/

/-- C11, as stated, fails: the rule committed with `OnElements("span")` applies
to the name `span` and not to the name `SPAN`, which is looked up as received. -/
theorem upper_case_name_not_resolved :
    ToLower "SPAN".toList = "span".toList ∧
    HasPolicies spanColorPolicy "SPAN".toList = false ∧
    HasPolicies spanColorPolicy (ToLower "SPAN".toList) = true ∧
    Sanitize simpleParser spanColorPolicy "SPAN".toList "color: red".toList = [] ∧
    Sanitize simpleParser spanColorPolicy (ToLower "SPAN".toList) "color: red".toList =
      "color: red".toList := by
  decide

theorem count_pos_of_mem (l : List GoString) (a : GoString) (h : a ∈ l) :
    0 < l.count a := by
  induction l with
  | nil => cases h
  | cons b rest ih =>
    by_cases hab : a = b
    · subst hab
      rw [count_cons_self]
      omega
    · rw [count_cons_ne _ _ _ hab]
      rcases List.mem_cons.mp h with h | h
      · exact absurd h hab
      · exact ih h

/-- A run of `Sanitize` depends on the policy through the exact-element entry
of the name, the pattern map and the global rules only. -/
theorem sanitizeRun_congr_policy [Unicode]
    (ParseDeclarations : GoString → Option (List Declaration))
    (p q : Policy) (name style : GoString)
    (hexact : q.elsAndStyles.lookup name = p.elsAndStyles.lookup name)
    (hpattern : q.elsMatchingAndStyles = p.elsMatchingAndStyles)
    (hglobal : q.globalStyles = p.globalStyles) :
    HasPolicies q name = HasPolicies p name ∧
    SanitizeRun ParseDeclarations q name style =
      SanitizeRun ParseDeclarations p name style := by
  have hhas : HasPolicies q name = HasPolicies p name := by
    unfold HasPolicies
    rw [hexact, hpattern, hglobal]
  have hres : resolveStyles q name = resolveStyles p name := by
    unfold resolveStyles
    rw [hexact, hpattern]
  have hdecl : sanitizeDeclaration q = sanitizeDeclaration p := by
    funext sps clean dec
    unfold sanitizeDeclaration
    rw [hglobal]
  refine ⟨hhas, ?_⟩
  unfold SanitizeRun
  rw [hhas, hres, hdecl]

theorem onElement_lookup_other (f : GoString → stylePolicy) (element name : GoString)
    (hne : ¬ name = element) (names : List GoString) (q : Policy) :
    (names.foldl
      (fun p attr =>
        let styles := (p.elsAndStyles.lookup element).getD []
        let sp := f attr
        let styles := mapSet styles attr ((styles.lookup attr).getD [] ++ [sp])
        { p with elsAndStyles := mapSet p.elsAndStyles element styles })
      q).elsAndStyles.lookup name = q.elsAndStyles.lookup name := by
  induction names generalizing q with
  | nil => rfl
  | cons a rest ih =>
    rw [List.foldl_cons, ih]
    simp only
    rw [lookup_mapSet, if_neg hne]

/-- `OnElements` leaves alone the exact-element entry of every name that is
not the lowercase form of one of its arguments. -/
theorem onElements_lookup_other [Unicode]
    (GetDefaultHandler : GoString → Option (GoString → Bool))
    (b : PolicyBuilder) (p : Policy) (elements : List GoString) (name : GoString)
    (h : name ∉ elements.map ToLower) :
    (b.OnElements GetDefaultHandler p elements).elsAndStyles.lookup name =
      p.elsAndStyles.lookup name := by
  unfold PolicyBuilder.OnElements
  induction elements generalizing p with
  | nil => rfl
  | cons element rest ih =>
    rw [List.foldl_cons]
    rw [List.map_cons, List.mem_cons, not_or] at h
    rw [ih _ h.2]
    exact onElement_lookup_other (b.stylePolicy GetDefaultHandler) (ToLower element) name h.1
      b.propertyNames p

/-- C11, amended: `OnElements` stores its rules under the lowercase form of
the element names, and scope resolution looks the name up as received. After
`OnElements(elements)`, for an element `E` of the list and a staged property
`k`, `HasPolicies` holds of the lowercase form of `E` and a declaration with
lookup name `k` that the committed rule accepts is emitted for that name; for
every name that is not the lowercase form of one of the elements, `HasPolicies`
and the whole run of `Sanitize` are what they were before the commit. -/
theorem commit_lowercases_lookup_does_not [Unicode]
    (GetDefaultHandler : GoString → Option (GoString → Bool))
    (ParseDeclarations : GoString → Option (List Declaration))
    (b : PolicyBuilder) (p : Policy) (elements : List GoString) (E k name style : GoString)
    (decs : List Declaration) (dec : Declaration)
    (hE : E ∈ elements) (hk : k ∈ b.propertyNames)
    (hparse : ParseDeclarations (prepareStyle style) = some decs) (hdec : dec ∈ decs)
    (hlook : lookupName dec.Property = k)
    (hacc : ruleAccepts (b.stylePolicy GetDefaultHandler k) (normalizedValue dec.Value) = true)
    (hname : name ∉ elements.map ToLower) :
    (HasPolicies (b.OnElements GetDefaultHandler p elements) (ToLower E) = true ∧
      declText dec ∈ (SanitizeRun ParseDeclarations (b.OnElements GetDefaultHandler p elements)
        (ToLower E) style).clean) ∧
    (HasPolicies (b.OnElements GetDefaultHandler p elements) name = HasPolicies p name ∧
      SanitizeRun ParseDeclarations (b.OnElements GetDefaultHandler p elements) name style =
        SanitizeRun ParseDeclarations p name style ∧
      Sanitize ParseDeclarations (b.OnElements GetDefaultHandler p elements) name style =
        Sanitize ParseDeclarations p name style) := by
  obtain ⟨hpat, hglob, hrules⟩ := onElements_frame GetDefaultHandler b p elements
  constructor
  · have hc1 : 0 < (elements.map ToLower).count (ToLower E) :=
      count_pos_of_mem _ _ (List.mem_map_of_mem _ hE)
    have hc2 : 0 < b.propertyNames.count k := count_pos_of_mem _ _ hk
    have hmem : b.stylePolicy GetDefaultHandler k ∈
        (b.OnElements GetDefaultHandler p elements).elementRules (ToLower E) k := by
      rw [hrules (ToLower E) k]
      refine List.mem_append_right _ (List.mem_replicate.mpr ⟨?_, rfl⟩)
      exact Nat.ne_of_gt (Nat.mul_pos hc1 hc2)
    unfold Policy.elementRules ruleList at hmem
    have hlen : (((b.OnElements GetDefaultHandler p elements).elsAndStyles.lookup
        (ToLower E)).getD []).length > 0 := by
      cases hentry : ((b.OnElements GetDefaultHandler p elements).elsAndStyles.lookup
          (ToLower E)).getD [] with
      | nil =>
        rw [hentry] at hmem
        simp [List.lookup] at hmem
      | cons e rest => simp
    have hres : resolveStyles (b.OnElements GetDefaultHandler p elements) (ToLower E) =
        ((b.OnElements GetDefaultHandler p elements).elsAndStyles.lookup (ToLower E)).getD [] := by
      unfold resolveStyles
      simp only
      rw [if_neg (by omega)]
    refine ⟨(hasPolicies_eq_true _ _).mpr (Or.inr (Or.inl hlen)), ?_⟩
    rw [sanitizeRun_clean_of_parse _ _ _ _ _ hparse, List.mem_flatMap]
    refine ⟨dec, hdec, List.mem_replicate.mpr ⟨?_, rfl⟩⟩
    have hpos : 0 < acceptCount
        ((resolveStyles (b.OnElements GetDefaultHandler p elements) (ToLower E)).lookup
          (lookupName dec.Property)) (normalizedValue dec.Value) := by
      unfold acceptCount
      rw [hres, hlook]
      exact List.countP_pos_iff.mpr ⟨_, hmem, hacc⟩
    unfold emitCount
    omega
  · have hexact := onElements_lookup_other GetDefaultHandler b p elements name hname
    obtain ⟨hhas, hrun⟩ := sanitizeRun_congr_policy ParseDeclarations p
      (b.OnElements GetDefaultHandler p elements) name style hexact hpat hglob
    refine ⟨hhas, hrun, ?_⟩
    unfold Sanitize
    rw [hrun]

/-- Witness of the amended C11: the rule for `color` committed with
`OnElements("SPAN")` applies to the name `span` and not to the name `SPAN`. -/
theorem commit_lowercases_lookup_does_not_witness :
    ToLower "SPAN".toList = "span".toList ∧
    "SPAN".toList ∉ ["SPAN".toList].map ToLower ∧
    ((HasPolicies (colorBuilder.OnElements noDefaultHandlers NewPolicy ["SPAN".toList])
          (ToLower "SPAN".toList) = true ∧
        declText ⟨"color".toList, "red".toList⟩ ∈
          (SanitizeRun simpleParser
            (colorBuilder.OnElements noDefaultHandlers NewPolicy ["SPAN".toList])
            (ToLower "SPAN".toList) "color: red".toList).clean) ∧
      (HasPolicies (colorBuilder.OnElements noDefaultHandlers NewPolicy ["SPAN".toList])
          "SPAN".toList = HasPolicies NewPolicy "SPAN".toList ∧
        SanitizeRun simpleParser
            (colorBuilder.OnElements noDefaultHandlers NewPolicy ["SPAN".toList])
            "SPAN".toList "color: red".toList =
          SanitizeRun simpleParser NewPolicy "SPAN".toList "color: red".toList ∧
        Sanitize simpleParser
            (colorBuilder.OnElements noDefaultHandlers NewPolicy ["SPAN".toList])
            "SPAN".toList "color: red".toList =
          Sanitize simpleParser NewPolicy "SPAN".toList "color: red".toList)) ∧
    Sanitize simpleParser (colorBuilder.OnElements noDefaultHandlers NewPolicy ["SPAN".toList])
      "span".toList "color: red".toList = "color: red".toList ∧
    Sanitize simpleParser (colorBuilder.OnElements noDefaultHandlers NewPolicy ["SPAN".toList])
      "SPAN".toList "color: red".toList = [] :=
  ⟨by decide, by decide,
    commit_lowercases_lookup_does_not noDefaultHandlers simpleParser colorBuilder NewPolicy
      ["SPAN".toList] "SPAN".toList "color".toList "SPAN".toList "color: red".toList
      [⟨"color".toList, "red".toList⟩] ⟨"color".toList, "red".toList⟩
      (by decide) (by decide) (by decide) (by decide) (by decide) (by decide) (by decide),
    by decide, by decide⟩

end Css
